import Mathlib

/-!
# pagoda_ext: the pager, the admin name helpers, the container and `main`

A shallow embedding of the Go code: `pkg/pager/pager.go` and its callers,
`ent/admin/extension.go`, `pkg/services/container.go`, `pkg/tasks` and `cmd/web/main.go`.

* Go `string` is a byte sequence: `GoString := List Byte` with `Byte := Fin 256`.
* Go `int` is the 64-bit two's complement integer: values are `Int`, and
  arithmetic that can overflow goes through `wrap64`.
* Go `float64` is IEEE 754 binary64 with round-to-nearest, ties-to-even: `Float64`.
* Go `url.Values` (`map[string][]string`) is a finite map with unique keys: `url.Values`.
* A method with a pointer receiver is a function from the receiver's state to the
  new state (and the returned value).
* Go `rune` is a natural number; `[]rune(s)` and `string(runes)` are `utf8.decodeRunes`
  and `utf8.encodeRunes`. The Unicode case tables above ASCII are a parameter.
* Code with effects (`Shutdown`, `NewContainer`, `main`, `Work`) returns the list of the
  calls it makes, in order, with its result; the outcome of every call that can fail is
  an input.
-/

set_option maxRecDepth 4000

/-! ## Go strings -/

/-- One byte of a Go string. -/
abbrev Byte := Fin 256

/-- A Go `string`: an immutable sequence of bytes. -/
abbrev GoString := List Byte

/-- The Go string written as the ASCII literal `s`. -/
def ascii (s : String) : GoString := s.toList.map (fun c => Fin.ofNat c.toNat)

/-- Byte-wise lexicographic `a <= b`, the order `slices.Sort` uses on strings. -/
def GoString.le : GoString → GoString → Bool
  | [], _ => true
  | _ :: _, [] => false
  | a :: as, b :: bs => decide (a < b) || (decide (a = b) && GoString.le as bs)

/-! ## Go machine integers -/

/-- Smallest value of a Go `int` on a 64-bit platform. -/
def minInt64 : Int := -(2 ^ 63)

/-- Largest value of a Go `int` on a 64-bit platform. -/
def maxInt64 : Int := 2 ^ 63 - 1

/-- The value of the Go `int` a mathematical result wraps around to. -/
def wrap64 (x : Int) : Int := (x + 2 ^ 63) % 2 ^ 64 - 2 ^ 63

/-- Membership in the range of a Go `int`. -/
def inInt64 (x : Int) : Prop := minInt64 ≤ x ∧ x ≤ maxInt64

instance (x : Int) : Decidable (inInt64 x) := by
  unfold inInt64; infer_instance

/-! ## Go float64 -/

/-- A `float64` value. A finite value is `(-1)^neg * mant * 2^exp`; the sign of a zero
is not tracked. The exponent range of binary64 is not modelled: every finite value that
arises below is a quotient of two 64-bit integers, of magnitude between `2^-64` and
`2^64`, where binary64 neither overflows nor goes subnormal. -/
inductive Float64 where
  | finite (neg : Bool) (mant : Nat) (exp : Int)
  | inf (neg : Bool)
  | nan
  deriving DecidableEq, Repr

/-- Number of binary digits of `n` (`fuel` bounds the recursion; `n` itself is enough). -/
def bitLenAux : Nat → Nat → Nat
  | 0, _ => 0
  | fuel + 1, n => if n = 0 then 0 else bitLenAux fuel (n / 2) + 1

/-- Number of binary digits of `n`: `2^(bitLen n - 1) <= n < 2^(bitLen n)` for `n > 0`. -/
def bitLen (n : Nat) : Nat := bitLenAux n n

/-- The integer `e` with `2^e <= n / d < 2^(e+1)`, for `n, d > 0`. -/
def floorLog2Ratio (n d : Nat) : Int :=
  let a := bitLen n
  let b := bitLen d
  if d * 2 ^ a ≤ n * 2 ^ b then (a : Int) - b else (a : Int) - b - 1

/-- Round the positive rational `n / d` to 53 significant bits, to nearest, ties to
even: the result `(m, e)` stands for `m * 2^e`. -/
def roundRatio (n d : Nat) : Nat × Int :=
  let s : Int := 52 - floorLog2Ratio n d
  let N := n * 2 ^ s.toNat
  let D := d * 2 ^ (-s).toNat
  let q := N / D
  let r := N % D
  let m := if 2 * r < D then q else if D < 2 * r then q + 1 else if q % 2 = 0 then q else q + 1
  (m, -s)

/-- The conversion `float64(i)` of a Go `int`. -/
def float64OfInt (i : Int) : Float64 :=
  if i = 0 then .finite false 0 0
  else
    let r := roundRatio i.natAbs 1
    .finite (decide (i < 0)) r.1 r.2

/-- The quotient `x / y` of two `float64` values. -/
def Float64.div : Float64 → Float64 → Float64
  | .nan, _ => .nan
  | _, .nan => .nan
  | .inf _, .inf _ => .nan
  | .inf s, .finite t _ _ => .inf (xor s t)
  | .finite s _ _, .inf t => .finite (xor s t) 0 0
  | .finite s m e, .finite t m2 e2 =>
    if m2 = 0 then (if m = 0 then .nan else .inf (xor s t))
    else if m = 0 then .finite (xor s t) 0 0
    else
      let r := roundRatio (m * 2 ^ (e - e2).toNat) (m2 * 2 ^ (e2 - e).toNat)
      .finite (xor s t) r.1 r.2

namespace math

/-- Go `math.Ceil`: the least integer value greater than or equal to `x`. -/
def Ceil : Float64 → Float64
  | .finite neg m e =>
    if 0 ≤ e then .finite neg m e
    else if neg then .finite neg (m / 2 ^ (-e).toNat) 0
    else .finite neg ((m + 2 ^ (-e).toNat - 1) / 2 ^ (-e).toNat) 0
  | x => x

end math

/-- The integer a finite `float64` truncates to (fraction discarded). -/
def Float64.trunc (neg : Bool) (m : Nat) (e : Int) : Int :=
  let a : Nat := if 0 ≤ e then m * 2 ^ e.toNat else m / 2 ^ (-e).toNat
  if neg then -(a : Int) else a

/-- The conversion `int(x)` of a `float64`. When the value is not representable as an
`int` the Go specification leaves the result to the implementation: `impl` is that
implementation-dependent result. -/
def intOfFloat64 (impl : Float64 → Int) : Float64 → Int
  | .finite neg m e =>
    if inInt64 (Float64.trunc neg m e) then Float64.trunc neg m e
    else impl (.finite neg m e)
  | x => impl x

/-- What `int(x)` gives on amd64 for a value out of range. -/
def convAmd64 : Float64 → Int := fun _ => minInt64

/-! ## strconv -/

namespace strconv

/-- The value of a decimal digit byte. -/
def digitVal (c : Byte) : Option Nat :=
  if 48 ≤ c.val ∧ c.val ≤ 57 then some (c.val - 48) else none

/-- The number a string of decimal digits denotes, given the value `acc` of the digits
already read; `none` when a byte is not a digit. -/
def parseDigits : Nat → GoString → Option Nat
  | acc, [] => some acc
  | acc, c :: cs =>
    match digitVal c with
    | none => none
    | some d => parseDigits (acc * 10 + d) cs

/-- Go `strconv.Atoi`: `some n` when the call returns `(n, nil)`, `none` when it returns
an error (empty input, a byte that is not a digit after the optional sign, or a value
outside the range of `int`). -/
def Atoi (s : GoString) : Option Int :=
  match s with
  | [] => none
  | c :: rest =>
    let neg := decide (c = 45)
    let ds := if c = 45 ∨ c = 43 then rest else s
    if ds = [] then none
    else
      match parseDigits 0 ds with
      | none => none
      | some n =>
        let v : Int := if neg then -(n : Int) else n
        if inInt64 v then some v else none

/-- The decimal digits of `n`, most significant first (`fuel` bounds the recursion). -/
def digitsAux : Nat → Nat → GoString → GoString
  | 0, _, acc => acc
  | fuel + 1, n, acc =>
    let acc := (Fin.ofNat (48 + n % 10) : Byte) :: acc
    if n / 10 = 0 then acc else digitsAux fuel (n / 10) acc

/-- Go `strconv.Itoa`: the decimal rendering of an `int`. -/
def Itoa (i : Int) : GoString :=
  if i < 0 then (45 : Byte) :: digitsAux (i.natAbs + 1) i.natAbs []
  else digitsAux (i.natAbs + 1) i.natAbs []

end strconv

/-! ## net/url -/

namespace url

/-- Go `url.Values`: a map from a key to its list of values. -/
abbrev Values := AList (fun _ : GoString => List GoString)

/-- The map expression `v[key]`: the values under `key`, the nil slice when absent. -/
def Values.at (v : Values) (key : GoString) : List GoString :=
  (v.lookup key).getD []

/-- Go `Values.Get`: the first value under `key`, or the empty string. -/
def Values.Get (v : Values) (key : GoString) : GoString :=
  match v.at key with
  | [] => []
  | x :: _ => x

/-- Go `Values.Set`: `key` is bound to the single value `value`. -/
def Values.Set (v : Values) (key value : GoString) : Values :=
  v.insert key [value]

/-- Go `Values.Del`: the binding of `key` is removed. -/
def Values.Del (v : Values) (key : GoString) : Values :=
  v.erase key

/-- The built-in `len(v)`: the number of keys. -/
def Values.len (v : Values) : Nat := v.keys.length

/-- The digits `"0123456789ABCDEF"` of a percent escape. -/
def upperhex : GoString := ascii "0123456789ABCDEF"

/-- Go `shouldEscape(c, encodeQueryComponent)`: every byte except the unreserved ones
(letters, digits, `-`, `_`, `.`, `~`) is escaped. -/
def shouldEscape (c : Byte) : Bool :=
  if (97 ≤ c.val ∧ c.val ≤ 122) ∨ (65 ≤ c.val ∧ c.val ≤ 90) ∨ (48 ≤ c.val ∧ c.val ≤ 57) then false
  else if c = 45 ∨ c = 95 ∨ c = 46 ∨ c = 126 then false
  else true

/-- The bytes one byte of the input contributes to `QueryEscape`: itself, `+` for a
space, or `%XX`. -/
def escapeByte (c : Byte) : GoString :=
  if shouldEscape c then
    if c = 32 then [43]
    else [37, upperhex.getD (c.val / 16) 0, upperhex.getD (c.val % 16) 0]
  else [c]

/-- Go `url.QueryEscape`. -/
def QueryEscape : GoString → GoString
  | [] => []
  | c :: cs => escapeByte c ++ QueryEscape cs

/-- Go `ishex`. -/
def ishex (c : Byte) : Bool :=
  (48 ≤ c.val ∧ c.val ≤ 57) ∨ (97 ≤ c.val ∧ c.val ≤ 102) ∨ (65 ≤ c.val ∧ c.val ≤ 70)

/-- Go `unhex`. -/
def unhex (c : Byte) : Nat :=
  if 48 ≤ c.val ∧ c.val ≤ 57 then c.val - 48
  else if 97 ≤ c.val ∧ c.val ≤ 102 then c.val - 97 + 10
  else if 65 ≤ c.val ∧ c.val ≤ 70 then c.val - 65 + 10
  else 0

/-- Go `url.QueryUnescape`: `none` when the call returns an error (a `%` that is not
followed by two hexadecimal digits). -/
def QueryUnescape : GoString → Option GoString
  | [] => some []
  | c :: rest =>
    if c = 37 then
      match rest with
      | h1 :: h2 :: rest2 =>
        if ishex h1 && ishex h2 then
          (QueryUnescape rest2).map (fun t => (Fin.ofNat (unhex h1 * 16 + unhex h2) : Byte) :: t)
        else none
      | _ => none
    else if c = 43 then (QueryUnescape rest).map (fun t => (32 : Byte) :: t)
    else (QueryUnescape rest).map (fun t => c :: t)

/-- One turn of the inner loop of `Values.Encode`: the pair `key=value` is appended to
the buffer, after a `&` when the buffer is not empty. -/
def encodePair (keyEscaped : GoString) (buf : GoString) (value : GoString) : GoString :=
  (if buf.length > 0 then buf ++ [38] else buf) ++ keyEscaped ++ [61] ++ QueryEscape value

/-- The keys of `v` as `Values.Encode` visits them: sorted. -/
def Values.sortedKeys (v : Values) : List GoString :=
  v.keys.insertionSort (fun a b => GoString.le a b = true)

/-- Go `Values.Encode`: the pairs `key=value`, both escaped, joined by `&`, the keys
in sorted order and the values of a key in their order. -/
def Values.Encode (v : Values) : GoString :=
  if v.len = 0 then []
  else
    v.sortedKeys.foldl
      (fun buf k => (v.at k).foldl (encodePair (QueryEscape k)) buf) []

/-- Go `strings.Cut(s, sep)` for a separator of one byte: the text before the first
`sep`, the text after it, and whether `sep` was found. -/
def cut (sep : Byte) : GoString → GoString × GoString × Bool
  | [] => ([], [], false)
  | c :: cs =>
    if c = sep then ([], cs, true)
    else ((c :: (cut sep cs).1), (cut sep cs).2.1, (cut sep cs).2.2)

/-- The loop of Go `parseQuery`; `fuel` bounds the number of turns (each turn shortens
`query`, so its length is enough). -/
def parseQueryLoop : Nat → Values → GoString → Values
  | 0, m, _ => m
  | fuel + 1, m, query =>
    if query = [] then m
    else
      let pair := (cut 38 query).1
      let query1 := (cut 38 query).2.1
      if (59 : Byte) ∈ pair then parseQueryLoop fuel m query1
      else if pair = [] then parseQueryLoop fuel m query1
      else
        match QueryUnescape (cut 61 pair).1 with
        | none => parseQueryLoop fuel m query1
        | some key =>
          match QueryUnescape (cut 61 pair).2.1 with
          | none => parseQueryLoop fuel m query1
          | some value => parseQueryLoop fuel (m.insert key (m.at key ++ [value])) query1

/-- Go `strings.Count(s, sep)` for a separator of one byte. -/
def count (sep : Byte) (s : GoString) : Nat := List.count sep s

/-- Go `defaultMaxParams`: the number of parameters a query may have when the setting
`urlmaxqueryparams` is not given. -/
def defaultMaxParams : Nat := 10000

/-- Go `urlParamsWithinMax` with the setting `urlmaxqueryparams` not given. -/
def urlParamsWithinMax (params : Nat) : Bool := decide (params ≤ defaultMaxParams)

/-- Go `url.ParseQuery` with the error dropped, as `URL.Query` does. `parseQuery` first
counts the parameters, `strings.Count(query, "&") + 1`: above the limit it returns an
error at once and the map stays empty. -/
def ParseQuery (query : GoString) : Values :=
  if urlParamsWithinMax (count 38 query + 1) then parseQueryLoop query.length ∅ query
  else ∅

end url

/-! ## pkg/pager -/

namespace pager

/-- The query key used to indicate the current page. -/
def QueryKey : GoString := ascii "page"

/-- The pager. -/
structure Pager where
  /-- Total amount of items in the result set. -/
  Items : Int
  /-- Current page number. -/
  Page : Int
  /-- Amount of items to display per page. -/
  ItemsPerPage : Int
  /-- Total amount of pages in the result set. -/
  Pages : Int
  /-- All query parameters of the request. -/
  QueryParams : url.Values
  deriving DecidableEq

/-- The loop `for k, v := range src { dst[k] = v }`, over the entries of `src` in the
order the iteration meets them. -/
def copyInto (dst : url.Values) (src : List (Sigma fun _ : GoString => List GoString)) :
    url.Values :=
  src.foldl (fun m kv => m.insert kv.1 kv.2) dst

/-- Go `NewPager`; `queryParams` is what `ctx.QueryParams()` returns. -/
def NewPager (queryParams : url.Values) (itemsPerPage : Int) : Pager :=
  let p : Pager :=
    { Items := 0, Page := 1, ItemsPerPage := itemsPerPage, Pages := 1,
      QueryParams := copyInto ∅ queryParams.entries }
  let pageStr := queryParams.Get QueryKey
  if pageStr ≠ [] then
    match strconv.Atoi pageStr with
    | some pageInt => if pageInt > 0 then { p with Page := pageInt } else p
    | none => p
  else p

/-- Go `(*Pager).SetItems`. -/
def Pager.SetItems (impl : Float64 → Int) (p : Pager) (items : Int) : Pager :=
  let p1 : Pager := { p with Items := items }
  let p2 : Pager :=
    if items > 0 then
      let quotient := (float64OfInt items).div (float64OfInt p1.ItemsPerPage)
      { p1 with Pages := intOfFloat64 impl (math.Ceil quotient) }
    else { p1 with Pages := 1 }
  if p2.Page > p2.Pages then { p2 with Page := p2.Pages } else p2

/-- Go `(*Pager).IsBeginning`: the pager after the call and the returned value. -/
def Pager.IsBeginning (p : Pager) : Pager × Bool := (p, decide (p.Page = 1))

/-- Go `(*Pager).IsEnd`: the pager after the call and the returned value. -/
def Pager.IsEnd (p : Pager) : Pager × Bool := (p, decide (p.Page ≥ p.Pages))

/-- Go `(*Pager).GetOffset`: the pager after the call and the returned value. -/
def Pager.GetOffset (p : Pager) : Pager × Int :=
  let p1 : Pager := if p.Page = 0 then { p with Page := 1 } else p
  (p1, wrap64 (wrap64 (p1.Page - 1) * p1.ItemsPerPage))

/-- Go `(*Pager).PageURL`: the pager after the call and the returned string. -/
def Pager.PageURL (p : Pager) (pageNumber : Int) : Pager × GoString :=
  let newParams : url.Values := copyInto ∅ p.QueryParams.entries
  let newParams1 : url.Values :=
    if pageNumber ≤ 1 then newParams.Del QueryKey
    else newParams.Set QueryKey (strconv.Itoa pageNumber)
  if newParams1.len = 0 then (p, [])
  else (p, (63 : Byte) :: newParams1.Encode)

end pager

/-! ## pkg/pager with the map of the pager as a reference

A Go map is a reference: `Pager.QueryParams` points to a map object that other holders
of the reference see. Here the map objects live in a `Heap`, and the statements of
`PageURL` that touch a map are writes to the heap. -/

namespace pager.byref

/-- The map objects allocated so far; the object with address `i` is `maps[i]`. -/
structure Heap where
  maps : List url.Values

/-- A value of a map type: `none` is the nil map, `some i` the map object at address `i`. -/
abbrev MapRef := Option Nat

/-- The content of the map a reference points to (a nil map reads as empty). -/
def Heap.read (h : Heap) : MapRef → url.Values
  | none => ∅
  | some i => (h.maps[i]?).getD ∅

/-- The built-in `make(url.Values)`: a new empty map object and its address. -/
def Heap.make (h : Heap) : Heap × Nat :=
  ({ maps := h.maps ++ [∅] }, h.maps.length)

/-- The heap after the map object at address `i` has been given the content `v`. -/
def Heap.write (h : Heap) (i : Nat) (v : url.Values) : Heap :=
  { maps := h.maps.set i v }

/-- The pager, its `QueryParams` a reference into the heap. -/
structure Pager where
  Items : Int
  Page : Int
  ItemsPerPage : Int
  Pages : Int
  QueryParams : MapRef
  deriving DecidableEq

/-- The reference of the pager points to an allocated map object, or is nil. -/
def Pager.allocated (p : Pager) (h : Heap) : Prop :=
  ∀ i, p.QueryParams = some i → i < h.maps.length

instance (p : Pager) (h : Heap) : Decidable (p.allocated h) := by
  unfold Pager.allocated
  cases p.QueryParams with
  | none => exact isTrue (fun i e => by cases e)
  | some j =>
    by_cases hj : j < h.maps.length
    · exact isTrue (fun i e => by cases e; exact hj)
    · exact isFalse (fun hall => hj (hall j rfl))

/-- The pager as a value: its fields, and the content of the map it points to. -/
def Pager.deref (p : Pager) (h : Heap) : pager.Pager :=
  { Items := p.Items, Page := p.Page, ItemsPerPage := p.ItemsPerPage, Pages := p.Pages,
    QueryParams := h.read p.QueryParams }

/-- The loop `for k, v := range src { dst[k] = v }` with `dst` a map object. -/
def copyLoop (h : Heap) (dst : Nat) (src : List (Sigma fun _ : GoString => List GoString)) :
    Heap :=
  src.foldl (fun h1 kv => h1.write dst ((h1.read (some dst)).insert kv.1 kv.2)) h

/-- Go `(*Pager).PageURL` on the heap: the heap and the pager after the call, and the
returned string. -/
def Pager.PageURL (h : Heap) (p : Pager) (pageNumber : Int) : Heap × Pager × GoString :=
  let newParams : Nat := h.make.2
  let h1 : Heap := copyLoop h.make.1 newParams (h.make.1.read p.QueryParams).entries
  let h2 : Heap :=
    if pageNumber ≤ 1 then h1.write newParams ((h1.read (some newParams)).Del QueryKey)
    else h1.write newParams ((h1.read (some newParams)).Set QueryKey (strconv.Itoa pageNumber))
  if (h2.read (some newParams)).len = 0 then (h2, p, [])
  else (h2, p, (63 : Byte) :: (h2.read (some newParams)).Encode)

end pager.byref

/-! ## ent/admin -/

namespace admin

/-- The fields of `admin.EntityList` the pager of the list page reads. -/
structure EntityList where
  /-- Current page of the list. -/
  Page : Int
  /-- Whether a further page exists. -/
  HasNextPage : Bool
  deriving DecidableEq

end admin

/-! ## pkg/ui/components -/

namespace components

/-- The `hx-get`, `hx-swap`, `hx-target` attributes of a link. -/
structure HxAttrs where
  hxGet : GoString
  hxSwap : GoString
  hxTarget : GoString
  deriving DecidableEq

/-- One `a` element of the pagination controls. -/
structure PagerLink where
  /-- Whether the `disabled` attribute is rendered. -/
  disabled : Bool
  /-- The `href` attribute. -/
  href : GoString
  /-- The htmx attributes, when rendered. -/
  hx : Option HxAttrs
  deriving DecidableEq

/-- The node `Pager` generates: previous link, the page the label shows, next link. -/
structure PagerNode where
  prev : PagerLink
  labelPage : Int
  next : PagerLink
  deriving DecidableEq

/-- Go `components.Pager`. -/
def Pager (currentPage : Int) (prevPageURL nextPageURL : GoString) (hasNext : Bool)
    (hxTarget : GoString) : PagerNode :=
  { prev :=
      { disabled := decide (currentPage ≤ 1) || decide (prevPageURL = [])
        href := prevPageURL
        hx := if hxTarget.length > 0 ∧ prevPageURL ≠ [] then
            some { hxGet := prevPageURL, hxSwap := ascii "outerHTML", hxTarget := hxTarget }
          else none }
    labelPage := currentPage
    next :=
      { disabled := !hasNext || decide (nextPageURL = [])
        href := nextPageURL
        hx := if hxTarget.length > 0 ∧ nextPageURL ≠ [] ∧ hasNext = true then
            some { hxGet := nextPageURL, hxSwap := ascii "outerHTML", hxTarget := hxTarget }
          else none } }

end components

/-! ## pkg/ui/pages -/

namespace pages

/-- The arguments `renderAdminPager` hands to `components.Pager`. -/
structure PagerArgs where
  currentPage : Int
  prevPageURL : GoString
  nextPageURL : GoString
  hasNext : Bool
  hxTarget : GoString
  deriving DecidableEq

/-- The body of Go `renderAdminPager` up to the call of `Pager`; `queryParams` is the
parsed query of the request `r.Context`. -/
def adminPagerArgs (queryParams : url.Values) (entityList : admin.EntityList) : PagerArgs :=
  let itemsPerPage : Int := 25
  let p := pager.NewPager queryParams itemsPerPage
  let currentPage := entityList.Page
  let hasNext := entityList.HasNextPage
  let prev : pager.Pager × GoString :=
    if currentPage > 1 then p.PageURL (wrap64 (currentPage - 1)) else (p, [])
  let next : pager.Pager × GoString :=
    if hasNext then prev.1.PageURL (wrap64 (currentPage + 1)) else (prev.1, [])
  { currentPage := currentPage, prevPageURL := prev.2, nextPageURL := next.2,
    hasNext := hasNext, hxTarget := [] }

/-- Go `renderAdminPager`. -/
def renderAdminPager (queryParams : url.Values) (entityList : admin.EntityList) :
    components.PagerNode :=
  let a := adminPagerArgs queryParams entityList
  components.Pager a.currentPage a.prevPageURL a.nextPageURL a.hasNext a.hxTarget

end pages

/-! ## Errors and effects

The functions of `pkg/services`, `pkg/tasks` and `cmd/web` are run for their effects on
the outside world: calls to the web server, the River client, the ORM, the database.
A run is the list of these effects in the order the code performs them; the results the
outside world gives (an error or none) are inputs of the run. -/

/-- A non-nil Go `error`. -/
structure GoError where
  msg : GoString
  deriving DecidableEq

/-- The initialisation steps of `NewContainer` that come before `initRiver`. -/
inductive InitStep where
  | config | validator | web | cache | database | files | orm | auth | mail
  deriving DecidableEq

/-- One effect of a run. -/
inductive Event where
  /-- `c.Web.Shutdown(webCtx)`. -/
  | webShutdown
  /-- The deferred `webCancel()`. -/
  | webCancel
  /-- `c.River.Stop(riverCtx)`. -/
  | riverStop
  /-- The deferred `riverCancel()`. -/
  | riverCancel
  /-- `c.ORM.Close()`. -/
  | ormClose
  /-- `c.Database.Close()`. -/
  | databaseClose
  /-- `c.Cache.Close()`. -/
  | cacheClose
  /-- `log.Default().Error(msg, ...)`. -/
  | logError (msg : GoString)
  /-- `log.Default().Info(msg, ...)`. -/
  | logInfo (msg : GoString)
  /-- One of the `init` methods of the container. -/
  | init (step : InitStep)
  /-- `river.NewWorkers()`. -/
  | riverNewWorkers
  /-- `river.AddWorker(workers, w)` for a worker of the given job kind. -/
  | riverAddWorker (kind : GoString)
  /-- `river.NewClient(dbDriver, riverConfig)`. -/
  | riverNewClient
  /-- `handlers.BuildRouter(c)`. -/
  | buildRouter
  /-- `c.River.Migrate(ctx, river.MigrationDirectionUp, nil)`. -/
  | riverMigrate
  /-- `c.River.Start(ctx)`. -/
  | riverStart
  /-- The `go` statement that starts the goroutine of the HTTP server. -/
  | goServer
  /-- `tls.LoadX509KeyPair`. -/
  | loadTLS
  /-- `c.Web.StartServer(&srv)`. -/
  | webStartServer
  /-- The two `signal.Notify(quit, ...)`. -/
  | signalNotify
  /-- The receive `<-quit`. -/
  | waitQuit
  /-- `time.Sleep(d)`, `d` in seconds. -/
  | sleep (seconds : Nat)
  /-- `os.Exit(code)`. -/
  | osExit (code : Nat)
  deriving DecidableEq

/-- How a run of the process ends. -/
inductive Exit where
  /-- `os.Exit(code)` was called, or `main` returned (`code = 0`). -/
  | exited (code : Nat)
  /-- A `panic` was not recovered. -/
  | panicked
  /-- The process is still waiting for the interrupt signal. -/
  | waiting
  deriving DecidableEq

/-! ## pkg/tasks -/

namespace tasks

/-- The arguments of the email sending job. -/
structure EmailArgs where
  UserID : Int
  EmailAddress : GoString
  Subject : GoString
  Body : GoString
  deriving DecidableEq

/-- Go `EmailArgs.Kind`. -/
def EmailArgs.Kind (_ : EmailArgs) : GoString := ascii "send_email"

/-- The fields of a `river.Job[EmailArgs]` that `Work` can see. -/
structure Job where
  ID : Int
  Attempt : Int
  Args : EmailArgs
  deriving DecidableEq

/-- A `context.Context`, as far as a worker can observe it: whether it is cancelled. -/
structure Context where
  cancelled : Bool
  deriving DecidableEq

/-- Go `(*EmailWorker).Work`: its effects and the returned error. -/
def EmailWorker.Work (_ctx : Context) (_job : Job) : List Event × Option GoError :=
  ([.logInfo (ascii "Starting email task"), .sleep 2,
    .logInfo (ascii "Successfully processed email task")], none)

/-- Go `RegisterRiverWorkers`: the effects on the worker registry. -/
def RegisterRiverWorkers : List Event :=
  [.riverAddWorker (EmailArgs.Kind ⟨0, [], [], []⟩)]

end tasks

/-! ## pkg/services -/

namespace services

/-- What the outside world answers to the calls of `Shutdown`. -/
structure ShutdownOutcomes where
  /-- The result of `c.Web.Shutdown`. -/
  webShutdown : Option GoError
  /-- The result of `c.River.Stop`. -/
  riverStop : Option GoError
  /-- The result of `c.ORM.Close`. -/
  ormClose : Option GoError
  /-- The result of `c.Database.Close`. -/
  databaseClose : Option GoError
  deriving DecidableEq

/-- The effects of the River part of `Shutdown`. -/
def shutdownRiver (riverSet : Bool) (o : ShutdownOutcomes) : List Event :=
  if riverSet then
    match o.riverStop with
    | some _ => [.riverStop, .logError (ascii "failed to stop River client")]
    | none => [.riverStop]
  else []

/-- The deferred calls of `Shutdown` once it is past the River part. -/
def shutdownDeferred (riverSet : Bool) : List Event :=
  if riverSet then [.riverCancel, .webCancel] else [.webCancel]

/-- Go `(*Container).Shutdown`: its effects and the returned error; `riverSet` is
`c.River != nil`. -/
def Container.Shutdown (riverSet : Bool) (o : ShutdownOutcomes) :
    List Event × Option GoError :=
  match o.webShutdown with
  | some err => ([.webShutdown, .webCancel], some err)
  | none =>
    match o.ormClose with
    | some err =>
      ([.webShutdown] ++ shutdownRiver riverSet o ++ [.ormClose] ++ shutdownDeferred riverSet,
        some err)
    | none =>
      match o.databaseClose with
      | some err =>
        ([.webShutdown] ++ shutdownRiver riverSet o ++ [.ormClose, .databaseClose]
          ++ shutdownDeferred riverSet, some err)
      | none =>
        ([.webShutdown] ++ shutdownRiver riverSet o ++ [.ormClose, .databaseClose, .cacheClose]
          ++ shutdownDeferred riverSet, none)

/-- Which of the steps of `NewContainer` fail (each failure is a `panic`), and what
`river.NewClient` gives. -/
structure InitOutcomes where
  configFails : Bool
  cacheFails : Bool
  databaseFails : Bool
  filesFails : Bool
  ormFails : Bool
  mailFails : Bool
  riverClientFails : Bool
  deriving DecidableEq

/-- The steps of `NewContainer` before `initRiver`, in order, each with whether it
panics. -/
def initSteps (o : InitOutcomes) : List (InitStep × Bool) :=
  [(.config, o.configFails), (.validator, false), (.web, false), (.cache, o.cacheFails),
    (.database, o.databaseFails), (.files, o.filesFails), (.orm, o.ormFails),
    (.auth, false), (.mail, o.mailFails)]

/-- The steps are run in order up to the first that panics: the effects, and whether
all steps returned. -/
def runSteps : List (InitStep × Bool) → List Event × Bool
  | [] => ([], true)
  | (s, fails) :: rest =>
    if fails then ([.init s], false)
    else (.init s :: (runSteps rest).1, (runSteps rest).2)

/-- Go `(*Container).initRiver`: the effects, and whether it returned (it panics when
`river.NewClient` gives an error). -/
def Container.initRiver (o : InitOutcomes) : List Event × Bool :=
  ([.riverNewWorkers] ++ tasks.RegisterRiverWorkers ++ [.riverNewClient],
    !o.riverClientFails)

/-- Go `NewContainer`: the effects, and whether it returned. -/
def NewContainer (o : InitOutcomes) : List Event × Bool :=
  if (runSteps (initSteps o)).2 then
    ((runSteps (initSteps o)).1 ++ (Container.initRiver o).1, (Container.initRiver o).2)
  else ((runSteps (initSteps o)).1, false)

end services

/-! ## cmd/web -/

namespace web

/-- What the outside world answers in a run of `main`. -/
structure Env where
  /-- The outcomes of the steps of `NewContainer`. -/
  init : services.InitOutcomes
  /-- Whether `c.River` is nil after `NewContainer`. -/
  riverNil : Bool
  /-- The result of `handlers.BuildRouter`. -/
  buildRouter : Option GoError
  /-- The result of `c.River.Migrate`. -/
  migrate : Option GoError
  /-- The result of `c.River.Start`. -/
  start : Option GoError
  /-- Whether TLS is enabled in the configuration. -/
  tlsEnabled : Bool
  /-- The result of `tls.LoadX509KeyPair`. -/
  loadTLS : Option GoError
  /-- Whether `StartServer` returns `http.ErrServerClosed`. -/
  serverClosed : Bool
  /-- Whether an interrupt signal arrives. -/
  quit : Bool
  /-- The outcomes of the calls of `Shutdown`. -/
  shutdown : services.ShutdownOutcomes
  deriving DecidableEq

/-- Go `fatal(msg, err)` with a non-nil `err`. -/
def fatal (msg : GoString) : List Event := [.logError msg, .osExit 1]

/-- The deferred function of `main`, run when `main` returns. -/
def deferredShutdown (env : Env) : List Event × Exit :=
  match (services.Container.Shutdown (!env.riverNil) env.shutdown).2 with
  | some _ =>
    ((services.Container.Shutdown (!env.riverNil) env.shutdown).1
      ++ fatal (ascii "shutdown failed"), .exited 1)
  | none => ((services.Container.Shutdown (!env.riverNil) env.shutdown).1, .exited 0)

/-- The part of `main` from the `go` statement on. -/
def serve (env : Env) : List Event × Exit :=
  if env.quit then
    ([.goServer, .signalNotify, .waitQuit] ++ (deferredShutdown env).1,
      (deferredShutdown env).2)
  else ([.goServer, .signalNotify, .waitQuit], .waiting)

/-- The part of `main` that migrates and starts River, and what follows it. -/
def riverPhase (env : Env) : List Event × Exit :=
  if env.riverNil then serve env
  else
    match env.migrate with
    | some _ =>
      ([.logInfo (ascii "Migrating River schema..."), .riverMigrate]
        ++ fatal (ascii "failed to migrate River schema"), .exited 1)
    | none =>
      match env.start with
      | some _ =>
        ([.logInfo (ascii "Migrating River schema..."), .riverMigrate,
          .logInfo (ascii "River schema migration complete."),
          .logInfo (ascii "Starting River client..."), .riverStart]
          ++ fatal (ascii "failed to start River client"), .exited 1)
      | none =>
        ([.logInfo (ascii "Migrating River schema..."), .riverMigrate,
          .logInfo (ascii "River schema migration complete."),
          .logInfo (ascii "Starting River client..."), .riverStart,
          .logInfo (ascii "River client started.")] ++ (serve env).1, (serve env).2)

/-- Go `main`, the main goroutine: the effects in order, and how the run ends.
`handlers.BuildRouter` is one step: it builds the routes and neither registers River
workers nor calls the lifecycle methods of the River client. -/
def main (env : Env) : List Event × Exit :=
  if (services.NewContainer env.init).2 then
    match env.buildRouter with
    | some _ =>
      ((services.NewContainer env.init).1 ++ [.buildRouter]
        ++ fatal (ascii "failed to build the router"), .exited 1)
    | none =>
      ((services.NewContainer env.init).1 ++ [.buildRouter] ++ (riverPhase env).1,
        (riverPhase env).2)
  else ((services.NewContainer env.init).1, .panicked)

/-- The goroutine `main` starts for the HTTP server: its effects. -/
def serverGoroutine (env : Env) : List Event :=
  if env.tlsEnabled then
    match env.loadTLS with
    | some _ => [.loadTLS] ++ fatal (ascii "cannot load TLS certificate")
    | none =>
      if env.serverClosed then
        [.loadTLS, .webStartServer] ++ fatal (ascii "shutting down the server")
      else [.loadTLS, .webStartServer]
  else
    if env.serverClosed then [.webStartServer] ++ fatal (ascii "shutting down the server")
    else [.webStartServer]

end web

/-! ## ent/admin: the template functions -/

namespace field

/-- The constants of ent's `field.Type`. -/
inductive FieldType where
  | TypeInvalid | TypeBool | TypeTime | TypeJSON | TypeUUID | TypeBytes | TypeEnum
  | TypeString | TypeOther | TypeInt8 | TypeInt16 | TypeInt32 | TypeInt | TypeInt64
  | TypeUint8 | TypeUint16 | TypeUint32 | TypeUint | TypeUint64 | TypeFloat32 | TypeFloat64
  deriving DecidableEq

end field

namespace gen

/-- What `fieldIsPointer` reads of a `gen.Field`. -/
structure Field where
  /-- The `f.Type.Type`. -/
  TypeType : field.FieldType
  Optional : Bool
  Default : Bool
  Nillable : Bool
  /-- What the method `f.Sensitive()` returns. -/
  Sensitive : Bool
  deriving DecidableEq

end gen

/-! ## Runes: the conversions `[]rune(s)` and `string(runes)` -/

namespace utf8

/-- The rune `U+FFFD` that stands for an invalid encoding. -/
def RuneError : Nat := 0xFFFD

/-- The rune is a Unicode scalar value: at most `U+10FFFF` and not a surrogate. -/
def validRune (r : Nat) : Prop := r ≤ 0x10FFFF ∧ ¬ (0xD800 ≤ r ∧ r ≤ 0xDFFF)

instance (r : Nat) : Decidable (validRune r) := by
  unfold validRune; infer_instance

/-- Go `encoderune` for a rune that is a scalar value: its one to four bytes. -/
def encodeValid (r : Nat) : GoString :=
  if r ≤ 0x7F then [Fin.ofNat r]
  else if r ≤ 0x7FF then [Fin.ofNat (0xC0 + r / 64), Fin.ofNat (0x80 + r % 64)]
  else if r ≤ 0xFFFF then
    [Fin.ofNat (0xE0 + r / 4096), Fin.ofNat (0x80 + r / 64 % 64), Fin.ofNat (0x80 + r % 64)]
  else
    [Fin.ofNat (0xF0 + r / 262144), Fin.ofNat (0x80 + r / 4096 % 64),
      Fin.ofNat (0x80 + r / 64 % 64), Fin.ofNat (0x80 + r % 64)]

/-- Go `encoderune`: the UTF-8 encoding of a rune; a rune that is not a scalar value
is written as `U+FFFD`. -/
def encodeRune (r : Nat) : GoString :=
  if validRune r then encodeValid r else encodeValid RuneError

/-- The byte is a continuation byte `10xxxxxx`. -/
def isCont (b : Byte) : Bool := decide (0x80 ≤ b.val ∧ b.val ≤ 0xBF)

/-- Go `decoderune`, with the ASCII case of its callers: the rune at the start of a
non-empty string and the number of bytes it takes; an invalid encoding gives `U+FFFD`
and one byte. -/
def decodeRune : GoString → Nat × Nat
  | [] => (RuneError, 1)
  | b0 :: rest =>
    if b0.val < 0x80 then (b0.val, 1)
    else if 0xC0 ≤ b0.val ∧ b0.val < 0xE0 then
      match rest with
      | b1 :: _ =>
        if isCont b1 ∧ 0x7F < (b0.val - 0xC0) * 64 + (b1.val - 0x80) then
          ((b0.val - 0xC0) * 64 + (b1.val - 0x80), 2)
        else (RuneError, 1)
      | _ => (RuneError, 1)
    else if 0xE0 ≤ b0.val ∧ b0.val < 0xF0 then
      match rest with
      | b1 :: b2 :: _ =>
        if isCont b1 ∧ isCont b2 ∧
            0x7FF < (b0.val - 0xE0) * 4096 + (b1.val - 0x80) * 64 + (b2.val - 0x80) ∧
            ¬ (0xD800 ≤ (b0.val - 0xE0) * 4096 + (b1.val - 0x80) * 64 + (b2.val - 0x80) ∧
              (b0.val - 0xE0) * 4096 + (b1.val - 0x80) * 64 + (b2.val - 0x80) ≤ 0xDFFF) then
          ((b0.val - 0xE0) * 4096 + (b1.val - 0x80) * 64 + (b2.val - 0x80), 3)
        else (RuneError, 1)
      | _ => (RuneError, 1)
    else if 0xF0 ≤ b0.val ∧ b0.val < 0xF8 then
      match rest with
      | b1 :: b2 :: b3 :: _ =>
        if isCont b1 ∧ isCont b2 ∧ isCont b3 ∧
            0xFFFF < (b0.val - 0xF0) * 262144 + (b1.val - 0x80) * 4096
              + (b2.val - 0x80) * 64 + (b3.val - 0x80) ∧
            (b0.val - 0xF0) * 262144 + (b1.val - 0x80) * 4096
              + (b2.val - 0x80) * 64 + (b3.val - 0x80) ≤ 0x10FFFF then
          ((b0.val - 0xF0) * 262144 + (b1.val - 0x80) * 4096
            + (b2.val - 0x80) * 64 + (b3.val - 0x80), 4)
        else (RuneError, 1)
      | _ => (RuneError, 1)
    else (RuneError, 1)

/-- The runes of a string from a position on; `skip` counts the bytes that still belong
to the rune decoded last. -/
def decodeRunesFrom : Nat → GoString → List Nat
  | _, [] => []
  | skip + 1, _ :: rest => decodeRunesFrom skip rest
  | 0, b :: rest =>
    (decodeRune (b :: rest)).1 :: decodeRunesFrom ((decodeRune (b :: rest)).2 - 1) rest

/-- The conversion `[]rune(s)`. -/
def decodeRunes (s : GoString) : List Nat := decodeRunesFrom 0 s

/-- The conversion `string(runes)`. -/
def encodeRunes : List Nat → GoString
  | [] => []
  | r :: rs => encodeRune r ++ encodeRunes rs

end utf8

/-! ## unicode, strings -/

namespace unicode

/-- Go `unicode.ToUpper`; `table` is the mapping `To(UpperCase, r)` of the Unicode case
tables, which is consulted for the runes above ASCII. -/
def ToUpper (table : Nat → Nat) (r : Nat) : Nat :=
  if r ≤ 0x7F then (if 97 ≤ r ∧ r ≤ 122 then r - 32 else r) else table r

/-- Go `unicode.ToLower`; `table` is the mapping `To(LowerCase, r)` of the Unicode case
tables, which is consulted for the runes above ASCII. -/
def ToLower (table : Nat → Nat) (r : Nat) : Nat :=
  if r ≤ 0x7F then (if 65 ≤ r ∧ r ≤ 90 then r + 32 else r) else table r

end unicode

namespace strings

/-- Go `strings.Split(s, sep)` for a separator of one byte. -/
def Split (s : GoString) (sep : Byte) : List GoString :=
  match s with
  | [] => [[]]
  | c :: cs =>
    if c = sep then [] :: Split cs sep
    else
      match Split cs sep with
      | [] => [[c]]
      | p :: ps => (c :: p) :: ps

/-- Go `strings.Join(elems, sep)`. -/
def Join (elems : List GoString) (sep : GoString) : GoString :=
  match elems with
  | [] => []
  | [a] => a
  | a :: b :: rest => a ++ sep ++ Join (b :: rest) sep

/-- Go `strings.ToLower`: byte by byte when the string is ASCII, rune by rune
otherwise. -/
def ToLower (table : Nat → Nat) (s : GoString) : GoString :=
  if s.all (fun c => decide (c.val < 0x80)) then
    s.map (fun c => if 65 ≤ c.val ∧ c.val ≤ 90 then Fin.ofNat (c.val + 32) else c)
  else utf8.encodeRunes ((utf8.decodeRunes s).map (unicode.ToLower table))

end strings

/-! ## regexp: the two patterns of `camelToSnake` -/

namespace regexp

/-- The class `[A-Z]`. -/
def isUpperAZ (c : Byte) : Bool := decide (65 ≤ c.val ∧ c.val ≤ 90)

/-- The class `[a-z]`. -/
def isLowerAZ (c : Byte) : Bool := decide (97 ≤ c.val ∧ c.val ≤ 122)

/-- The class `[a-z0-9]`. -/
def isLowerOrDigit (c : Byte) : Bool :=
  decide ((97 ≤ c.val ∧ c.val ≤ 122) ∨ (48 ≤ c.val ∧ c.val ≤ 57))

/-- A match of `(.)([A-Z][a-z]+)` that starts at the start of `s`: the width of the
rune `.` matches (any rune but a newline) and the length of the run `[a-z]+`, which is
as long as it can be. -/
def matchFirstCapAt (s : GoString) : Option (Nat × Nat) :=
  match s with
  | [] => none
  | _ :: _ =>
    if (utf8.decodeRune s).1 = 10 then none
    else
      match s.drop (utf8.decodeRune s).2 with
      | u :: t =>
        if isUpperAZ u ∧ 0 < (t.takeWhile isLowerAZ).length then
          some ((utf8.decodeRune s).2, (t.takeWhile isLowerAZ).length)
        else none
      | [] => none

/-- Go `matchFirstCap.ReplaceAllString(s, "${1}_${2}")`: the matches are looked for from
left to right, each from the end of the one before; `fuel` bounds the number of steps
(each step takes at least one byte of `s`, so its length is enough). -/
def replaceAllFirstCapAux : Nat → GoString → GoString
  | 0, s => s
  | fuel + 1, s =>
    match s with
    | [] => []
    | _ :: _ =>
      match matchFirstCapAt s with
      | some (w, k) =>
        s.take w ++ [(95 : Byte)] ++ (s.drop w).take (1 + k)
          ++ replaceAllFirstCapAux fuel (s.drop (w + (1 + k)))
      | none =>
        s.take (utf8.decodeRune s).2 ++ replaceAllFirstCapAux fuel (s.drop (utf8.decodeRune s).2)

/-- Go `matchFirstCap.ReplaceAllString(s, "${1}_${2}")`. -/
def replaceAllFirstCap (s : GoString) : GoString := replaceAllFirstCapAux s.length s

/-- A match of `([a-z0-9])([A-Z])` that starts at the start of `s`. -/
def matchAllCapAt (s : GoString) : Bool :=
  match s with
  | a :: u :: _ => isLowerOrDigit a && isUpperAZ u
  | _ => false

/-- Go `matchAllCap.ReplaceAllString(s, "${1}_${2}")`, with `fuel` as above. -/
def replaceAllAllCapAux : Nat → GoString → GoString
  | 0, s => s
  | fuel + 1, s =>
    match s with
    | [] => []
    | _ :: _ =>
      if matchAllCapAt s then
        s.take 1 ++ [(95 : Byte)] ++ (s.drop 1).take 1 ++ replaceAllAllCapAux fuel (s.drop 2)
      else
        s.take (utf8.decodeRune s).2 ++ replaceAllAllCapAux fuel (s.drop (utf8.decodeRune s).2)

/-- Go `matchAllCap.ReplaceAllString(s, "${1}_${2}")`. -/
def replaceAllAllCap (s : GoString) : GoString := replaceAllAllCapAux s.length s

end regexp

namespace admin

/-- Go `camelToSnake` (the same function is in `ent/entc.go`); `lowerTable` is the
Unicode table behind `strings.ToLower`. -/
def camelToSnake (lowerTable : Nat → Nat) (str : GoString) : GoString :=
  strings.ToLower lowerTable (regexp.replaceAllAllCap (regexp.replaceAllFirstCap str))

/-- Go `upperFirst`; `table` is the Unicode table behind `unicode.ToUpper`. -/
def upperFirst (table : Nat → Nat) (s : GoString) : GoString :=
  if s.length = 0 then s
  else
    match utf8.decodeRunes s with
    | [] => []
    | r :: out => utf8.encodeRunes (unicode.ToUpper table r :: out)

/-- Go `fieldName`. -/
def fieldName (table : Nat → Nat) (name : GoString) : GoString :=
  if name.length = 0 then name
  else
    strings.Join
      ((strings.Split name 95).map
        (fun p => if p = ascii "id" then ascii "ID" else upperFirst table p)) []

/-- The loop of `FieldLabel` from index `i` on. -/
def labelParts (table : Nat → Nat) : Nat → List GoString → List GoString
  | _, [] => []
  | i, p :: ps =>
    (if i = 0 then upperFirst table (if p = ascii "id" then ascii "ID" else p)
      else (if p = ascii "id" then ascii "ID" else p)) :: labelParts table (i + 1) ps

/-- Go `FieldLabel`. -/
def FieldLabel (table : Nat → Nat) (name : GoString) : GoString :=
  if name.length = 0 then name
  else strings.Join (labelParts table 0 (strings.Split name 95)) (ascii " ")

/-- Go `fieldIsPointer`. -/
def fieldIsPointer (f : gen.Field) : Bool :=
  if f.TypeType = field.FieldType.TypeBool then false
  else if f.Optional ∨ f.Default ∨ f.Sensitive ∨ f.Nillable then true
  else false

end admin

open pager url

/-- A pager built from a request without query string. -/
def freshPager (itemsPerPage : Int) : Pager := NewPager ∅ itemsPerPage

/-! ## Notions used to state the properties of runs -/

/-- The event registers a worker with the River worker registry. -/
def Event.isAddWorker : Event → Bool
  | .riverAddWorker _ => true
  | _ => false

/-- The event is one that `NewContainer` performs. -/
def Event.isContainerEvent : Event → Bool
  | .init _ => true
  | .riverNewWorkers => true
  | .riverAddWorker _ => true
  | .riverNewClient => true
  | _ => false

/-- The event closes one of the connections of the container. -/
def Event.isClose : Event → Bool
  | .ormClose => true
  | .databaseClose => true
  | .cacheClose => true
  | _ => false

/-- A run in which every step of `NewContainer` succeeds, the router builds, River
migrates and starts, the interrupt arrives and every step of `Shutdown` succeeds. -/
def web.happyEnv : web.Env :=
  { init := ⟨false, false, false, false, false, false, false⟩
    riverNil := false
    buildRouter := none
    migrate := none
    start := none
    tlsEnabled := false
    loadTLS := none
    serverClosed := true
    quit := true
    shutdown := ⟨none, none, none, none⟩ }

/-! ## Notions used to state and prove the properties of `camelToSnake` -/

/-- A word of a CamelCase name: its first letter and the letters after it. -/
abbrev CamelWord := Byte × GoString

/-- The word is one upper-case ASCII letter followed by one or more lower-case ASCII
letters. -/
def isCamelWord (w : CamelWord) : Prop :=
  regexp.isUpperAZ w.1 = true ∧ w.2 ≠ [] ∧ ∀ c ∈ w.2, regexp.isLowerAZ c = true

instance (w : CamelWord) : Decidable (isCamelWord w) := by
  unfold isCamelWord; infer_instance

/-- The text of a word. -/
def wordText (w : CamelWord) : GoString := w.1 :: w.2

/-- The words written one after the other. -/
def camelText : List CamelWord → GoString
  | [] => []
  | w :: rest => wordText w ++ camelText rest

/-- The word in lower case. -/
def snakeWord (w : CamelWord) : GoString := (Fin.ofNat (w.1.val + 32) : Byte) :: w.2

/-- The words written one after the other, each with an underscore before it when it
is flagged. -/
def sepText : List (Bool × CamelWord) → GoString
  | [] => []
  | (true, w) :: rest => (95 : Byte) :: wordText w ++ sepText rest
  | (false, w) :: rest => wordText w ++ sepText rest

/-- The words flagged in turn, starting with `b`. -/
def alternate : Bool → List CamelWord → List (Bool × CamelWord)
  | _, [] => []
  | b, w :: rest => (b, w) :: alternate (!b) rest

/-- The words all flagged. -/
def allFlagged : List (Bool × CamelWord) → List (Bool × CamelWord)
  | [] => []
  | (_, w) :: rest => (true, w) :: allFlagged rest

/-! ## Notions used to state and prove the properties of `Encode` and `ParseQuery` -/

/-- The map after `m[key] = append(m[key], value)`. -/
def addPair (m : Values) (kv : GoString × GoString) : Values :=
  m.insert kv.1 (m.at kv.1 ++ [kv.2])

/-- The text `key=value` of one pair, both escaped. -/
def pairText (kv : GoString × GoString) : GoString :=
  QueryEscape kv.1 ++ (61 : Byte) :: QueryEscape kv.2

/-- Every text of the list preceded by a `&`. -/
def tailAmp : List GoString → GoString
  | [] => []
  | x :: t => (38 : Byte) :: x ++ tailAmp t

/-- The texts of the list joined by `&`. -/
def joinAmp : List GoString → GoString
  | [] => []
  | s :: t => s ++ tailAmp t

/-- The pairs `(key, value)` of `v` under the keys `ks`, in the order of `ks` and, for
one key, in the order of its values. -/
def pairsOfKeys (v : Values) : List GoString → List (GoString × GoString)
  | [] => []
  | k :: ks => (v.at k).map (fun x => (k, x)) ++ pairsOfKeys v ks

/-- The buffer of `Encode` after the pairs `ps` have been written to the buffer `buf`. -/
def writePairs (buf : GoString) (ps : List (GoString × GoString)) : GoString :=
  ps.foldl (fun b kv => encodePair (QueryEscape kv.1) b kv.2) buf

/-- The decimal rendering of a natural number other than zero: its digits in base ten,
the most significant first, as ASCII. -/
def decimalRendering (n : Nat) : GoString :=
  (Nat.digits 10 n).reverse.map (fun d => (Fin.ofNat (48 + d) : Byte))

/-- A request of ten thousand parameters: the key `a` with ten thousand empty values. -/
def tenThousandParams : Values :=
  AList.insert (ascii "a") (List.replicate 10000 []) ∅

/-! ## Notions used to state the properties of `fieldName` and `FieldLabel` -/

/-- The string is well-formed UTF-8: it is the encoding of a sequence of Unicode scalar
values. -/
def WellFormedUTF8 (s : GoString) : Prop :=
  ∃ rs : List Nat, (∀ r ∈ rs, utf8.validRune r) ∧ s = utf8.encodeRunes rs

/-- What the properties of `fieldName` and `FieldLabel` say of a part whose first
character is upper-cased: the first character of the part upper-cased, then the rest of
the part as it is; `table` is the Unicode table behind the upper-casing. -/
def upperFirstCharacter (table : Nat → Nat) (p : GoString) : GoString :=
  match p with
  | [] => []
  | _ :: _ =>
    utf8.encodeRune (unicode.ToUpper table (utf8.decodeRune p).1) ++ p.drop (utf8.decodeRune p).2

/-- What the property of `fieldName` says: the empty name maps to itself; any other name
is split on the underscore, a part `id` becomes `ID`, every other part has its first
character upper-cased, and the parts are concatenated. -/
def fieldNameSpec (table : Nat → Nat) (name : GoString) : GoString :=
  if name = [] then []
  else
    ((strings.Split name 95).map
      (fun p => if p = ascii "id" then ascii "ID" else upperFirstCharacter table p)).flatten

/-- What the property of `FieldLabel` says: the empty name maps to itself; any other name
is split on the underscore, a part `id` becomes `ID`, only the first part has its first
character upper-cased, and the parts are joined with one space. -/
def FieldLabelSpec (table : Nat → Nat) (name : GoString) : GoString :=
  if name = [] then []
  else
    match (strings.Split name 95).map (fun p => if p = ascii "id" then ascii "ID" else p) with
    | [] => []
    | p :: ps => (ascii " ").intercalate (upperFirstCharacter table p :: ps)


/-! ## Theorems -/

section SetItems

theorem SetItems_Items (impl : Float64 → Int) (p : Pager) (items : Int) :
    (p.SetItems impl items).Items = items := by
  unfold Pager.SetItems
  simp only []
  split_ifs <;> rfl

theorem SetItems_Pages_of_nonpos (impl : Float64 → Int) (p : Pager) (items : Int)
    (h : items ≤ 0) : (p.SetItems impl items).Pages = 1 := by
  unfold Pager.SetItems
  have h' : ¬ items > 0 := by omega
  simp only [h', if_false]
  split_ifs <;> rfl

/-- C1 (the code at the failing input): with one item per page and `2^53 + 1` items,
`SetItems` stores the items but sets `Pages` to `2^53`, one less than the integer
ceiling `2^53 + 1`; `Pages * ItemsPerPage` is then smaller than `items`. -/
theorem C1_SetItems_pages_below_ceiling_at_large_items :
    ∀ impl : Float64 → Int,
      ((freshPager 1).SetItems impl (2 ^ 53 + 1)).Items = 2 ^ 53 + 1 ∧
      ((freshPager 1).SetItems impl (2 ^ 53 + 1)).ItemsPerPage = 1 ∧
      ((freshPager 1).SetItems impl (2 ^ 53 + 1)).Pages = 2 ^ 53 ∧
      ((freshPager 1).SetItems impl (2 ^ 53 + 1)).Pages
        * ((freshPager 1).SetItems impl (2 ^ 53 + 1)).ItemsPerPage < 2 ^ 53 + 1 := by
  intro impl
  have h : (freshPager 1).SetItems impl (2 ^ 53 + 1)
      = { Items := 2 ^ 53 + 1, Page := 1, ItemsPerPage := 1, Pages := 2 ^ 53,
          QueryParams := (freshPager 1).QueryParams } := by
    rfl
  rw [h]
  decide

end SetItems

section Rounding

theorem bitLenAux_spec (fuel : Nat) :
    ∀ n : Nat, n ≤ fuel →
      n < 2 ^ bitLenAux fuel n ∧ (0 < n → 1 ≤ bitLenAux fuel n ∧ 2 ^ (bitLenAux fuel n - 1) ≤ n) := by
  induction fuel with
  | zero =>
    intro n hn
    have h0 : n = 0 := Nat.le_zero.mp hn
    subst h0
    exact ⟨by simp [bitLenAux], fun h => absurd h (lt_irrefl _)⟩
  | succ f ih =>
    intro n hn
    by_cases h0 : n = 0
    · subst h0
      exact ⟨by simp [bitLenAux], fun h => absurd h (lt_irrefl _)⟩
    · have hrec : bitLenAux (f + 1) n = bitLenAux f (n / 2) + 1 := by
        simp [bitLenAux, h0]
      have hle : n / 2 ≤ f := by omega
      obtain ⟨i1, i2⟩ := ih (n / 2) hle
      rw [hrec]
      refine ⟨?_, fun _ => ⟨Nat.le_add_left _ _, ?_⟩⟩
      · rw [pow_succ]
        omega
      · rw [Nat.add_sub_cancel]
        by_cases h2 : 0 < n / 2
        · obtain ⟨j1, j2⟩ := i2 h2
          have e : bitLenAux f (n / 2) = (bitLenAux f (n / 2) - 1) + 1 := by omega
          rw [e, pow_succ]
          omega
        · have hz : n / 2 = 0 := by omega
          have hb : bitLenAux f (n / 2) = 0 := by
            rw [hz]
            cases f <;> simp [bitLenAux]
          rw [hb]
          simp only [pow_zero]
          omega

theorem bitLen_spec (n : Nat) (h : 0 < n) :
    1 ≤ bitLen n ∧ 2 ^ (bitLen n - 1) ≤ n ∧ n < 2 ^ bitLen n := by
  obtain ⟨h1, h2⟩ := bitLenAux_spec n n (le_refl _)
  obtain ⟨h3, h4⟩ := h2 h
  exact ⟨h3, h4, h1⟩

/-- The exponent `floorLog2Ratio` finds puts the scaled quotient between `2^52` and
`2^53`, for a quotient below `2^53`. -/
theorem floorLog2Ratio_spec (N D : Nat) (hN : 0 < N) (hD : 0 < D) (hlt : N < 2 ^ 53 * D) :
    ∃ t : Nat, (52 : Int) - floorLog2Ratio N D = (t : Int) ∧
      D * 2 ^ 52 ≤ N * 2 ^ t ∧ N * 2 ^ t < D * 2 ^ 53 := by
  obtain ⟨a1, a2, a3⟩ := bitLen_spec N hN
  obtain ⟨b1, b2, b3⟩ := bitLen_spec D hD
  obtain ⟨a, ha⟩ : ∃ a, bitLen N = a + 1 := ⟨bitLen N - 1, by omega⟩
  obtain ⟨b, hb⟩ : ∃ b, bitLen D = b + 1 := ⟨bitLen D - 1, by omega⟩
  rw [ha] at a2 a3
  rw [hb] at b2 b3
  simp only [Nat.add_sub_cancel] at a2 b2
  -- `2^a <= N < 2^(a+1)` and `2^b <= D < 2^(b+1)`
  have hab : a < 53 + (b + 1) := by
    by_contra hc
    have h1 : 2 ^ (53 + (b + 1)) ≤ 2 ^ a := Nat.pow_le_pow_right (by norm_num) (by omega)
    have h2 : 2 ^ 53 * D < 2 ^ (53 + (b + 1)) := by
      rw [pow_add]
      exact (Nat.mul_lt_mul_left (by positivity)).mpr b3
    omega
  unfold floorLog2Ratio
  simp only [ha, hb]
  split_ifs with hc
  · -- `D * 2^(a+1) <= N * 2^(b+1)`: the exponent is `a - b`
    have hab2 : a ≤ 52 + b := by
      by_contra hcc
      have h1 : 2 ^ (53 + (b + 1)) ≤ 2 ^ (a + 1) := Nat.pow_le_pow_right (by norm_num) (by omega)
      have h2 : N * 2 ^ (b + 1) < 2 ^ 53 * D * 2 ^ (b + 1) :=
        Nat.mul_lt_mul_of_pos_right hlt (by positivity)
      have h3 : D * 2 ^ (53 + (b + 1)) ≤ D * 2 ^ (a + 1) := Nat.mul_le_mul_left _ h1
      have h4 : D * 2 ^ (53 + (b + 1)) = 2 ^ 53 * D * 2 ^ (b + 1) := by
        rw [pow_add]; ring
      omega
    refine ⟨52 + b - a, by push_cast; omega, ?_, ?_⟩
    · have e : 2 ^ (52 + (b + 1)) = 2 ^ (52 + b - a) * 2 ^ (a + 1) := by
        rw [← pow_add]; congr 1; omega
      have h1 : D * 2 ^ 52 * 2 ^ (a + 1) ≤ N * 2 ^ (52 + b - a) * 2 ^ (a + 1) := by
        calc D * 2 ^ 52 * 2 ^ (a + 1) = D * 2 ^ (a + 1) * 2 ^ 52 := by ring
          _ ≤ N * 2 ^ (b + 1) * 2 ^ 52 := Nat.mul_le_mul_right _ hc
          _ = N * 2 ^ (52 + (b + 1)) := by rw [pow_add]; ring
          _ = N * 2 ^ (52 + b - a) * 2 ^ (a + 1) := by rw [e]; ring
      exact Nat.le_of_mul_le_mul_right h1 (by positivity)
    · have e : 2 ^ (52 + (b + 1)) = 2 ^ (52 + b - a) * 2 ^ (a + 1) := by
        rw [← pow_add]; congr 1; omega
      have h0 : N * 2 ^ b < D * 2 ^ (a + 1) :=
        calc N * 2 ^ b < 2 ^ (a + 1) * 2 ^ b := Nat.mul_lt_mul_of_pos_right a3 (by positivity)
          _ ≤ 2 ^ (a + 1) * D := Nat.mul_le_mul_left _ b2
          _ = D * 2 ^ (a + 1) := by ring
      have h1 : N * 2 ^ (52 + b - a) * 2 ^ (a + 1) < D * 2 ^ 53 * 2 ^ (a + 1) := by
        calc N * 2 ^ (52 + b - a) * 2 ^ (a + 1) = N * 2 ^ (52 + (b + 1)) := by rw [e]; ring
          _ = N * 2 ^ b * 2 ^ 53 := by rw [pow_add, pow_succ]; ring
          _ < D * 2 ^ (a + 1) * 2 ^ 53 := Nat.mul_lt_mul_of_pos_right h0 (by positivity)
          _ = D * 2 ^ 53 * 2 ^ (a + 1) := by ring
      exact Nat.lt_of_mul_lt_mul_right h1
  · -- `N * 2^(b+1) < D * 2^(a+1)`: the exponent is `a - b - 1`
    have hc2 : N * 2 ^ (b + 1) < D * 2 ^ (a + 1) := not_le.mp hc
    refine ⟨53 + b - a, by push_cast; omega, ?_, ?_⟩
    · have e : 2 ^ (53 + b) = 2 ^ (53 + b - a) * 2 ^ a := by
        rw [← pow_add]; congr 1; omega
      have h0 : D * 2 ^ a ≤ N * 2 ^ (b + 1) :=
        calc D * 2 ^ a ≤ 2 ^ (b + 1) * 2 ^ a := Nat.mul_le_mul_right _ (le_of_lt b3)
          _ ≤ 2 ^ (b + 1) * N := Nat.mul_le_mul_left _ a2
          _ = N * 2 ^ (b + 1) := by ring
      have h1 : D * 2 ^ 52 * 2 ^ a ≤ N * 2 ^ (53 + b - a) * 2 ^ a := by
        calc D * 2 ^ 52 * 2 ^ a = D * 2 ^ a * 2 ^ 52 := by ring
          _ ≤ N * 2 ^ (b + 1) * 2 ^ 52 := Nat.mul_le_mul_right _ h0
          _ = N * 2 ^ (53 + b) := by rw [pow_add, pow_succ]; ring
          _ = N * 2 ^ (53 + b - a) * 2 ^ a := by rw [e]; ring
      exact Nat.le_of_mul_le_mul_right h1 (by positivity)
    · have e : 2 ^ (53 + (b + 1)) = 2 ^ (53 + b - a) * 2 ^ (a + 1) := by
        rw [← pow_add]; congr 1; omega
      have h1 : N * 2 ^ (53 + b - a) * 2 ^ (a + 1) < D * 2 ^ 53 * 2 ^ (a + 1) := by
        calc N * 2 ^ (53 + b - a) * 2 ^ (a + 1) = N * 2 ^ (53 + (b + 1)) := by rw [e]; ring
          _ = N * 2 ^ (b + 1) * 2 ^ 53 := by rw [pow_add]; ring
          _ < D * 2 ^ (a + 1) * 2 ^ 53 := Nat.mul_lt_mul_of_pos_right hc2 (by positivity)
          _ = D * 2 ^ 53 * 2 ^ (a + 1) := by ring
      exact Nat.lt_of_mul_lt_mul_right h1

end Rounding

section Rounding2

theorem roundRatio_of_scale (N D t : Nat) (ht : (52 : Int) - floorLog2Ratio N D = (t : Int)) :
    roundRatio N D =
      ((if 2 * (N * 2 ^ t % D) < D then N * 2 ^ t / D
        else if D < 2 * (N * 2 ^ t % D) then N * 2 ^ t / D + 1
        else if (N * 2 ^ t / D) % 2 = 0 then N * 2 ^ t / D else N * 2 ^ t / D + 1),
       -(t : Int)) := by
  unfold roundRatio
  simp only [ht, Int.toNat_ofNat, Int.toNat_neg_nat, pow_zero, mul_one]

/-- The rounded quotient stays strictly above `k` and at most `k + 1` when the exact
quotient `N / D` does and the numerator has fewer than 53 bits more than the distance
`N - k * D`. -/
theorem roundRatio_between (N D k : Nat) (hD : 0 < D) (hlo : k * D < N)
    (hhi : N ≤ (k + 1) * D) (hprec : N < 2 ^ 53 * (N - k * D)) :
    ∃ t m : Nat, roundRatio N D = (m, -(t : Int)) ∧ k * 2 ^ t < m ∧ m ≤ (k + 1) * 2 ^ t := by
  have hN : 0 < N := lt_of_le_of_lt (Nat.zero_le _) hlo
  obtain ⟨X, hX⟩ : ∃ X, N = k * D + X := ⟨N - k * D, by omega⟩
  have hX1 : 1 ≤ X := by omega
  have hXD : X ≤ D := by
    have : (k + 1) * D = k * D + D := by ring
    omega
  have hsub : N - k * D = X := by omega
  rw [hsub] at hprec
  have hlt : N < 2 ^ 53 * D := lt_of_lt_of_le hprec (Nat.mul_le_mul_left _ hXD)
  obtain ⟨t, ht, hm1, hm2⟩ := floorLog2Ratio_spec N D hN hD hlt
  refine ⟨t, _, roundRatio_of_scale N D t ht, ?_, ?_⟩
  all_goals
    generalize hT : 2 ^ t = T at *
    have hTpos : 0 < T := by rw [← hT]; positivity
    have hdm : D * (N * T / D) + N * T % D = N * T := Nat.div_add_mod _ _
    have hr : N * T % D < D := Nat.mod_lt _ hD
    generalize N * T / D = q at *
    generalize N * T % D = r at *
    have hP : N * T = k * T * D + X * T := by rw [hX]; ring
    have hXT : X * T ≤ D * T := Nat.mul_le_mul_right _ hXD
    have hXT1 : T ≤ X * T := Nat.le_mul_of_pos_left _ hX1
  · -- the lower bound
    have hq : k * T ≤ q := by
      by_contra hc
      have h1 : q + 1 ≤ k * T := by omega
      have h2 : D * (q + 1) ≤ D * (k * T) := Nat.mul_le_mul_left _ h1
      have h3 : D * (q + 1) = D * q + D := by ring
      have h4 : D * (k * T) = k * T * D := by ring
      omega
    by_cases hq2 : k * T < q
    · split_ifs <;> omega
    · have hqe : q = k * T := by omega
      have hre : r = X * T := by
        have h4 : D * (k * T) = k * T * D := by ring
        rw [hqe] at hdm
        omega
      -- `2 * r > D`, from the precision bound
      have h5 : D * 2 ^ 52 < 2 * (X * T) * 2 ^ 52 := by
        calc D * 2 ^ 52 ≤ N * T := hm1
          _ < 2 ^ 53 * X * T := Nat.mul_lt_mul_of_pos_right hprec hTpos
          _ = 2 * (X * T) * 2 ^ 52 := by ring
      have h6 : D < 2 * (X * T) := Nat.lt_of_mul_lt_mul_right h5
      rw [hre]
      have h7 : ¬ 2 * (X * T) < D := by omega
      simp only [h7, h6, if_false, if_true]
      omega
  · -- the upper bound
    have hq : q ≤ (k + 1) * T := by
      have h1 : D * q ≤ D * ((k + 1) * T) := by
        have h2 : D * ((k + 1) * T) = k * T * D + D * T := by ring
        omega
      exact Nat.le_of_mul_le_mul_left h1 hD
    by_cases hr0 : r = 0
    · subst hr0
      simp only [Nat.mul_zero, hD, if_true]
      exact hq
    · have hq2 : q < (k + 1) * T := by
        by_contra hc
        have h1 : (k + 1) * T ≤ q := by omega
        have h2 : D * ((k + 1) * T) ≤ D * q := Nat.mul_le_mul_left _ h1
        have h3 : D * ((k + 1) * T) = k * T * D + D * T := by ring
        omega
      split_ifs <;> omega

end Rounding2

section ExactPages

/-- An integer of at most 53 bits converts to `float64` without rounding. -/
theorem float64OfInt_exact (i : Int) (h0 : 0 < i) (h1 : i < 2 ^ 53) :
    ∃ t : Nat, float64OfInt i = .finite false (i.natAbs * 2 ^ t) (-(t : Int)) := by
  have hn : 0 < i.natAbs := Int.natAbs_pos.mpr (ne_of_gt h0)
  have hlt : i.natAbs < 2 ^ 53 * 1 := by
    have : (i.natAbs : Int) = i := Int.natAbs_of_nonneg (le_of_lt h0)
    have h2 : (i.natAbs : Int) < ((2 ^ 53 : Nat) : Int) := by
      rw [this]; exact_mod_cast h1
    have h3 : i.natAbs < 2 ^ 53 := by exact_mod_cast h2
    omega
  obtain ⟨t, ht, _, _⟩ := floorLog2Ratio_spec i.natAbs 1 hn Nat.one_pos hlt
  refine ⟨t, ?_⟩
  unfold float64OfInt
  have hne : i ≠ 0 := ne_of_gt h0
  have hneg : ¬ i < 0 := not_lt.mpr (le_of_lt h0)
  simp only [hne, if_false, roundRatio_of_scale _ _ t ht, Nat.mod_one, Nat.div_one,
    Nat.mul_zero, Nat.lt_one_iff, if_true, hneg, decide_False]

theorem Float64.div_of_pos (a b s u : Nat) (ha : 0 < a) (hb : 0 < b) :
    (Float64.finite false (a * 2 ^ s) (-(s : Int))).div
        (Float64.finite false (b * 2 ^ u) (-(u : Int)))
      = .finite false (roundRatio (a * 2 ^ (s + (u - s))) (b * 2 ^ (u + (s - u)))).1
          (roundRatio (a * 2 ^ (s + (u - s))) (b * 2 ^ (u + (s - u)))).2 := by
  have h1 : a * 2 ^ s ≠ 0 := Nat.ne_of_gt (Nat.mul_pos ha (by positivity))
  have h2 : b * 2 ^ u ≠ 0 := Nat.ne_of_gt (Nat.mul_pos hb (by positivity))
  have e1 : (-(s : Int) - -(u : Int)).toNat = u - s := by omega
  have e2 : (-(u : Int) - -(s : Int)).toNat = s - u := by omega
  simp only [Float64.div, h1, h2, if_false, e1, e2, Bool.xor_false, pow_add, mul_assoc]

theorem intOfFloat64_Ceil_between (impl : Float64 → Int) (m t k : Nat)
    (hlo : k * 2 ^ t < m) (hhi : m ≤ (k + 1) * 2 ^ t) (hk : inInt64 ((k : Int) + 1)) :
    intOfFloat64 impl (math.Ceil (.finite false m (-(t : Int)))) = (k : Int) + 1 := by
  by_cases ht : t = 0
  · subst ht
    have hm : m = k + 1 := by
      simp only [pow_zero, mul_one] at hlo hhi
      omega
    subst hm
    have htr : Float64.trunc false (k + 1) 0 = (k : Int) + 1 := by
      simp [Float64.trunc]
    simp only [math.Ceil, Nat.cast_zero, neg_zero, le_refl, if_true, intOfFloat64, htr, hk]
  · have hneg : ¬ (0 : Int) ≤ -(t : Int) := by omega
    have hdiv : (m + 2 ^ t - 1) / 2 ^ t = k + 1 := by
      have hT : 0 < 2 ^ t := by positivity
      apply Nat.div_eq_of_lt_le
      · have : (k + 1) * 2 ^ t = k * 2 ^ t + 2 ^ t := by ring
        omega
      · have : (k + 1 + 1) * 2 ^ t = (k + 1) * 2 ^ t + 2 ^ t := by ring
        omega
    have htr : Float64.trunc false (k + 1) 0 = (k : Int) + 1 := by
      simp [Float64.trunc]
    simp only [math.Ceil, hneg, if_false, Bool.false_eq_true, Int.neg_neg, Int.toNat_ofNat,
      hdiv, intOfFloat64, htr, hk, if_true]

/-- The quotient of two integers below `2^53`, rounded up by `SetItems`, is one more
than the integer quotient of `a - 1` by `b`. -/
theorem pages_of_small (impl : Float64 → Int) (a b : Int) (ha0 : 0 < a) (ha : a < 2 ^ 53)
    (hb0 : 0 < b) (hb : b < 2 ^ 53) :
    intOfFloat64 impl (math.Ceil ((float64OfInt a).div (float64OfInt b)))
      = (a - 1) / b + 1 := by
  obtain ⟨s, hs⟩ := float64OfInt_exact a ha0 ha
  obtain ⟨u, hu⟩ := float64OfInt_exact b hb0 hb
  have hna : 0 < a.natAbs := Int.natAbs_pos.mpr (ne_of_gt ha0)
  have hnb : 0 < b.natAbs := Int.natAbs_pos.mpr (ne_of_gt hb0)
  have ea : (a.natAbs : Int) = a := Int.natAbs_of_nonneg (le_of_lt ha0)
  have eb : (b.natAbs : Int) = b := Int.natAbs_of_nonneg (le_of_lt hb0)
  generalize a.natAbs = x at *
  generalize b.natAbs = y at *
  have hx53 : x < 2 ^ 53 := by
    have : (x : Int) < ((2 ^ 53 : Nat) : Int) := by rw [ea]; exact_mod_cast ha
    exact_mod_cast this
  rw [hs, hu, Float64.div_of_pos x y s u hna hnb]
  have hc : s + (u - s) = u + (s - u) := by omega
  rw [← hc]
  generalize hC : 2 ^ (s + (u - s)) = c
  have hcpos : 0 < c := by rw [← hC]; positivity
  -- the integer quotient
  have hk1 : (x - 1) / y * y ≤ x - 1 := Nat.div_mul_le_self _ _
  have hk2 : x - 1 < ((x - 1) / y + 1) * y := by
    have := Nat.div_add_mod (x - 1) y
    have hr := Nat.mod_lt (x - 1) hnb
    have e : ((x - 1) / y + 1) * y = y * ((x - 1) / y) + y := by ring
    omega
  generalize hK : (x - 1) / y = k at *
  have hlo : k * (y * c) < x * c := by
    have : k * y * c < x * c := Nat.mul_lt_mul_of_pos_right (by omega) hcpos
    calc k * (y * c) = k * y * c := by ring
      _ < x * c := this
  have hhi : x * c ≤ (k + 1) * (y * c) := by
    have : x * c ≤ (k + 1) * y * c := Nat.mul_le_mul_right _ (by omega)
    calc x * c ≤ (k + 1) * y * c := this
      _ = (k + 1) * (y * c) := by ring
  have hprec : x * c < 2 ^ 53 * (x * c - k * (y * c)) := by
    have e1 : x * c - k * (y * c) = (x - k * y) * c := by
      rw [Nat.sub_mul]; congr 1; ring
    rw [e1]
    have h1 : 1 ≤ x - k * y := by omega
    calc x * c < 2 ^ 53 * c := Nat.mul_lt_mul_of_pos_right hx53 hcpos
      _ = 2 ^ 53 * (1 * c) := by ring
      _ ≤ 2 ^ 53 * ((x - k * y) * c) :=
        Nat.mul_le_mul_left _ (Nat.mul_le_mul_right _ h1)
  obtain ⟨t, m, hr, hm1, hm2⟩ :=
    roundRatio_between (x * c) (y * c) k (Nat.mul_pos hnb hcpos) hlo hhi hprec
  rw [hr]
  have hkx : k < 2 ^ 53 := by
    have : k ≤ x - 1 := by rw [← hK]; exact Nat.div_le_self _ _
    omega
  have hin : inInt64 ((k : Int) + 1) := by
    unfold inInt64 minInt64 maxInt64
    have : (k : Int) < 2 ^ 53 := by exact_mod_cast hkx
    constructor <;> omega
  rw [intOfFloat64_Ceil_between impl m t k hm1 hm2 hin]
  -- back to the integers
  have e1 : a - 1 = ((x - 1 : Nat) : Int) := by
    rw [← ea]; omega
  rw [e1, ← eb, ← hK]
  norm_cast

/-- For a positive number of items below `2^53` and between 1 and `2^53` items per
page, `SetItems` sets `Pages` to the exact integer ceiling of `items / ItemsPerPage`:
the least `n` with `n * ItemsPerPage >= items`. -/
theorem SetItems_Pages_exact_of_small (impl : Float64 → Int) (p : Pager) (items : Int)
    (h0 : 0 < items) (h1 : items < 2 ^ 53)
    (h2 : 1 ≤ p.ItemsPerPage) (h3 : p.ItemsPerPage < 2 ^ 53) :
    (p.SetItems impl items).Pages = (items - 1) / p.ItemsPerPage + 1 ∧
      items ≤ (p.SetItems impl items).Pages * p.ItemsPerPage ∧
      (∀ n : Int, items ≤ n * p.ItemsPerPage → (p.SetItems impl items).Pages ≤ n) := by
  have hP : (p.SetItems impl items).Pages = (items - 1) / p.ItemsPerPage + 1 := by
    unfold Pager.SetItems
    have hpos : items > 0 := h0
    simp only [hpos, if_true]
    split_ifs <;> exact pages_of_small impl items p.ItemsPerPage h0 h1 (by omega) h3
  have hb : 0 < p.ItemsPerPage := by omega
  refine ⟨hP, ?_, ?_⟩
  · rw [hP]
    have := Int.lt_ediv_add_one_mul_self (items - 1) hb
    omega
  · intro n hn
    rw [hP]
    have h4 : (items - 1) / p.ItemsPerPage < n := by
      apply Int.ediv_lt_of_lt_mul hb
      omega
    omega

/-- With one item per page and `2^63 - 1` items the quotient rounds to `2^63`, which no
`int` holds: `Pages` is then whatever the platform converts it to, on amd64 the
smallest `int`, and `Page` follows it. -/
theorem SetItems_at_maxInt64_amd64 :
    ((freshPager 1).SetItems convAmd64 maxInt64).Pages = minInt64 ∧
      ((freshPager 1).SetItems convAmd64 maxInt64).Page = minInt64 := by
  decide

/-- The values `TestPager_SetItems` checks. -/
theorem SetItems_test_values :
    ∀ impl : Float64 → Int,
      ((freshPager 20).SetItems impl 100).Pages = 5 ∧
      (((freshPager 20).SetItems impl 100).SetItems impl 0).Pages = 1 ∧
      (((freshPager 20).SetItems impl 100).SetItems impl 0).Page = 1 := by
  intro impl
  exact ⟨rfl, rfl, rfl⟩

end ExactPages

section Decimal

open strconv

theorem digitVal_digit (d : Nat) (h : d < 10) :
    digitVal (Fin.ofNat (48 + d) : Byte) = some d ∧
      (Fin.ofNat (48 + d) : Byte) ≠ 45 ∧ (Fin.ofNat (48 + d) : Byte) ≠ 43 := by
  interval_cases d <;> decide

theorem digitsAux_spec (fuel : Nat) :
    ∀ (n : Nat) (acc : GoString), n < fuel →
      ∃ c ds, digitsAux fuel n acc = (c :: ds) ++ acc ∧ c ≠ 45 ∧ c ≠ 43 ∧
        ∀ (a : Nat) (rest : GoString),
          parseDigits a ((c :: ds) ++ rest) = parseDigits (a * 10 ^ (ds.length + 1) + n) rest := by
  induction fuel with
  | zero => intro n _ h; exact absurd h (Nat.not_lt_zero _)
  | succ f ih =>
    intro n acc hn
    obtain ⟨d1, d2, d3⟩ := digitVal_digit (n % 10) (Nat.mod_lt _ (by norm_num))
    by_cases h0 : n / 10 = 0
    · refine ⟨Fin.ofNat (48 + n % 10), [], ?_, d2, d3, ?_⟩
      · simp [digitsAux, h0]
      · intro a rest
        have hn10 : n % 10 = n := Nat.mod_eq_of_lt (by omega)
        rw [hn10] at d1
        simp only [hn10, List.cons_append, List.nil_append, parseDigits, d1, List.length_nil,
          Nat.zero_add, pow_one]
        rfl
    · have hlt : n / 10 < f := by omega
      obtain ⟨c, ds, e1, e2, e3, e4⟩ := ih (n / 10) ((Fin.ofNat (48 + n % 10) : Byte) :: acc) hlt
      refine ⟨c, ds ++ [Fin.ofNat (48 + n % 10)], ?_, e2, e3, ?_⟩
      · simp only [digitsAux, h0, if_false, e1]
        simp
      · intro a rest
        have e5 := e4 a ((Fin.ofNat (48 + n % 10) : Byte) :: rest)
        have e6 : (c :: (ds ++ [(Fin.ofNat (48 + n % 10) : Byte)])) ++ rest
            = (c :: ds) ++ ((Fin.ofNat (48 + n % 10) : Byte) :: rest) := by simp
        rw [e6, e5]
        simp only [parseDigits, d1, List.length_append, List.length_singleton]
        congr 1
        have hdm := Nat.div_add_mod n 10
        have hp : a * 10 ^ (ds.length + 1 + 1) = a * 10 ^ (ds.length + 1) * 10 := by
          rw [pow_succ (10 : Nat) (ds.length + 1), mul_assoc]
        rw [hp]
        generalize a * 10 ^ (ds.length + 1) = z
        omega

/-- Reading back the decimal rendering of an `int` gives the `int`. -/
theorem Atoi_Itoa (i : Int) (h : inInt64 i) : Atoi (Itoa i) = some i := by
  obtain ⟨c, ds, e1, e2, e3, e4⟩ := digitsAux_spec (i.natAbs + 1) i.natAbs [] (Nat.lt_succ_self _)
  have e5 := e4 0 []
  simp only [List.append_nil, Nat.zero_mul, Nat.zero_add] at e1 e5
  have e6 : parseDigits 0 (c :: ds) = some i.natAbs := by
    rw [e5]; rfl
  unfold Itoa
  by_cases hneg : i < 0
  · simp only [hneg, if_true, e1]
    simp [Atoi, e6, abs_of_neg hneg, h]
  · simp only [hneg, if_false, e1]
    simp [Atoi, e2, e3, e6, abs_of_nonneg (not_lt.mp hneg), h]

theorem digitsAux_eq_digits (fuel : Nat) :
    ∀ (n : Nat) (acc : GoString), 0 < n → n < fuel →
      digitsAux fuel n acc = decimalRendering n ++ acc := by
  induction fuel with
  | zero => intro n _ _ h; exact absurd h (Nat.not_lt_zero _)
  | succ f ih =>
    intro n acc hpos hn
    have hd : Nat.digits 10 n = n % 10 :: Nat.digits 10 (n / 10) :=
      Nat.digits_def' (by norm_num) hpos
    by_cases h0 : n / 10 = 0
    · simp [digitsAux, h0, decimalRendering, hd]
    · have hlt : n / 10 < f := by omega
      have hrec := ih (n / 10) ((Fin.ofNat (48 + n % 10) : Byte) :: acc)
        (Nat.pos_of_ne_zero h0) hlt
      simp only [digitsAux, h0, if_false]
      rw [hrec]
      simp [decimalRendering, hd]

/-- For a positive `int`, `Itoa` gives the decimal rendering. -/
theorem Itoa_eq_decimalRendering (i : Int) (h : 0 < i) :
    Itoa i = decimalRendering i.toNat := by
  have hn : i.natAbs = i.toNat := by omega
  have hpos : 0 < i.toNat := by omega
  unfold Itoa
  rw [if_neg (by omega), hn, digitsAux_eq_digits _ _ [] hpos (Nat.lt_succ_self _),
    List.append_nil]

end Decimal

section NewPager

theorem NewPager_Page_pos (q : Values) (ipp : Int) : 1 ≤ (NewPager q ipp).Page := by
  unfold NewPager
  simp only []
  split_ifs with h1
  · split
    · split_ifs with h2
      · simp only [gt_iff_lt] at h2
        exact Int.add_one_le_of_lt h2
      · exact le_refl _
    · exact le_refl _
  · exact le_refl _

theorem NewPager_frame (q : Values) (ipp : Int) :
    (NewPager q ipp).ItemsPerPage = ipp ∧ (NewPager q ipp).Pages = 1 ∧
      (NewPager q ipp).Items = 0 := by
  unfold NewPager
  simp only []
  split_ifs with h1
  · split
    · split_ifs with h2 <;> exact ⟨rfl, rfl, rfl⟩
    · exact ⟨rfl, rfl, rfl⟩
  · exact ⟨rfl, rfl, rfl⟩

theorem Get_of_lookup_none (q : Values) (k : GoString) (h : q.lookup k = none) :
    q.Get k = [] := by
  simp [Values.Get, Values.at, h]

/-- C3: when the parsed query of the request has no `page` key, `NewPager` returns a
pager with `ItemsPerPage = itemsPerPage`, `Page = 1`, `Pages = 1` and `Items = 0`. -/
theorem C3_NewPager_without_page_param (queryParams : Values) (itemsPerPage : Int)
    (h : queryParams.lookup QueryKey = none) :
    (NewPager queryParams itemsPerPage).ItemsPerPage = itemsPerPage ∧
      (NewPager queryParams itemsPerPage).Page = 1 ∧
      (NewPager queryParams itemsPerPage).Pages = 1 ∧
      (NewPager queryParams itemsPerPage).Items = 0 := by
  obtain ⟨h1, h2, h3⟩ := NewPager_frame queryParams itemsPerPage
  refine ⟨h1, ?_, h2, h3⟩
  unfold NewPager
  simp [Get_of_lookup_none queryParams QueryKey h]

/-- C3 at a request `?filter=active` with ten items per page. -/
theorem C3_NewPager_without_page_param_witness :
    (AList.insert (ascii "filter") [ascii "active"] (∅ : Values)).lookup QueryKey = none ∧
      (NewPager (AList.insert (ascii "filter") [ascii "active"] ∅) 10).ItemsPerPage = 10 ∧
      (NewPager (AList.insert (ascii "filter") [ascii "active"] ∅) 10).Page = 1 ∧
      (NewPager (AList.insert (ascii "filter") [ascii "active"] ∅) 10).Pages = 1 ∧
      (NewPager (AList.insert (ascii "filter") [ascii "active"] ∅) 10).Items = 0 :=
  ⟨by decide, C3_NewPager_without_page_param _ 10 (by decide)⟩

/-- C4: `NewPager` sets `Page` to `n` when the first value of the `page` parameter
parses (`strconv.Atoi`) as an integer `n > 0`, and to `1` in every other case: the
parameter is absent or has the empty string as first value, the value does not parse,
or it parses as zero or a negative integer. A request whose only parameter is `page`
with the decimal rendering of a positive `int` `n` gives page `n`; `page=2` gives page 2
and `page=-2` gives page 1. -/
theorem C4_NewPager_Page (queryParams : Values) (itemsPerPage : Int) :
    (∀ n : Int, strconv.Atoi (queryParams.Get QueryKey) = some n → 0 < n →
        (NewPager queryParams itemsPerPage).Page = n) ∧
      (queryParams.lookup QueryKey = none → (NewPager queryParams itemsPerPage).Page = 1) ∧
      (queryParams.Get QueryKey = [] → (NewPager queryParams itemsPerPage).Page = 1) ∧
      (strconv.Atoi (queryParams.Get QueryKey) = none →
        (NewPager queryParams itemsPerPage).Page = 1) ∧
      (∀ n : Int, strconv.Atoi (queryParams.Get QueryKey) = some n → n ≤ 0 →
        (NewPager queryParams itemsPerPage).Page = 1) ∧
      (∀ n : Int, 0 < n → inInt64 n →
        (NewPager (AList.insert QueryKey [strconv.Itoa n] ∅) itemsPerPage).Page = n) ∧
      (NewPager (AList.insert QueryKey [ascii "2"] ∅) itemsPerPage).Page = 2 ∧
      (NewPager (AList.insert QueryKey [ascii "-2"] ∅) itemsPerPage).Page = 1 := by
  have first : ∀ (q : Values) (n : Int), strconv.Atoi (q.Get QueryKey) = some n → 0 < n →
      (NewPager q itemsPerPage).Page = n := by
    intro q n hn hpos
    have hne : q.Get QueryKey ≠ [] := by
      intro h0
      rw [h0] at hn
      simp [strconv.Atoi] at hn
    unfold NewPager
    simp [hne, hn, hpos]
  refine ⟨first queryParams, ?_, ?_, ?_, ?_, ?_, rfl, rfl⟩
  rotate_right
  · intro n hpos hin
    apply first _ n _ hpos
    have hl : (AList.insert QueryKey [strconv.Itoa n] (∅ : Values)).lookup QueryKey
        = some [strconv.Itoa n] := AList.lookup_insert _
    have hg : Values.Get (AList.insert QueryKey [strconv.Itoa n] ∅) QueryKey = strconv.Itoa n := by
      simp only [Values.Get, Values.at, hl, Option.getD_some]
    rw [hg]
    exact Atoi_Itoa n hin
  · intro h
    unfold NewPager
    simp [Get_of_lookup_none queryParams QueryKey h]
  · intro h
    unfold NewPager
    simp [h]
  · intro h
    unfold NewPager
    simp only [h]
    split_ifs <;> rfl
  · intro n hn hle
    have hnp : ¬ n > 0 := by omega
    unfold NewPager
    simp only [hn, hnp, if_false]
    split_ifs <;> rfl

end NewPager

section SetItemsFrame

/-- C2: after `SetItems` the current page does not exceed the page count: a `Page`
greater than the new `Pages` becomes `Pages`, any other `Page` is unchanged;
`ItemsPerPage` and `QueryParams` are unchanged; and `SetItems(0)` on a pager that
`NewPager` returned leaves `Page = 1`. -/
theorem C2_SetItems_clamps_Page (impl : Float64 → Int) (p : Pager) (items : Int) :
    (p.SetItems impl items).Page ≤ (p.SetItems impl items).Pages ∧
      ((p.SetItems impl items).Pages < p.Page →
        (p.SetItems impl items).Page = (p.SetItems impl items).Pages) ∧
      (p.Page ≤ (p.SetItems impl items).Pages → (p.SetItems impl items).Page = p.Page) ∧
      (p.SetItems impl items).ItemsPerPage = p.ItemsPerPage ∧
      (p.SetItems impl items).QueryParams = p.QueryParams ∧
      (∀ (q : Values) (ipp : Int), ((NewPager q ipp).SetItems impl 0).Page = 1) := by
  have key : ∀ (p : Pager) (items : Int),
      (p.SetItems impl items).Page = min p.Page (p.SetItems impl items).Pages ∧
      (p.SetItems impl items).ItemsPerPage = p.ItemsPerPage ∧
      (p.SetItems impl items).QueryParams = p.QueryParams := by
    intro p items
    unfold Pager.SetItems
    simp only []
    split_ifs with h1 h2 h2
    · refine ⟨?_, rfl, rfl⟩
      simp only [gt_iff_lt] at h2
      exact (min_eq_right (le_of_lt h2)).symm
    · refine ⟨?_, rfl, rfl⟩
      simp only [gt_iff_lt, not_lt] at h2
      exact (min_eq_left h2).symm
    · refine ⟨?_, rfl, rfl⟩
      simp only [gt_iff_lt] at h2
      exact (min_eq_right (le_of_lt h2)).symm
    · refine ⟨?_, rfl, rfl⟩
      simp only [gt_iff_lt, not_lt] at h2
      exact (min_eq_left h2).symm
  obtain ⟨hP, hI, hQ⟩ := key p items
  refine ⟨?_, ?_, ?_, hI, hQ, ?_⟩
  · rw [hP]; exact min_le_right _ _
  · intro h
    rw [hP]
    exact min_eq_right (le_of_lt h)
  · intro h
    rw [hP]
    exact min_eq_left h
  · intro q ipp
    have h1 := (key (NewPager q ipp) 0).1
    rw [SetItems_Pages_of_nonpos impl _ 0 (le_refl _)] at h1
    rw [h1]
    exact min_eq_right (NewPager_Page_pos q ipp)

end SetItemsFrame

section Offsets

theorem wrap64_of_inInt64 (x : Int) (h : inInt64 x) : wrap64 x = x := by
  unfold inInt64 minInt64 maxInt64 at h
  unfold wrap64
  omega

theorem wrap64_mul_wrap64 (a b : Int) : wrap64 (wrap64 a * b) = wrap64 (a * b) := by
  have h : wrap64 a = a - 2 ^ 64 * ((a + 2 ^ 63) / 2 ^ 64) := by
    unfold wrap64
    omega
  rw [h, sub_mul, mul_assoc]
  generalize (a + 2 ^ 63) / 2 ^ 64 * b = y
  generalize a * b = x
  unfold wrap64
  omega

/-- C5: `GetOffset` first replaces a `Page` of 0 by 1 (the offset is then 0) and leaves
any other pager unchanged; it returns `(Page - 1) * ItemsPerPage` computed on Go
`int`s, which is the exact product whenever that product is in the range of `int`;
with 20 items per page, pages 1, 2, 3 give offsets 0, 20, 40. -/
theorem C5_GetOffset (p : Pager) :
    p.GetOffset.1 = (if p.Page = 0 then { p with Page := 1 } else p) ∧
      p.GetOffset.2 = wrap64 (wrap64 (p.GetOffset.1.Page - 1) * p.GetOffset.1.ItemsPerPage) ∧
      (inInt64 ((p.GetOffset.1.Page - 1) * p.ItemsPerPage) →
        p.GetOffset.2 = (p.GetOffset.1.Page - 1) * p.ItemsPerPage) ∧
      (p.Page = 0 → p.GetOffset.1.Page = 1 ∧ p.GetOffset.2 = 0) ∧
      ({ p with Page := 1, ItemsPerPage := 20 } : Pager).GetOffset.2 = 0 ∧
      ({ p with Page := 2, ItemsPerPage := 20 } : Pager).GetOffset.2 = 20 ∧
      ({ p with Page := 3, ItemsPerPage := 20 } : Pager).GetOffset.2 = 40 := by
  have hI : p.GetOffset.1.ItemsPerPage = p.ItemsPerPage := by
    unfold Pager.GetOffset
    simp only []
    split_ifs <;> rfl
  refine ⟨rfl, rfl, ?_, ?_, rfl, rfl, rfl⟩
  · intro h
    show wrap64 (wrap64 (p.GetOffset.1.Page - 1) * p.GetOffset.1.ItemsPerPage) = _
    rw [hI, wrap64_mul_wrap64, wrap64_of_inInt64 _ h]
  · intro h
    constructor <;> simp [Pager.GetOffset, h, wrap64]

/-- C6: `IsBeginning` returns true exactly when `Page = 1`, `IsEnd` returns true
exactly when `Page >= Pages`, and both leave the pager as it was. -/
theorem C6_IsBeginning_IsEnd (p : Pager) :
    (p.IsBeginning.2 = true ↔ p.Page = 1) ∧ (p.IsEnd.2 = true ↔ p.Page ≥ p.Pages) ∧
      p.IsBeginning.1 = p ∧ p.IsEnd.1 = p := by
  refine ⟨?_, ?_, rfl, rfl⟩
  · simp [Pager.IsBeginning]
  · simp [Pager.IsEnd]

end Offsets

section Escaping

theorem escapeByte_no_separator :
    ∀ c : Byte, (38 : Byte) ∉ escapeByte c ∧ (61 : Byte) ∉ escapeByte c ∧
      (59 : Byte) ∉ escapeByte c := by
  decide

theorem escaped_hex_roundtrip :
    ∀ c : Byte, shouldEscape c = true →
      ishex (upperhex.getD (c.val / 16) 0) = true ∧
      ishex (upperhex.getD (c.val % 16) 0) = true ∧
      (Fin.ofNat (unhex (upperhex.getD (c.val / 16) 0) * 16
        + unhex (upperhex.getD (c.val % 16) 0)) : Byte) = c := by
  decide

theorem unescaped_not_special :
    ∀ c : Byte, shouldEscape c = false → c ≠ 37 ∧ c ≠ 43 := by
  decide

theorem shouldEscape_space : shouldEscape 32 = true := by decide

theorem QueryUnescape_percent (h1 h2 : Byte) (t : GoString)
    (e1 : ishex h1 = true) (e2 : ishex h2 = true) :
    QueryUnescape (37 :: h1 :: h2 :: t)
      = (QueryUnescape t).map (fun u => (Fin.ofNat (unhex h1 * 16 + unhex h2) : Byte) :: u) := by
  rw [QueryUnescape]
  simp [e1, e2]

theorem QueryUnescape_plus (t : GoString) :
    QueryUnescape (43 :: t) = (QueryUnescape t).map (fun u => (32 : Byte) :: u) := by
  rcases t with _ | ⟨a, _ | ⟨b, t⟩⟩
  · simp [QueryUnescape]
  · rw [QueryUnescape] <;> simp
  · rw [QueryUnescape]; simp

theorem QueryUnescape_plain (c : Byte) (t : GoString) (h1 : c ≠ 37) (h2 : c ≠ 43) :
    QueryUnescape (c :: t) = (QueryUnescape t).map (fun u => c :: u) := by
  rcases t with _ | ⟨a, _ | ⟨b, t⟩⟩
  · simp [QueryUnescape, h1, h2]
  · rw [QueryUnescape] <;> simp [h1, h2]
  · rw [QueryUnescape]; simp [h1, h2]

theorem QueryUnescape_escapeByte (c : Byte) (t : GoString) :
    QueryUnescape (escapeByte c ++ t) = (QueryUnescape t).map (fun u => c :: u) := by
  unfold escapeByte
  by_cases hs : shouldEscape c = true
  · by_cases h32 : c = 32
    · subst h32
      simp only [hs, if_true, List.singleton_append]
      exact QueryUnescape_plus t
    · obtain ⟨h1, h2, h3⟩ := escaped_hex_roundtrip c hs
      simp only [hs, h32, if_true, if_false, List.cons_append, List.nil_append]
      rw [QueryUnescape_percent _ _ _ h1 h2, h3]
  · have hs' : shouldEscape c = false := by simpa using hs
    obtain ⟨h1, h2⟩ := unescaped_not_special c hs'
    simp only [hs', List.singleton_append]
    exact QueryUnescape_plain c t h1 h2

theorem QueryUnescape_QueryEscape (s : GoString) : QueryUnescape (QueryEscape s) = some s := by
  induction s with
  | nil => rfl
  | cons c cs ih =>
    rw [QueryEscape, QueryUnescape_escapeByte, ih]
    rfl

theorem QueryEscape_no_separator (s : GoString) :
    (38 : Byte) ∉ QueryEscape s ∧ (61 : Byte) ∉ QueryEscape s ∧ (59 : Byte) ∉ QueryEscape s := by
  induction s with
  | nil => simp [QueryEscape]
  | cons c cs ih =>
    obtain ⟨h1, h2, h3⟩ := escapeByte_no_separator c
    obtain ⟨i1, i2, i3⟩ := ih
    simp only [QueryEscape, List.mem_append, not_or]
    exact ⟨⟨h1, i1⟩, ⟨h2, i2⟩, ⟨h3, i3⟩⟩

theorem cut_of_not_mem (sep : Byte) (a : GoString) (h : sep ∉ a) :
    cut sep a = (a, [], false) := by
  induction a with
  | nil => rfl
  | cons c cs ih =>
    have hc : c ≠ sep := fun e => h (by simp [e])
    have hcs : sep ∉ cs := fun e => h (by simp [e])
    simp [cut, hc, ih hcs]

theorem cut_append_of_not_mem (sep : Byte) (a b : GoString) (h : sep ∉ a) :
    cut sep (a ++ sep :: b) = (a, b, true) := by
  induction a with
  | nil => simp [cut]
  | cons c cs ih =>
    have hc : c ≠ sep := fun e => h (by simp [e])
    have hcs : sep ∉ cs := fun e => h (by simp [e])
    simp [cut, hc, ih hcs]

end Escaping

section EncodeParse

theorem pairText_ne_nil (kv : GoString × GoString) : pairText kv ≠ [] := by
  simp [pairText]

theorem pairText_length_pos (kv : GoString × GoString) : 0 < (pairText kv).length := by
  simp [pairText]

theorem pairText_no_amp (kv : GoString × GoString) :
    (38 : Byte) ∉ pairText kv ∧ (59 : Byte) ∉ pairText kv := by
  obtain ⟨a1, _, a3⟩ := QueryEscape_no_separator kv.1
  obtain ⟨b1, _, b3⟩ := QueryEscape_no_separator kv.2
  simp only [pairText, List.mem_append, List.mem_cons, not_or]
  exact ⟨⟨a1, by decide, b1⟩, ⟨a3, by decide, b3⟩⟩

theorem cut_eq_pairText (kv : GoString × GoString) :
    cut 61 (pairText kv) = (QueryEscape kv.1, QueryEscape kv.2, true) :=
  cut_append_of_not_mem 61 _ _ (QueryEscape_no_separator kv.1).2.1

theorem cut_amp_joinAmp (kv : GoString × GoString) (rest : List (GoString × GoString)) :
    (cut 38 (joinAmp ((kv :: rest).map pairText))).1 = pairText kv ∧
      (cut 38 (joinAmp ((kv :: rest).map pairText))).2.1 = joinAmp (rest.map pairText) := by
  cases rest with
  | nil =>
    simp only [List.map, joinAmp, tailAmp, List.append_nil]
    rw [cut_of_not_mem 38 _ (pairText_no_amp kv).1]
    exact ⟨rfl, rfl⟩
  | cons kv2 rest2 =>
    simp only [List.map, joinAmp, tailAmp, List.cons_append]
    rw [cut_append_of_not_mem 38 _ _ (pairText_no_amp kv).1]
    exact ⟨rfl, rfl⟩

theorem joinAmp_length (kv : GoString × GoString) (rest : List (GoString × GoString)) :
    (joinAmp (rest.map pairText)).length < (joinAmp ((kv :: rest).map pairText)).length := by
  have := pairText_length_pos kv
  cases rest with
  | nil => simpa [joinAmp, tailAmp] using this
  | cons kv2 rest2 =>
    simp only [List.map, joinAmp, tailAmp, List.length_append, List.length_cons]
    omega

theorem parseQueryLoop_joinAmp (ps : List (GoString × GoString)) :
    ∀ (fuel : Nat) (m : Values), (joinAmp (ps.map pairText)).length ≤ fuel →
      parseQueryLoop fuel m (joinAmp (ps.map pairText)) = ps.foldl addPair m := by
  induction ps with
  | nil =>
    intro fuel m _
    cases fuel with
    | zero => rfl
    | succ f => simp [joinAmp, parseQueryLoop]
  | cons kv rest ih =>
    intro fuel m hfuel
    have hlen := joinAmp_length kv rest
    cases fuel with
    | zero => omega
    | succ f =>
      obtain ⟨c1, c2⟩ := cut_amp_joinAmp kv rest
      have hne : joinAmp ((kv :: rest).map pairText) ≠ [] := by
        intro h0
        rw [h0] at hlen
        simp at hlen
      rw [parseQueryLoop]
      simp only [hne, if_false, c1, c2, (pairText_no_amp kv).2, pairText_ne_nil kv,
        cut_eq_pairText, QueryUnescape_QueryEscape]
      rw [List.foldl_cons]
      exact ih f _ (by omega)

end EncodeParse

section EncodeShape

theorem encodePair_nil (k x : GoString) :
    encodePair (QueryEscape k) [] x = pairText (k, x) := by
  simp [encodePair, pairText]

theorem encodePair_of_ne_nil (k x buf : GoString) (h : buf ≠ []) :
    encodePair (QueryEscape k) buf x = buf ++ ((38 : Byte) :: pairText (k, x)) := by
  have hpos : 0 < buf.length := List.length_pos.mpr h
  simp [encodePair, pairText, hpos]

theorem writePairs_of_ne_nil (ps : List (GoString × GoString)) :
    ∀ buf : GoString, buf ≠ [] → writePairs buf ps = buf ++ tailAmp (ps.map pairText) := by
  induction ps with
  | nil => intro buf _; simp [writePairs, tailAmp]
  | cons kv rest ih =>
    intro buf h
    have step : writePairs buf (kv :: rest)
        = writePairs (encodePair (QueryEscape kv.1) buf kv.2) rest := rfl
    rw [step, encodePair_of_ne_nil _ _ _ h, ih _ (by simp)]
    simp [tailAmp]

theorem writePairs_nil (ps : List (GoString × GoString)) :
    writePairs [] ps = joinAmp (ps.map pairText) := by
  cases ps with
  | nil => rfl
  | cons kv rest =>
    have step : writePairs [] (kv :: rest)
        = writePairs (encodePair (QueryEscape kv.1) [] kv.2) rest := rfl
    rw [step, encodePair_nil, writePairs_of_ne_nil _ _ (pairText_ne_nil _)]
    rfl

theorem writePairs_append (buf : GoString) (a b : List (GoString × GoString)) :
    writePairs buf (a ++ b) = writePairs (writePairs buf a) b := by
  simp [writePairs, List.foldl_append]

theorem foldl_encodePair (k : GoString) (vs : List GoString) (buf : GoString) :
    vs.foldl (encodePair (QueryEscape k)) buf = writePairs buf (vs.map (fun x => (k, x))) := by
  simp [writePairs, List.foldl_map]

theorem foldl_keys_eq_writePairs (v : Values) (ks : List GoString) :
    ∀ buf : GoString,
      ks.foldl (fun buf k => (v.at k).foldl (encodePair (QueryEscape k)) buf) buf
        = writePairs buf (pairsOfKeys v ks) := by
  induction ks with
  | nil => intro buf; rfl
  | cons k rest ih =>
    intro buf
    rw [List.foldl_cons, ih, foldl_encodePair, pairsOfKeys, writePairs_append]

theorem Encode_eq_joinAmp (v : Values) :
    v.Encode = joinAmp ((pairsOfKeys v v.sortedKeys).map pairText) := by
  unfold Values.Encode
  split_ifs with h
  · have hk : v.keys = [] := List.length_eq_zero.mp h
    simp [Values.sortedKeys, hk, pairsOfKeys, joinAmp]
  · rw [foldl_keys_eq_writePairs, writePairs_nil]

theorem count_amp_tailAmp (l : List GoString) (h : ∀ x ∈ l, (38 : Byte) ∉ x) :
    count 38 (tailAmp l) = l.length := by
  induction l with
  | nil => rfl
  | cons x t ih =>
    have hx : List.count (38 : Byte) x = 0 := List.count_eq_zero.mpr (h x (by simp))
    have ht := ih (fun y hy => h y (by simp [hy]))
    unfold count at ht ⊢
    simp only [tailAmp, List.cons_append, List.count_cons_self, List.count_append, hx, ht,
      List.length_cons]
    omega

/-- The number of `&` in what `Encode` writes: one less than the number of pairs. -/
theorem count_amp_Encode (v : Values) :
    count 38 v.Encode = (pairsOfKeys v v.sortedKeys).length - 1 := by
  rw [Encode_eq_joinAmp]
  cases hps : pairsOfKeys v v.sortedKeys with
  | nil => rfl
  | cons kv rest =>
    have hx : List.count (38 : Byte) (pairText kv) = 0 :=
      List.count_eq_zero.mpr (pairText_no_amp kv).1
    have ht := count_amp_tailAmp (rest.map pairText) (by
      intro x hx2
      obtain ⟨kv2, _, e⟩ := List.mem_map.mp hx2
      rw [← e]
      exact (pairText_no_amp kv2).1)
    unfold count at ht ⊢
    simp only [List.map_cons, joinAmp, List.count_append, hx, ht, List.length_map,
      List.length_cons]
    omega

theorem ParseQuery_of_within (q : GoString) (h : count 38 q + 1 ≤ defaultMaxParams) :
    ParseQuery q = parseQueryLoop q.length ∅ q := by
  unfold ParseQuery urlParamsWithinMax
  rw [if_pos (by simpa using h)]

/-- A query of more parameters than the limit parses to the empty map. -/
theorem ParseQuery_of_exceeds (q : GoString) (h : defaultMaxParams < count 38 q + 1) :
    ParseQuery q = ∅ := by
  unfold ParseQuery urlParamsWithinMax
  rw [if_neg (by simpa using h)]

theorem ParseQuery_Encode_eq_foldl (v : Values)
    (h : count 38 v.Encode + 1 ≤ defaultMaxParams) :
    ParseQuery v.Encode = (pairsOfKeys v v.sortedKeys).foldl addPair ∅ := by
  rw [ParseQuery_of_within _ h, Encode_eq_joinAmp]
  exact parseQueryLoop_joinAmp _ _ _ (le_refl _)

end EncodeShape

section Lookup

theorem at_insert_self (m : Values) (k : GoString) (vs : List GoString) :
    Values.at (m.insert k vs) k = vs := by
  simp [Values.at]

theorem at_insert_of_ne (m : Values) (k k2 : GoString) (vs : List GoString) (h : k2 ≠ k) :
    Values.at (m.insert k vs) k2 = m.at k2 := by
  simp [Values.at, AList.lookup_insert_ne h]

theorem at_erase_self (m : Values) (k : GoString) : Values.at (m.erase k) k = [] := by
  simp [Values.at]

theorem at_erase_of_ne (m : Values) (k k2 : GoString) (h : k2 ≠ k) :
    Values.at (m.erase k) k2 = m.at k2 := by
  simp [Values.at, AList.lookup_erase_ne h]

theorem at_of_not_mem_keys (m : Values) (k : GoString) (h : k ∉ m.keys) : m.at k = [] := by
  have : m.lookup k = none := AList.lookup_eq_none.mpr h
  simp [Values.at, this]

theorem mem_keys_of_at_ne_nil (m : Values) (k : GoString) (h : m.at k ≠ []) : k ∈ m.keys := by
  by_contra hk
  exact h (at_of_not_mem_keys m k hk)

theorem addPair_at (m : Values) (kv : GoString × GoString) (key : GoString) :
    (addPair m kv).at key = if kv.1 = key then m.at key ++ [kv.2] else m.at key := by
  unfold addPair
  split_ifs with h
  · subst h
    exact at_insert_self _ _ _
  · exact at_insert_of_ne _ _ _ _ (fun e => h e.symm)

theorem foldl_addPair_at (ps : List (GoString × GoString)) (key : GoString) :
    ∀ m : Values, (ps.foldl addPair m).at key
      = m.at key ++ (ps.filter (fun kv => decide (kv.1 = key))).map Prod.snd := by
  induction ps with
  | nil => intro m; simp
  | cons kv rest ih =>
    intro m
    rw [List.foldl_cons, ih, addPair_at]
    by_cases h : kv.1 = key
    · simp [h, List.filter_cons]
    · simp [h, List.filter_cons]

theorem foldl_addPair_mem_keys (ps : List (GoString × GoString)) (key : GoString) :
    ∀ m : Values, key ∈ (ps.foldl addPair m).keys ↔ key ∈ m.keys ∨ ∃ kv ∈ ps, kv.1 = key := by
  induction ps with
  | nil => intro m; simp
  | cons kv rest ih =>
    intro m
    rw [List.foldl_cons, ih]
    have hk : key ∈ (addPair m kv).keys ↔ key = kv.1 ∨ key ∈ m.keys := by
      unfold addPair
      rw [← AList.mem_keys, AList.mem_insert, AList.mem_keys]
    rw [hk]
    constructor
    · rintro ((h | h) | ⟨kv2, h2, h3⟩)
      · exact Or.inr ⟨kv, by simp, h.symm⟩
      · exact Or.inl h
      · exact Or.inr ⟨kv2, by simp [h2], h3⟩
    · rintro (h | ⟨kv2, h2, h3⟩)
      · exact Or.inl (Or.inr h)
      · rcases List.mem_cons.mp h2 with e | e
        · subst e
          exact Or.inl (Or.inl h3.symm)
        · exact Or.inr ⟨kv2, e, h3⟩

theorem pairsOfKeys_filter (v : Values) (key : GoString) (ks : List GoString) (hnd : ks.Nodup) :
    ((pairsOfKeys v ks).filter (fun kv => decide (kv.1 = key))).map Prod.snd
      = if key ∈ ks then v.at key else [] := by
  induction ks with
  | nil => simp [pairsOfKeys]
  | cons k rest ih =>
    have hnd2 := List.nodup_cons.mp hnd
    rw [pairsOfKeys, List.filter_append, List.map_append, ih hnd2.2]
    by_cases h : k = key
    · subst h
      have h1 : ((v.at k).map (fun x => (k, x))).filter (fun kv => decide (kv.1 = k))
          = (v.at k).map (fun x => (k, x)) := by
        apply List.filter_eq_self.mpr
        intro a ha
        obtain ⟨x, _, hx⟩ := List.mem_map.mp ha
        simp [← hx]
      rw [h1]
      simp [hnd2.1, Function.comp_def]
    · have h1 : ((v.at k).map (fun x => (k, x))).filter (fun kv => decide (kv.1 = key)) = [] := by
        apply List.filter_eq_nil_iff.mpr
        intro a ha
        obtain ⟨x, _, hx⟩ := List.mem_map.mp ha
        simp [← hx, h]
      rw [h1]
      have h2 : (key ∈ k :: rest) ↔ key ∈ rest := by
        constructor
        · intro hm
          rcases List.mem_cons.mp hm with e | e
          · exact absurd e.symm h
          · exact e
        · exact List.mem_cons_of_mem _
      simp [h2]

theorem pairsOfKeys_mem (v : Values) (key : GoString) (ks : List GoString) :
    (∃ kv ∈ pairsOfKeys v ks, kv.1 = key) ↔ key ∈ ks ∧ v.at key ≠ [] := by
  induction ks with
  | nil => simp [pairsOfKeys]
  | cons k rest ih =>
    simp only [pairsOfKeys, List.mem_append, List.mem_map, List.mem_cons]
    constructor
    · rintro ⟨kv, (⟨x, hx, e⟩ | h), hk⟩
      · subst e
        simp only at hk
        subst hk
        exact ⟨Or.inl rfl, List.ne_nil_of_mem hx⟩
      · obtain ⟨h1, h2⟩ := ih.mp ⟨kv, h, hk⟩
        exact ⟨Or.inr h1, h2⟩
    · rintro ⟨(e | h), hne⟩
      · subst e
        obtain ⟨x, hx⟩ := List.exists_mem_of_ne_nil _ hne
        exact ⟨(key, x), Or.inl ⟨x, hx, rfl⟩, rfl⟩
      · obtain ⟨kv, h1, h2⟩ := ih.mpr ⟨h, hne⟩
        exact ⟨kv, Or.inr h1, h2⟩

theorem sortedKeys_nodup (v : Values) : v.sortedKeys.Nodup :=
  (List.perm_insertionSort _ _).nodup_iff.mpr v.keys_nodup

theorem mem_sortedKeys (v : Values) (key : GoString) : key ∈ v.sortedKeys ↔ key ∈ v.keys :=
  (List.perm_insertionSort _ _).mem_iff

/-- Parsing what `Encode` wrote, when it is within the limit on the number of parameters,
gives back, under every key, the values of that key. -/
theorem ParseQuery_Encode_at (v : Values) (key : GoString)
    (hlim : count 38 v.Encode + 1 ≤ defaultMaxParams) :
    (ParseQuery v.Encode).at key = v.at key := by
  rw [ParseQuery_Encode_eq_foldl v hlim, foldl_addPair_at,
    pairsOfKeys_filter _ _ _ (sortedKeys_nodup v)]
  have h0 : (∅ : Values).at key = [] := rfl
  rw [h0, List.nil_append]
  split_ifs with h
  · rfl
  · exact (at_of_not_mem_keys v key (fun hk => h ((mem_sortedKeys v key).mpr hk))).symm

/-- The keys of the parse of what `Encode` wrote are the keys that have a value. -/
theorem ParseQuery_Encode_mem_keys (v : Values) (key : GoString)
    (hlim : count 38 v.Encode + 1 ≤ defaultMaxParams) :
    key ∈ (ParseQuery v.Encode).keys ↔ v.at key ≠ [] := by
  rw [ParseQuery_Encode_eq_foldl v hlim, foldl_addPair_mem_keys, pairsOfKeys_mem, mem_sortedKeys]
  constructor
  · rintro (h | ⟨_, h⟩)
    · exact absurd h (by simp)
    · exact h
  · intro h
    exact Or.inr ⟨mem_keys_of_at_ne_nil v key h, h⟩

end Lookup

section SortedKeys

theorem GoString.le_total (a : GoString) :
    ∀ b : GoString, GoString.le a b = true ∨ GoString.le b a = true := by
  induction a with
  | nil => intro b; exact Or.inl (by cases b <;> rfl)
  | cons x xs ih =>
    intro b
    cases b with
    | nil => exact Or.inr rfl
    | cons y ys =>
      simp only [GoString.le, Bool.or_eq_true, Bool.and_eq_true, decide_eq_true_eq]
      rcases lt_trichotomy x y with h | h | h
      · exact Or.inl (Or.inl h)
      · subst h
        rcases ih ys with h2 | h2
        · exact Or.inl (Or.inr ⟨rfl, h2⟩)
        · exact Or.inr (Or.inr ⟨rfl, h2⟩)
      · exact Or.inr (Or.inl h)

theorem GoString.le_trans (a : GoString) :
    ∀ b c : GoString, GoString.le a b = true → GoString.le b c = true →
      GoString.le a c = true := by
  induction a with
  | nil => intro b c _ _; cases c <;> rfl
  | cons x xs ih =>
    intro b c hab hbc
    cases b with
    | nil => simp [GoString.le] at hab
    | cons y ys =>
      cases c with
      | nil => simp [GoString.le] at hbc
      | cons z zs =>
        simp only [GoString.le, Bool.or_eq_true, Bool.and_eq_true, decide_eq_true_eq] at *
        rcases hab with h1 | ⟨h1, h1t⟩
        · rcases hbc with h2 | ⟨h2, _⟩
          · exact Or.inl (lt_trans h1 h2)
          · subst h2
            exact Or.inl h1
        · subst h1
          rcases hbc with h2 | ⟨h2, h2t⟩
          · exact Or.inl h2
          · exact Or.inr ⟨h2, ih ys zs h1t h2t⟩

theorem GoString.le_antisymm (a : GoString) :
    ∀ b : GoString, GoString.le a b = true → GoString.le b a = true → a = b := by
  induction a with
  | nil =>
    intro b _ hba
    cases b with
    | nil => rfl
    | cons y ys => simp [GoString.le] at hba
  | cons x xs ih =>
    intro b hab hba
    cases b with
    | nil => simp [GoString.le] at hab
    | cons y ys =>
      simp only [GoString.le, Bool.or_eq_true, Bool.and_eq_true, decide_eq_true_eq] at hab hba
      rcases hab with h1 | ⟨h1, h1t⟩
      · rcases hba with h2 | ⟨h2, _⟩
        · exact absurd h2 (not_lt_of_gt h1)
        · subst h2
          exact absurd h1 (lt_irrefl _)
      · subst h1
        rcases hba with h2 | ⟨_, h2t⟩
        · exact absurd h2 (lt_irrefl _)
        · rw [ih ys h1t h2t]

theorem mem_keys_iff_lookup (v : Values) (key : GoString) :
    key ∈ v.keys ↔ v.lookup key ≠ none := by
  rw [ne_eq, AList.lookup_eq_none, not_not, AList.mem_keys]

theorem keys_perm_of_lookup_eq (v w : Values) (h : ∀ key, v.lookup key = w.lookup key) :
    v.keys.Perm w.keys := by
  apply (List.perm_ext_iff_of_nodup v.keys_nodup w.keys_nodup).mpr
  intro key
  rw [mem_keys_iff_lookup, mem_keys_iff_lookup, h]

/-- The result of `Encode` depends on the bindings of the map only, not on the order in
which the map enumerates them. -/
theorem Encode_congr (v w : Values) (h : ∀ key, v.lookup key = w.lookup key) :
    v.Encode = w.Encode := by
  have hp := keys_perm_of_lookup_eq v w h
  haveI : IsTotal GoString (fun a b => GoString.le a b = true) := ⟨GoString.le_total⟩
  haveI : IsTrans GoString (fun a b => GoString.le a b = true) := ⟨GoString.le_trans⟩
  haveI : IsAntisymm GoString (fun a b => GoString.le a b = true) := ⟨GoString.le_antisymm⟩
  have hs : v.sortedKeys = w.sortedKeys := by
    apply List.eq_of_perm_of_sorted (r := fun a b => GoString.le a b = true)
    · exact ((List.perm_insertionSort _ _).trans hp).trans (List.perm_insertionSort _ _).symm
    · exact List.sorted_insertionSort _ _
    · exact List.sorted_insertionSort _ _
  have hat : v.at = w.at := by
    funext key
    simp [Values.at, h]
  unfold Values.Encode Values.len
  rw [hs, hat, hp.length_eq]

end SortedKeys

section CopyLoop

theorem copyInto_lookup (src : List (Sigma fun _ : GoString => List GoString)) (key : GoString) :
    ∀ dst : Values, src.NodupKeys →
      (copyInto dst src).lookup key
        = (match List.dlookup key src with
          | some x => some x
          | none => dst.lookup key) := by
  induction src with
  | nil => intro dst _; rfl
  | cons e rest ih =>
    intro dst hnd
    obtain ⟨k, vs⟩ := e
    have hnd2 := List.nodupKeys_cons.mp hnd
    have step : copyInto dst (⟨k, vs⟩ :: rest) = copyInto (dst.insert k vs) rest := rfl
    rw [step, ih _ hnd2.2]
    by_cases hk : key = k
    · subst hk
      have h1 : List.dlookup key rest = none := List.dlookup_eq_none.mpr hnd2.1
      rw [h1, List.dlookup_cons_eq]
      simp
    · rw [List.dlookup_cons_ne _ _ hk, AList.lookup_insert_ne hk]

/-- The copy of a map made by the `range` loop has the bindings of the map. -/
theorem copyInto_empty_lookup (v : Values) (key : GoString) :
    (copyInto ∅ v.entries).lookup key = v.lookup key := by
  rw [copyInto_lookup _ _ _ v.nodupKeys]
  have h0 : (∅ : Values).lookup key = none := rfl
  rw [h0]
  show _ = List.dlookup key v.entries
  cases List.dlookup key v.entries <;> rfl

theorem copyInto_empty_at (v : Values) (key : GoString) :
    Values.at (copyInto ∅ v.entries) key = v.at key := by
  simp [Values.at, copyInto_empty_lookup]

end CopyLoop

section PageURL

theorem len_congr (v w : Values) (h : ∀ key, v.lookup key = w.lookup key) : v.len = w.len :=
  (keys_perm_of_lookup_eq v w h).length_eq

theorem len_eq_zero_iff (v : Values) : v.len = 0 ↔ ∀ key, key ∉ v.keys := by
  unfold Values.len
  rw [List.length_eq_zero]
  exact List.eq_nil_iff_forall_not_mem

theorem len_insert_ne_zero (v : Values) (key : GoString) (vs : List GoString) :
    Values.len (v.insert key vs) ≠ 0 := by
  intro h
  have h2 := (len_eq_zero_iff _).mp h key
  exact h2 (by rw [← AList.mem_keys, AList.mem_insert]; exact Or.inl rfl)

theorem len_erase_eq_zero_iff (v : Values) (k : GoString) :
    Values.len (v.erase k) = 0 ↔ ∀ key ∈ v.keys, key = k := by
  rw [len_eq_zero_iff]
  constructor
  · intro h key hk
    by_contra hne
    exact h key (by rw [← AList.mem_keys, AList.mem_erase]; exact ⟨hne, AList.mem_keys.mpr hk⟩)
  · intro h key hk
    rw [← AList.mem_keys, AList.mem_erase] at hk
    exact hk.1 (h key (AList.mem_keys.mp hk.2))

theorem copy_erase_lookup (v : Values) (k key : GoString) :
    (Values.Del (copyInto ∅ v.entries) k).lookup key = (v.erase k).lookup key := by
  unfold Values.Del
  by_cases h : key = k
  · subst h
    simp
  · rw [AList.lookup_erase_ne h, AList.lookup_erase_ne h, copyInto_empty_lookup]

theorem copy_insert_lookup (v : Values) (k x key : GoString) :
    (Values.Set (copyInto ∅ v.entries) k x).lookup key = (v.insert k [x]).lookup key := by
  unfold Values.Set
  by_cases h : key = k
  · subst h
    simp
  · rw [AList.lookup_insert_ne h, AList.lookup_insert_ne h, copyInto_empty_lookup]

/-- What `PageURL` returns, in terms of the pager's own map. -/
theorem PageURL_snd (p : Pager) (pageNumber : Int) :
    (p.PageURL pageNumber).2 =
      if pageNumber ≤ 1 then
        (if Values.len (p.QueryParams.erase QueryKey) = 0 then []
          else (63 : Byte) :: Values.Encode (p.QueryParams.erase QueryKey))
      else (63 : Byte) :: Values.Encode (p.QueryParams.insert QueryKey [strconv.Itoa pageNumber]) := by
  unfold Pager.PageURL
  by_cases h : pageNumber ≤ 1
  · simp only [h, if_true]
    rw [len_congr _ _ (copy_erase_lookup p.QueryParams QueryKey),
      Encode_congr _ _ (copy_erase_lookup p.QueryParams QueryKey)]
    split_ifs <;> rfl
  · simp only [h, if_false]
    rw [len_congr _ _ (copy_insert_lookup p.QueryParams QueryKey (strconv.Itoa pageNumber)),
      Encode_congr _ _ (copy_insert_lookup p.QueryParams QueryKey (strconv.Itoa pageNumber))]
    simp only [len_insert_ne_zero, if_false]

/-- C7, amended: for `pageNumber > 1`, `PageURL` returns `?` followed by the encoding of
the pager's parameters with `page` set to the decimal rendering of `pageNumber`; when
that query string has at most 10000 parameters, the limit of `url.ParseQuery`, its parse
has, under every key other than `page`, the values the pager's parameters have under
that key, under `page` the single value that is the decimal rendering of `pageNumber`
(whatever `page` value the pager carried), and no key besides `page` and the pager's
keys that have a value. -/
theorem C7_PageURL_above_one_within_limit (p : Pager) (pageNumber : Int) (h : 1 < pageNumber) :
    ∃ q : GoString, (p.PageURL pageNumber).2 = (63 : Byte) :: q ∧
      q = Values.Encode (p.QueryParams.insert QueryKey [decimalRendering pageNumber.toNat]) ∧
      (count 38 q + 1 ≤ defaultMaxParams →
        (∀ key, key ≠ QueryKey → (ParseQuery q).at key = p.QueryParams.at key) ∧
        (ParseQuery q).at QueryKey = [decimalRendering pageNumber.toNat] ∧
        (∀ key, key ∈ (ParseQuery q).keys ↔ (key = QueryKey ∨ p.QueryParams.at key ≠ []))) := by
  have hn : ¬ pageNumber ≤ 1 := not_le.mpr h
  have hI := Itoa_eq_decimalRendering pageNumber (by omega)
  have hq : (p.PageURL pageNumber).2 = (63 : Byte) ::
      Values.Encode (p.QueryParams.insert QueryKey [decimalRendering pageNumber.toNat]) := by
    rw [PageURL_snd, ← hI]
    simp only [hn, if_false]
  refine ⟨_, hq, rfl, ?_⟩
  intro hl
  refine ⟨?_, ?_, ?_⟩
  · intro key hk
    rw [ParseQuery_Encode_at _ _ hl, at_insert_of_ne _ _ _ _ hk]
  · rw [ParseQuery_Encode_at _ _ hl, at_insert_self]
  · intro key
    rw [ParseQuery_Encode_mem_keys _ _ hl]
    by_cases hk : key = QueryKey
    · subst hk
      rw [at_insert_self]
      simp
    · rw [at_insert_of_ne _ _ _ _ hk]
      simp [hk]

/-- C7 at the request `?page=2&filter=pending`, ten items per page, target page 3: the
result is `?filter=pending&page=3`, of two parameters. -/
theorem C7_PageURL_above_one_within_limit_witness :
    (1 : Int) < 3 ∧
    ((NewPager (AList.insert QueryKey [ascii "2"]
        (AList.insert (ascii "filter") [ascii "pending"] ∅)) 10).PageURL 3).2
      = ascii "?filter=pending&page=3" ∧
    count 38 (ascii "filter=pending&page=3") + 1 ≤ defaultMaxParams ∧
    decimalRendering (3 : Int).toNat = ascii "3" ∧
    ∃ q : GoString,
      ((NewPager (AList.insert QueryKey [ascii "2"]
          (AList.insert (ascii "filter") [ascii "pending"] ∅)) 10).PageURL 3).2
        = (63 : Byte) :: q ∧
      q = Values.Encode ((NewPager (AList.insert QueryKey [ascii "2"]
          (AList.insert (ascii "filter") [ascii "pending"] ∅)) 10).QueryParams.insert QueryKey
            [decimalRendering (3 : Int).toNat]) ∧
      (count 38 q + 1 ≤ defaultMaxParams →
        (∀ key, key ≠ QueryKey → (ParseQuery q).at key
          = (NewPager (AList.insert QueryKey [ascii "2"]
            (AList.insert (ascii "filter") [ascii "pending"] ∅)) 10).QueryParams.at key) ∧
        (ParseQuery q).at QueryKey = [decimalRendering (3 : Int).toNat] ∧
        (∀ key, key ∈ (ParseQuery q).keys ↔ (key = QueryKey ∨
          (NewPager (AList.insert QueryKey [ascii "2"]
            (AList.insert (ascii "filter") [ascii "pending"] ∅)) 10).QueryParams.at key ≠ []))) :=
  ⟨by decide, by decide, by decide,
    by show decimalRendering 3 = ascii "3"; norm_num [decimalRendering]; decide,
    C7_PageURL_above_one_within_limit _ 3 (by decide)⟩

/-- C8: for `pageNumber <= 1`, `PageURL` returns the empty string when the pager has no
query parameter other than `page`, and otherwise `?` followed by the encoding of the
pager's parameters without `page`. That encoding is the pairs `key=value`, escaped and
joined by `&`, of exactly the pager's keys other than `page` with their values, so no
pair has the key `page`; and when it has at most 10000 parameters, the limit of
`url.ParseQuery`, it parses to the pager's parameters other than `page` and its parse
has no `page` key. -/
theorem C8_PageURL_at_most_one (p : Pager) (pageNumber : Int) (h : pageNumber ≤ 1) :
    ((∀ key ∈ p.QueryParams.keys, key = QueryKey) → (p.PageURL pageNumber).2 = []) ∧
      ((∃ key ∈ p.QueryParams.keys, key ≠ QueryKey) →
        (p.PageURL pageNumber).2
          = (63 : Byte) :: Values.Encode (p.QueryParams.erase QueryKey)) ∧
      (∃ ps : List (GoString × GoString),
        Values.Encode (p.QueryParams.erase QueryKey) = joinAmp (ps.map pairText) ∧
        (∀ kv ∈ ps, kv.1 ≠ QueryKey) ∧
        (∀ key, ((ps.filter (fun kv => decide (kv.1 = key))).map Prod.snd)
          = if key = QueryKey then [] else p.QueryParams.at key)) ∧
      (count 38 (Values.Encode (p.QueryParams.erase QueryKey)) + 1 ≤ defaultMaxParams →
        (∀ key, (ParseQuery (Values.Encode (p.QueryParams.erase QueryKey))).at key
          = if key = QueryKey then [] else p.QueryParams.at key) ∧
        QueryKey ∉ (ParseQuery (Values.Encode (p.QueryParams.erase QueryKey))).keys) := by
  have hat : ∀ key, Values.at (p.QueryParams.erase QueryKey) key
      = if key = QueryKey then [] else p.QueryParams.at key := by
    intro key
    split_ifs with hk
    · subst hk
      exact at_erase_self _ _
    · exact at_erase_of_ne _ _ _ hk
  refine ⟨?_, ?_, ?_, ?_⟩
  · intro hall
    rw [PageURL_snd]
    simp only [h, if_true, (len_erase_eq_zero_iff _ _).mpr hall]
  · rintro ⟨key, hk, hne⟩
    have hlen : Values.len (p.QueryParams.erase QueryKey) ≠ 0 := by
      intro h0
      exact hne ((len_erase_eq_zero_iff _ _).mp h0 key hk)
    rw [PageURL_snd]
    simp only [h, if_true, hlen, if_false]
  · refine ⟨pairsOfKeys (p.QueryParams.erase QueryKey)
      (Values.sortedKeys (p.QueryParams.erase QueryKey)), Encode_eq_joinAmp _, ?_, ?_⟩
    · intro kv hkv hpage
      have hm := (pairsOfKeys_mem (p.QueryParams.erase QueryKey) QueryKey
        (Values.sortedKeys (p.QueryParams.erase QueryKey))).mp ⟨kv, hkv, hpage⟩
      exact hm.2 (at_erase_self _ _)
    · intro key
      rw [pairsOfKeys_filter _ _ _ (sortedKeys_nodup _), ← hat key]
      split_ifs with hk
      · rfl
      · exact (at_of_not_mem_keys _ key (fun hk2 => hk ((mem_sortedKeys _ key).mpr hk2))).symm
  · intro hlim
    constructor
    · intro key
      rw [ParseQuery_Encode_at _ _ hlim]
      exact hat key
    · rw [ParseQuery_Encode_mem_keys _ _ hlim, at_erase_self]
      simp

/-- C8 at the request `?page=2&filter=pending`, ten items per page, target page 1. -/
theorem C8_PageURL_at_most_one_witness :
    (1 : Int) ≤ 1 ∧
    ((NewPager (AList.insert QueryKey [ascii "2"]
          (AList.insert (ascii "filter") [ascii "pending"] ∅)) 10).PageURL 1).2
      = ascii "?filter=pending" ∧
    ((NewPager (AList.insert QueryKey [ascii "2"] ∅) 10).PageURL 1).2 = [] ∧
    count 38 (ascii "filter=pending") + 1 ≤ defaultMaxParams ∧
    ((∃ key ∈ (NewPager (AList.insert QueryKey [ascii "2"]
          (AList.insert (ascii "filter") [ascii "pending"] ∅)) 10).QueryParams.keys,
        key ≠ QueryKey) →
      ((NewPager (AList.insert QueryKey [ascii "2"]
          (AList.insert (ascii "filter") [ascii "pending"] ∅)) 10).PageURL 1).2
        = (63 : Byte) :: Values.Encode ((NewPager (AList.insert QueryKey [ascii "2"]
          (AList.insert (ascii "filter") [ascii "pending"] ∅)) 10).QueryParams.erase QueryKey)) :=
  ⟨by decide, by decide, by decide, by decide,
    (C8_PageURL_at_most_one (NewPager (AList.insert QueryKey [ascii "2"]
      (AList.insert (ascii "filter") [ascii "pending"] ∅)) 10) 1 (by decide)).2.1⟩

end PageURL

section AdminPager

theorem NewPager_QueryParams (q : Values) (ipp : Int) :
    (NewPager q ipp).QueryParams = copyInto ∅ q.entries := by
  unfold NewPager
  simp only []
  split_ifs with h1
  · split
    · split_ifs <;> rfl
    · rfl
  · rfl

theorem NewPager_keys (q : Values) (ipp : Int) (key : GoString) :
    key ∈ (NewPager q ipp).QueryParams.keys ↔ key ∈ q.keys := by
  rw [NewPager_QueryParams, mem_keys_iff_lookup, mem_keys_iff_lookup, copyInto_empty_lookup]

/-- The previous-page URL `renderAdminPager` hands to `Pager`, for a list page number
in the range of `int`: it is empty exactly when the page is at most 1, or the page is 2
and the request has no query parameter other than `page`. -/
theorem adminPagerArgs_prevPageURL_eq_nil_iff (q : Values) (l : admin.EntityList)
    (hr : inInt64 l.Page) :
    (pages.adminPagerArgs q l).prevPageURL = [] ↔
      (l.Page ≤ 1 ∨ (l.Page = 2 ∧ ∀ key ∈ q.keys, key = QueryKey)) := by
  unfold pages.adminPagerArgs
  simp only []
  by_cases h1 : l.Page > 1
  · have hw : wrap64 (l.Page - 1) = l.Page - 1 := by
      apply wrap64_of_inInt64
      unfold inInt64 minInt64 maxInt64 at *
      omega
    simp only [h1, if_true, hw]
    rw [PageURL_snd]
    by_cases h2 : l.Page = 2
    · have e : l.Page - 1 ≤ 1 := by omega
      simp only [e, if_true, h2, true_and]
      rw [show ((2 : Int) ≤ 1) = False from by simp, false_or]
      constructor
      · intro h key hk
        by_contra hne
        have hlen : Values.len ((NewPager q 25).QueryParams.erase QueryKey) ≠ 0 := by
          intro h0
          exact hne ((len_erase_eq_zero_iff _ _).mp h0 key ((NewPager_keys q 25 key).mpr hk))
        simp [hlen] at h
      · intro h
        have hlen : Values.len ((NewPager q 25).QueryParams.erase QueryKey) = 0 :=
          (len_erase_eq_zero_iff _ _).mpr (fun key hk => h key ((NewPager_keys q 25 key).mp hk))
        simp [hlen]
    · have e : ¬ l.Page - 1 ≤ 1 := by omega
      have e1 : ¬ l.Page ≤ 1 := by omega
      simp [e, e1, h2]
  · have e1 : l.Page ≤ 1 := by omega
    simp [h1, e1]

/-- C10 (the code at the failing input): on page 2 of a list requested as `?page=2`,
`renderAdminPager` hands the empty string to `Pager` as previous-page URL although page
1 exists, and the previous link is rendered disabled with an empty `href`. The same
happens when the request has no query string at all. -/
theorem C10_prev_url_empty_on_page_two :
    (1 : Int) < (admin.EntityList.mk 2 true).Page ∧
      (pages.adminPagerArgs (AList.insert QueryKey [ascii "2"] ∅) ⟨2, true⟩).prevPageURL = [] ∧
      (pages.renderAdminPager (AList.insert QueryKey [ascii "2"] ∅) ⟨2, true⟩).prev
        = { disabled := true, href := [], hx := none } ∧
      (pages.renderAdminPager (AList.insert QueryKey [ascii "2"] ∅) ⟨2, true⟩).next
        = { disabled := false, href := ascii "?page=3", hx := none } ∧
      (pages.adminPagerArgs ∅ ⟨2, false⟩).prevPageURL = [] := by
  decide

end AdminPager

section PageURLFrame

open pager.byref

theorem Heap.read_write_self (h : Heap) (i : Nat) (v : Values) (hi : i < h.maps.length) :
    (h.write i v).read (some i) = v := by
  simp [Heap.read, Heap.write, hi]

theorem Heap.read_write_of_ne (h : Heap) (i j : Nat) (v : Values) (hij : i ≠ j) :
    (h.write i v).read (some j) = h.read (some j) := by
  simp [Heap.read, Heap.write, List.getElem?_set_ne hij]

theorem Heap.write_length (h : Heap) (i : Nat) (v : Values) :
    (h.write i v).maps.length = h.maps.length := by
  simp [Heap.write]

theorem copyLoop_spec (dst : Nat) (src : List (Sigma fun _ : GoString => List GoString)) :
    ∀ h : Heap, dst < h.maps.length →
      (copyLoop h dst src).maps.length = h.maps.length ∧
      (copyLoop h dst src).read (some dst) = copyInto (h.read (some dst)) src ∧
      (∀ j, j ≠ dst → (copyLoop h dst src).read (some j) = h.read (some j)) := by
  induction src with
  | nil => intro h _; exact ⟨rfl, rfl, fun _ _ => rfl⟩
  | cons kv rest ih =>
    intro h hd
    have step : copyLoop h dst (kv :: rest)
        = copyLoop (h.write dst ((h.read (some dst)).insert kv.1 kv.2)) dst rest := rfl
    have hd2 : dst < (h.write dst ((h.read (some dst)).insert kv.1 kv.2)).maps.length := by
      rw [Heap.write_length]; exact hd
    obtain ⟨i1, i2, i3⟩ := ih _ hd2
    rw [step]
    refine ⟨?_, ?_, ?_⟩
    · rw [i1, Heap.write_length]
    · rw [i2, Heap.read_write_self _ _ _ hd]
      rfl
    · intro j hj
      rw [i3 j hj, Heap.read_write_of_ne _ _ _ _ (fun e => hj e.symm)]

end PageURLFrame

section PageURLFrame2

open pager.byref

theorem Heap.make_spec (h : Heap) :
    h.make.2 = h.maps.length ∧ h.make.1.maps.length = h.maps.length + 1 ∧
      h.make.1.read (some h.make.2) = ∅ ∧
      (∀ r : MapRef, (∀ i, r = some i → i < h.maps.length) → h.make.1.read r = h.read r) := by
  refine ⟨rfl, by simp [Heap.make], by simp [Heap.make, Heap.read], ?_⟩
  intro r hr
  cases r with
  | none => rfl
  | some i =>
    have hi := hr i rfl
    simp [Heap.make, Heap.read, List.getElem?_append_left hi]

/-- The heap after `PageURL`: every map object that existed before the call has its
content, and the new object holds the parameters the returned string encodes. -/
theorem PageURL_heap (h : Heap) (p : pager.byref.Pager) (pageNumber : Int) :
    (p.PageURL h pageNumber).2.1 = p ∧
      (∀ r : MapRef, (∀ i, r = some i → i < h.maps.length) →
        (p.PageURL h pageNumber).1.read r = h.read r) ∧
      (p.allocated h →
        (p.PageURL h pageNumber).2.2 = ((p.deref h).PageURL pageNumber).2) := by
  obtain ⟨m1, m2, m3, m4⟩ := Heap.make_spec h
  have hd : h.make.2 < h.make.1.maps.length := by rw [m1, m2]; exact Nat.lt_succ_self _
  obtain ⟨c1, c2, c3⟩ := copyLoop_spec h.make.2 (h.make.1.read p.QueryParams).entries h.make.1 hd
  have hd1 : h.make.2 < (copyLoop h.make.1 h.make.2
      (h.make.1.read p.QueryParams).entries).maps.length := by rw [c1]; exact hd
  have old_ne : ∀ i, i < h.maps.length → h.make.2 ≠ i := by
    intro i hi e
    rw [m1] at e
    omega
  refine ⟨?_, ?_, ?_⟩
  · unfold pager.byref.Pager.PageURL
    simp only []
    split_ifs <;> rfl
  · intro r hr
    have key : ∀ v : Values,
        ((copyLoop h.make.1 h.make.2 (h.make.1.read p.QueryParams).entries).write
          h.make.2 v).read r = h.read r := by
      intro v
      cases r with
      | none => rfl
      | some i =>
        have hi := hr i rfl
        rw [Heap.read_write_of_ne _ _ _ _ (old_ne i hi), c3 i (fun e => old_ne i hi e.symm)]
        exact m4 (some i) hr
    unfold pager.byref.Pager.PageURL
    simp only []
    split_ifs <;> exact key _
  · intro hp
    have hq : h.make.1.read p.QueryParams = h.read p.QueryParams := m4 _ hp
    have e : (p.deref h).QueryParams = h.read p.QueryParams := rfl
    unfold pager.byref.Pager.PageURL pager.Pager.PageURL
    simp only [e]
    generalize copyLoop h.make.1 h.make.2 (h.make.1.read p.QueryParams).entries = h1
      at c1 c2 c3 hd1 ⊢
    rw [m3, hq] at c2
    have w : ∀ v : Values, (h1.write h.make.2 v).read (some h.make.2) = v :=
      fun v => Heap.read_write_self h1 _ v hd1
    by_cases hn : pageNumber ≤ 1
    · simp only [hn, if_true, c2, w]
      split_ifs <;> rfl
    · simp only [hn, if_false, c2, w]
      split_ifs <;> rfl

/-- C9: `PageURL` does not modify the pager. After the call the pager's fields,
`QueryParams` reference included, are what they were, the map that reference points to
(and every other map that existed) has the same keys with the same value lists as
before, `page` entry included, and the returned string is the one computed from the
unchanged pager. -/
theorem C9_PageURL_leaves_pager (h : Heap) (p : pager.byref.Pager) (pageNumber : Int)
    (hp : p.allocated h) :
    (p.PageURL h pageNumber).2.1 = p ∧
      (p.PageURL h pageNumber).1.read p.QueryParams = h.read p.QueryParams ∧
      (∀ r : MapRef, (∀ i, r = some i → i < h.maps.length) →
        (p.PageURL h pageNumber).1.read r = h.read r) ∧
      (p.PageURL h pageNumber).2.1.deref (p.PageURL h pageNumber).1 = p.deref h ∧
      (p.PageURL h pageNumber).2.2 = ((p.deref h).PageURL pageNumber).2 ∧
      ((p.deref h).PageURL pageNumber).1 = p.deref h := by
  obtain ⟨f1, f2, f3⟩ := PageURL_heap h p pageNumber
  refine ⟨f1, f2 _ hp, f2, ?_, f3 hp, ?_⟩
  · rw [f1]
    unfold pager.byref.Pager.deref
    rw [f2 _ hp]
  · unfold pager.Pager.PageURL
    simp only []
    split_ifs <;> rfl

/-- C9 at a heap that holds the map of the request `?page=2&filter=pending`, target
page 1 and target page 3: the map of the pager still has its `page` entry. -/
theorem C9_PageURL_leaves_pager_witness :
    (pager.byref.Pager.mk 0 2 10 1 (some 0)).allocated
        { maps := [AList.insert QueryKey [ascii "2"]
          (AList.insert (ascii "filter") [ascii "pending"] ∅)] } ∧
      ((pager.byref.Pager.mk 0 2 10 1 (some 0)).PageURL
        { maps := [AList.insert QueryKey [ascii "2"]
          (AList.insert (ascii "filter") [ascii "pending"] ∅)] } 1).2.2
        = ascii "?filter=pending" ∧
      ((pager.byref.Pager.mk 0 2 10 1 (some 0)).PageURL
        { maps := [AList.insert QueryKey [ascii "2"]
          (AList.insert (ascii "filter") [ascii "pending"] ∅)] } 1).1.read (some 0)
        = AList.insert QueryKey [ascii "2"]
          (AList.insert (ascii "filter") [ascii "pending"] ∅) ∧
      ((pager.byref.Pager.mk 0 2 10 1 (some 0)).PageURL
        { maps := [AList.insert QueryKey [ascii "2"]
          (AList.insert (ascii "filter") [ascii "pending"] ∅)] } 3).1.read (some 0)
        = (pager.byref.Heap.mk [AList.insert QueryKey [ascii "2"]
          (AList.insert (ascii "filter") [ascii "pending"] ∅)]).read (some 0) :=
  ⟨by decide, by decide, by rfl,
    (C9_PageURL_leaves_pager _ (pager.byref.Pager.mk 0 2 10 1 (some 0)) 3 (by decide)).2.1⟩

end PageURLFrame2

section Shutdown

open services

/-- The calls `Shutdown` makes after the web server is down, and the value it returns,
do not depend on the outcome of `River.Stop`: only the log entry differs. -/
theorem Shutdown_riverStop_outcome (riverSet : Bool) (o : ShutdownOutcomes) (e : GoError) :
    (Container.Shutdown riverSet { o with riverStop := some e }).2
        = (Container.Shutdown riverSet { o with riverStop := none }).2 ∧
      (Container.Shutdown riverSet { o with riverStop := some e }).1.filter Event.isClose
        = (Container.Shutdown riverSet { o with riverStop := none }).1.filter Event.isClose := by
  obtain ⟨w, r, m, d⟩ := o
  cases riverSet <;> cases w <;> cases m <;> cases d <;>
    simp [Container.Shutdown, shutdownRiver, shutdownDeferred, Event.isClose]

/-- The connections `Shutdown` closes: all three exactly when the web server, the ORM
and the database report no error. -/
theorem Shutdown_closes_all_iff (riverSet : Bool) (o : ShutdownOutcomes) :
    (Event.ormClose ∈ (Container.Shutdown riverSet o).1 ∧
        Event.databaseClose ∈ (Container.Shutdown riverSet o).1 ∧
        Event.cacheClose ∈ (Container.Shutdown riverSet o).1)
      ↔ (o.webShutdown = none ∧ o.ormClose = none ∧ o.databaseClose = none) := by
  obtain ⟨w, r, m, d⟩ := o
  cases riverSet <;> cases w <;> cases r <;> cases m <;> cases d <;>
    simp [Container.Shutdown, shutdownRiver, shutdownDeferred]

/-- C14 (the code at the failing inputs): when `Web.Shutdown` returns an error,
`Shutdown` returns it at once and closes neither the ORM nor the database nor the
cache; when `ORM.Close` returns an error, the database and the cache stay open; when
`Database.Close` returns an error, the cache stays open. -/
theorem C14_Shutdown_returns_before_closing :
    (Container.Shutdown true ⟨some ⟨ascii "context deadline exceeded"⟩, none, none, none⟩)
        = ([.webShutdown, .webCancel], some ⟨ascii "context deadline exceeded"⟩) ∧
      Event.ormClose ∉
        (Container.Shutdown true ⟨some ⟨ascii "context deadline exceeded"⟩, none, none, none⟩).1 ∧
      Event.databaseClose ∉
        (Container.Shutdown true ⟨some ⟨ascii "context deadline exceeded"⟩, none, none, none⟩).1 ∧
      Event.cacheClose ∉
        (Container.Shutdown true ⟨some ⟨ascii "context deadline exceeded"⟩, none, none, none⟩).1 ∧
      (Container.Shutdown true ⟨none, none, some ⟨ascii "close failed"⟩, none⟩).1
        = [.webShutdown, .riverStop, .ormClose, .riverCancel, .webCancel] ∧
      (Container.Shutdown true ⟨none, none, none, some ⟨ascii "close failed"⟩⟩).1
        = [.webShutdown, .riverStop, .ormClose, .databaseClose, .riverCancel, .webCancel] := by
  decide

/-- C15 as stated fails when the web server shuts down, `River.Stop` returns an error
and `ORM.Close` returns an error: `Shutdown` logs the River error, calls `ORM.Close` and
returns its error; the database and the cache are not closed. -/
theorem C15_Shutdown_after_river_error_stops_at_orm_error :
    (Container.Shutdown true
        ⟨none, some ⟨ascii "timeout"⟩, some ⟨ascii "close failed"⟩, none⟩)
      = ([.webShutdown, .riverStop, .logError (ascii "failed to stop River client"),
          .ormClose, .riverCancel, .webCancel], some ⟨ascii "close failed"⟩) ∧
      Event.databaseClose ∉ (Container.Shutdown true
        ⟨none, some ⟨ascii "timeout"⟩, some ⟨ascii "close failed"⟩, none⟩).1 ∧
      Event.cacheClose ∉ (Container.Shutdown true
        ⟨none, some ⟨ascii "timeout"⟩, some ⟨ascii "close failed"⟩, none⟩).1 := by
  decide

end Shutdown

section Workers

/-- C18: for every context and every job, whatever its arguments, `Work` returns no
error; its effects are two log entries around a sleep of two seconds. -/
theorem C18_EmailWorker_Work_returns_nil (ctx : tasks.Context) (job : tasks.Job) :
    (tasks.EmailWorker.Work ctx job).2 = none ∧
      (tasks.EmailWorker.Work ctx job).1
        = [.logInfo (ascii "Starting email task"), .sleep 2,
            .logInfo (ascii "Successfully processed email task")] ∧
      (tasks.EmailWorker.Work ctx { job with Args := ⟨0, [], [], []⟩ }).2 = none :=
  ⟨rfl, rfl, rfl⟩

/-- C20: `fieldIsPointer` is false for every field of type bool, whatever its flags,
and for a field of any other type it is true exactly when the field is optional, has a
default, is sensitive or is nillable. -/
theorem C20_fieldIsPointer (f : gen.Field) :
    (f.TypeType = field.FieldType.TypeBool → admin.fieldIsPointer f = false) ∧
      (f.TypeType ≠ field.FieldType.TypeBool →
        (admin.fieldIsPointer f = true ↔
          (f.Optional = true ∨ f.Default = true ∨ f.Sensitive = true ∨ f.Nillable = true))) := by
  constructor
  · intro h
    simp [admin.fieldIsPointer, h]
  · intro h
    simp [admin.fieldIsPointer, h]

end Workers

section MainRun

open services web

theorem runSteps_events (l : List (InitStep × Bool)) :
    ∀ e ∈ (runSteps l).1, ∃ s, e = Event.init s := by
  induction l with
  | nil => intro e he; simp [runSteps] at he
  | cons x rest ih =>
    obtain ⟨s, fails⟩ := x
    intro e he
    cases fails with
    | true =>
      simp [runSteps] at he
      exact ⟨s, he⟩
    | false =>
      simp only [runSteps, Bool.false_eq_true, if_false, List.mem_cons] at he
      rcases he with h | h
      · exact ⟨s, h⟩
      · exact ih e h

theorem NewContainer_events (o : InitOutcomes) :
    ∀ e ∈ (NewContainer o).1, e.isContainerEvent = true := by
  intro e he
  unfold NewContainer at he
  split_ifs at he
  · simp only [List.mem_append] at he
    rcases he with h | h
    · obtain ⟨s, hs⟩ := runSteps_events _ e h
      rw [hs]; rfl
    · simp [Container.initRiver, tasks.RegisterRiverWorkers] at h
      rcases h with h | h | h <;> rw [h] <;> rfl
  · obtain ⟨s, hs⟩ := runSteps_events _ e he
    rw [hs]; rfl

theorem NewContainer_no_lifecycle (o : InitOutcomes) :
    Event.riverStart ∉ (NewContainer o).1 ∧ Event.riverMigrate ∉ (NewContainer o).1 ∧
      Event.goServer ∉ (NewContainer o).1 ∧ Event.webStartServer ∉ (NewContainer o).1 := by
  refine ⟨?_, ?_, ?_, ?_⟩ <;>
  · intro h
    have := NewContainer_events o _ h
    simp [Event.isContainerEvent] at this

theorem Shutdown_no_lifecycle (b : Bool) (o : ShutdownOutcomes) :
    Event.riverStart ∉ (Container.Shutdown b o).1 ∧
      Event.riverMigrate ∉ (Container.Shutdown b o).1 ∧
      ∀ e ∈ (Container.Shutdown b o).1, e.isAddWorker = false := by
  obtain ⟨w, r, m, d⟩ := o
  cases b <;> cases w <;> cases r <;> cases m <;> cases d <;>
    simp [Container.Shutdown, shutdownRiver, shutdownDeferred, Event.isAddWorker]

theorem serve_no_lifecycle (env : Env) :
    Event.riverStart ∉ (serve env).1 ∧ Event.riverMigrate ∉ (serve env).1 ∧
      ∀ e ∈ (serve env).1, e.isAddWorker = false := by
  obtain ⟨s1, s2, s3⟩ := Shutdown_no_lifecycle (!env.riverNil) env.shutdown
  unfold serve deferredShutdown
  split_ifs
  · split
    · refine ⟨by simp [fatal, s1], by simp [fatal, s2], ?_⟩
      intro e he
      simp only [fatal, List.mem_append, List.mem_cons, List.mem_singleton,
        List.not_mem_nil, or_false] at he
      rcases he with (h | h | h) | h | h | h
      · rw [h]; rfl
      · rw [h]; rfl
      · rw [h]; rfl
      · exact s3 e h
      · rw [h]; rfl
      · rw [h]; rfl
    · refine ⟨by simp [s1], by simp [s2], ?_⟩
      intro e he
      simp only [List.mem_append, List.mem_cons, List.mem_singleton,
        List.not_mem_nil, or_false] at he
      rcases he with (h | h | h) | h
      · rw [h]; rfl
      · rw [h]; rfl
      · rw [h]; rfl
      · exact s3 e h
  · refine ⟨by simp, by simp, ?_⟩
    intro e he
    simp only [List.mem_cons, List.mem_singleton, List.not_mem_nil, or_false] at he
    rcases he with h | h | h <;> rw [h] <;> rfl

/-- The runs of `main`, by the first step that ends them. -/
theorem main_cases (env : Env) :
    ((NewContainer env.init).2 = false ∧
        main env = ((NewContainer env.init).1, Exit.panicked)) ∨
      ((NewContainer env.init).2 = true ∧ env.buildRouter ≠ none ∧
        main env = ((NewContainer env.init).1
          ++ (Event.buildRouter :: fatal (ascii "failed to build the router")),
          Exit.exited 1)) ∨
      ((NewContainer env.init).2 = true ∧ env.buildRouter = none ∧ env.riverNil = true ∧
        main env = ((NewContainer env.init).1 ++ (Event.buildRouter :: (serve env).1),
          (serve env).2)) ∨
      ((NewContainer env.init).2 = true ∧ env.buildRouter = none ∧ env.riverNil = false ∧
        env.migrate ≠ none ∧
        main env = ((NewContainer env.init).1
          ++ [Event.buildRouter, Event.logInfo (ascii "Migrating River schema...")]
          ++ Event.riverMigrate :: fatal (ascii "failed to migrate River schema"),
          Exit.exited 1)) ∨
      ((NewContainer env.init).2 = true ∧ env.buildRouter = none ∧ env.riverNil = false ∧
        env.migrate = none ∧ env.start ≠ none ∧
        main env = ((NewContainer env.init).1
          ++ [Event.buildRouter, Event.logInfo (ascii "Migrating River schema...")]
          ++ Event.riverMigrate ::
            ([Event.logInfo (ascii "River schema migration complete."),
              Event.logInfo (ascii "Starting River client..."), Event.riverStart]
              ++ fatal (ascii "failed to start River client")),
          Exit.exited 1)) ∨
      ((NewContainer env.init).2 = true ∧ env.buildRouter = none ∧ env.riverNil = false ∧
        env.migrate = none ∧ env.start = none ∧
        main env = ((NewContainer env.init).1
          ++ [Event.buildRouter, Event.logInfo (ascii "Migrating River schema...")]
          ++ Event.riverMigrate ::
            ([Event.logInfo (ascii "River schema migration complete."),
              Event.logInfo (ascii "Starting River client..."), Event.riverStart,
              Event.logInfo (ascii "River client started.")] ++ (serve env).1),
          (serve env).2)) := by
  cases hc : (NewContainer env.init).2 with
  | false => left; exact ⟨rfl, by simp [main, hc]⟩
  | true =>
    right
    cases hb : env.buildRouter with
    | some e => left; exact ⟨rfl, by simp, by simp [main, hc, hb]⟩
    | none =>
      right
      cases hr : env.riverNil with
      | true => left; exact ⟨rfl, rfl, rfl, by simp [main, hc, hb, riverPhase, hr]⟩
      | false =>
        right
        cases hm : env.migrate with
        | some e => left; exact ⟨rfl, rfl, rfl, by simp, by simp [main, hc, hb, riverPhase, hr, hm]⟩
        | none =>
          right
          cases hs : env.start with
          | some e =>
            left
            exact ⟨rfl, rfl, rfl, rfl, by simp, by simp [main, hc, hb, riverPhase, hr, hm, hs]⟩
          | none =>
            right
            exact ⟨rfl, rfl, rfl, rfl, rfl, by simp [main, hc, hb, riverPhase, hr, hm, hs]⟩

/-- C16: in every run of `main`, when `River.Start` is called a call of `River.Migrate`
comes before it and before any call of `River.Start`; a run that gets past the router
with a River client calls `Migrate`; and when `Migrate`, once called, returns an error,
the run ends with `os.Exit(1)`, `River.Start` is never called and the goroutine of the
HTTP server is never started. -/
theorem C16_migrate_before_start (env : Env) :
    (Event.riverStart ∈ (main env).1 →
        ∃ pre post, (main env).1 = pre ++ Event.riverMigrate :: post ∧
          Event.riverStart ∉ pre ∧ Event.riverStart ∈ post) ∧
      ((NewContainer env.init).2 = true → env.buildRouter = none → env.riverNil = false →
        Event.riverMigrate ∈ (main env).1) ∧
      (env.migrate ≠ none → Event.riverMigrate ∈ (main env).1 →
        (main env).2 = Exit.exited 1 ∧ Event.riverStart ∉ (main env).1 ∧
          Event.goServer ∉ (main env).1 ∧ Event.webStartServer ∉ (main env).1 ∧
          (main env).1.getLast? = some (Event.osExit 1)) := by
  obtain ⟨n1, n2, n3, n4⟩ := NewContainer_no_lifecycle env.init
  obtain ⟨s1, s2, _⟩ := serve_no_lifecycle env
  rcases main_cases env with ⟨hc, hm⟩ | ⟨hc, hb, hm⟩ | ⟨hc, hb, hr, hm⟩ | ⟨hc, hb, hr, hg, hm⟩ |
    ⟨hc, hb, hr, hg, hs, hm⟩ | ⟨hc, hb, hr, hg, hs, hm⟩
  · rw [hm]
    refine ⟨fun h => absurd h n1, fun h => ?_, fun _ h => absurd h n2⟩
    rw [hc] at h
    exact absurd h (by simp)
  · rw [hm]
    refine ⟨fun h => ?_, fun _ h => absurd h hb, fun _ h => ?_⟩
    · simp [fatal, n1] at h
    · simp [fatal, n2] at h
  · rw [hm]
    refine ⟨fun h => ?_, fun _ _ h => ?_, fun _ h => ?_⟩
    · simp [n1, s1] at h
    · rw [hr] at h
      exact absurd h (by simp)
    · simp [n2, s2] at h
  · rw [hm]
    refine ⟨fun h => ?_, fun _ _ _ => by simp, fun _ _ => ?_⟩
    · simp [fatal, n1] at h
    · simp [fatal, n1, n3, n4]
  · rw [hm]
    refine ⟨fun _ => ⟨_, _, rfl, by simp [n1], by simp⟩, fun _ _ _ => by simp,
      fun h _ => absurd hg h⟩
  · rw [hm]
    refine ⟨fun _ => ⟨_, _, rfl, by simp [n1], by simp⟩, fun _ _ _ => by simp,
      fun h _ => absurd hg h⟩

end MainRun

section Registration

open services web

/-- Every run of `main` is the run of `NewContainer` followed by effects none of which
registers a worker. -/
theorem main_after_container (env : Env) :
    ∃ T, (main env).1 = (NewContainer env.init).1 ++ T ∧ ∀ e ∈ T, e.isAddWorker = false := by
  obtain ⟨_, _, s3⟩ := serve_no_lifecycle env
  have cons : ∀ (l : List Event) (T : List Event), (∀ e ∈ l, e.isAddWorker = false) →
      (∀ e ∈ T, e.isAddWorker = false) → ∀ e ∈ l ++ T, e.isAddWorker = false := by
    intro l T h1 h2 e he
    rcases List.mem_append.mp he with h | h
    · exact h1 e h
    · exact h2 e h
  rcases main_cases env with ⟨_, hm⟩ | ⟨_, _, hm⟩ | ⟨_, _, _, hm⟩ | ⟨_, _, _, _, hm⟩ |
    ⟨_, _, _, _, _, hm⟩ | ⟨_, _, _, _, _, hm⟩
  · exact ⟨[], by rw [hm]; simp, by simp⟩
  · refine ⟨_, by rw [hm], ?_⟩
    simp [fatal, Event.isAddWorker]
  · refine ⟨_, by rw [hm], ?_⟩
    exact cons [Event.buildRouter] _ (by simp [Event.isAddWorker]) s3
  · refine ⟨_, by rw [hm, List.append_assoc], ?_⟩
    simp [fatal, Event.isAddWorker]
  · refine ⟨_, by rw [hm, List.append_assoc], ?_⟩
    simp [fatal, Event.isAddWorker]
  · refine ⟨_, by rw [hm, List.append_assoc], ?_⟩
    have e1 : [Event.buildRouter, Event.logInfo (ascii "Migrating River schema...")] ++
        Event.riverMigrate ::
          ([Event.logInfo (ascii "River schema migration complete."),
            Event.logInfo (ascii "Starting River client..."), Event.riverStart,
            Event.logInfo (ascii "River client started.")] ++ (serve env).1)
        = [Event.buildRouter, Event.logInfo (ascii "Migrating River schema..."),
            Event.riverMigrate, Event.logInfo (ascii "River schema migration complete."),
            Event.logInfo (ascii "Starting River client..."), Event.riverStart,
            Event.logInfo (ascii "River client started.")] ++ (serve env).1 := by simp
    rw [e1]
    exact cons _ _ (by simp [Event.isAddWorker]) s3

theorem serverGoroutine_no_registration (env : Env) :
    ∀ e ∈ serverGoroutine env, e.isAddWorker = false := by
  unfold serverGoroutine
  cases env.tlsEnabled <;> cases env.loadTLS <;> cases env.serverClosed <;>
    simp [fatal, Event.isAddWorker]

theorem runSteps_no_registration (l : List (InitStep × Bool)) :
    (∀ e ∈ (runSteps l).1, e.isAddWorker = false) ∧ Event.riverNewClient ∉ (runSteps l).1 ∧
      Event.riverStart ∉ (runSteps l).1 := by
  refine ⟨?_, ?_, ?_⟩
  · intro e he
    obtain ⟨s, hs⟩ := runSteps_events l e he
    rw [hs]; rfl
  · intro he
    obtain ⟨s, hs⟩ := runSteps_events l _ he
    cases hs
  · intro he
    obtain ⟨s, hs⟩ := runSteps_events l _ he
    cases hs

/-- In every run of `main` a worker is registered at most once, and the goroutine of
the server registers none. -/
theorem registration_at_most_once (env : Env) :
    (main env).1.countP Event.isAddWorker ≤ 1 ∧
      (serverGoroutine env).countP Event.isAddWorker = 0 := by
  obtain ⟨T, hT, hT2⟩ := main_after_container env
  obtain ⟨r1, _, _⟩ := runSteps_no_registration (initSteps env.init)
  have z1 : T.countP Event.isAddWorker = 0 :=
    List.countP_eq_zero.mpr (fun e he => by simp [hT2 e he])
  have z2 : (runSteps (initSteps env.init)).1.countP Event.isAddWorker = 0 :=
    List.countP_eq_zero.mpr (fun e he => by simp [r1 e he])
  constructor
  · rw [hT, List.countP_append, z1]
    unfold NewContainer
    split_ifs
    · simp [List.countP_append, z2, Container.initRiver, tasks.RegisterRiverWorkers,
        List.countP_cons, Event.isAddWorker]
    · simp [z2]
  · exact List.countP_eq_zero.mpr
      (fun e he => by simp [serverGoroutine_no_registration env e he])

/-- C17, as amended: in every run of `main` in which no initialisation step before
`initRiver` panics, the `send_email` worker is added to the registry exactly once; this
happens during `NewContainer`, directly before the River client is constructed; no
`River.Start` comes before it and no registration comes after it, so no worker is
registered after `River.Start`; and the goroutine of the server registers none. -/
theorem C17_worker_registered_once (env : Env)
    (h : (runSteps (initSteps env.init)).2 = true) :
    (main env).1.countP Event.isAddWorker = 1 ∧
      (serverGoroutine env).countP Event.isAddWorker = 0 ∧
      ∃ pre post,
        (main env).1 = pre ++ Event.riverAddWorker (ascii "send_email")
          :: Event.riverNewClient :: post ∧
        pre ++ [Event.riverAddWorker (ascii "send_email"), Event.riverNewClient]
          = (NewContainer env.init).1 ∧
        (∀ e ∈ pre, e.isAddWorker = false) ∧ Event.riverNewClient ∉ pre ∧
        Event.riverStart ∉ pre ∧ (∀ e ∈ post, e.isAddWorker = false) := by
  obtain ⟨T, hT, hT2⟩ := main_after_container env
  obtain ⟨r1, r2, r3⟩ := runSteps_no_registration (initSteps env.init)
  have hN : (NewContainer env.init).1
      = ((runSteps (initSteps env.init)).1 ++ [Event.riverNewWorkers])
        ++ [Event.riverAddWorker (ascii "send_email"), Event.riverNewClient] := by
    unfold NewContainer
    simp only [h, if_true, Container.initRiver, tasks.RegisterRiverWorkers,
      tasks.EmailArgs.Kind]
    simp
  have hpre : ∀ e ∈ (runSteps (initSteps env.init)).1 ++ [Event.riverNewWorkers],
      e.isAddWorker = false := by
    intro e he
    rcases List.mem_append.mp he with h1 | h1
    · exact r1 e h1
    · simp at h1
      rw [h1]; rfl
  have z1 : T.countP Event.isAddWorker = 0 :=
    List.countP_eq_zero.mpr (fun e he => by simp [hT2 e he])
  have z2 : ((runSteps (initSteps env.init)).1 ++ [Event.riverNewWorkers]).countP
      Event.isAddWorker = 0 :=
    List.countP_eq_zero.mpr (fun e he => by simp [hpre e he])
  refine ⟨?_, (registration_at_most_once env).2,
    (runSteps (initSteps env.init)).1 ++ [Event.riverNewWorkers], T, ?_, hN.symm, hpre,
    ?_, ?_, hT2⟩
  · rw [hT, hN, List.countP_append, List.countP_append, z1, z2]
    simp [List.countP_cons, Event.isAddWorker]
  · rw [hT, hN]
    simp
  · simp [r2]
  · simp [r3]

/-- C17 at a run in which everything succeeds. -/
theorem C17_worker_registered_once_witness :
    (runSteps (initSteps happyEnv.init)).2 = true ∧
      (main happyEnv).1.countP Event.isAddWorker = 1 ∧
      (main happyEnv).1.take 12
        = [.init .config, .init .validator, .init .web, .init .cache, .init .database,
            .init .files, .init .orm, .init .auth, .init .mail, .riverNewWorkers,
            .riverAddWorker (ascii "send_email"), .riverNewClient] :=
  ⟨by decide, (C17_worker_registered_once happyEnv (by decide)).1, by decide⟩

/-- C17 (counterexample): in the run of `main` in which loading the configuration
fails, `NewContainer` panics in `initConfig` and the worker is never added to the
registry: it is not added exactly once. -/
theorem C17_no_registration_when_config_fails :
    (main { happyEnv with init := ⟨true, false, false, false, false, false, false⟩ })
        = ([.init .config], Exit.panicked) ∧
      ¬ ((main { happyEnv with init := ⟨true, false, false, false, false, false, false⟩ }).1.countP
        Event.isAddWorker = 1) := by
  decide

end Registration

section Regexp

open regexp utf8

theorem decodeRune_width_pos (s : GoString) : 1 ≤ (decodeRune s).2 := by
  unfold decodeRune
  split
  · simp
  · split_ifs
    · simp
    · split
      · split_ifs <;> simp
      · simp
    · split
      · split_ifs <;> simp
      · simp
    · split
      · split_ifs <;> simp
      · simp
    · simp

theorem decodeRune_ascii (c : Byte) (rest : GoString) (h : c.val < 0x80) :
    decodeRune (c :: rest) = (c.val, 1) := by
  simp [decodeRune, h]

theorem replaceAllFirstCapAux_succ (fuel : Nat) :
    ∀ s : GoString, s.length ≤ fuel →
      replaceAllFirstCapAux (fuel + 1) s = replaceAllFirstCapAux fuel s := by
  induction fuel with
  | zero =>
    intro s hs
    have : s = [] := List.length_eq_zero.mp (Nat.le_zero.mp hs)
    subst this
    rfl
  | succ f ih =>
    intro s hs
    cases s with
    | nil => rfl
    | cons c cs =>
      rw [replaceAllFirstCapAux, replaceAllFirstCapAux]
      cases hm : matchFirstCapAt (c :: cs) with
      | some wk =>
        obtain ⟨w, k⟩ := wk
        simp only []
        rw [ih]
        simp only [List.length_drop, List.length_cons] at hs ⊢
        omega
      | none =>
        simp only []
        rw [ih]
        have := decodeRune_width_pos (c :: cs)
        simp only [List.length_drop, List.length_cons] at hs ⊢
        omega

theorem replaceAllFirstCapAux_of_le (s : GoString) :
    ∀ fuel, s.length ≤ fuel → replaceAllFirstCapAux fuel s = replaceAllFirstCap s := by
  intro fuel h
  induction fuel with
  | zero =>
    have : s = [] := List.length_eq_zero.mp (Nat.le_zero.mp h)
    subst this
    rfl
  | succ f ih =>
    by_cases hf : s.length ≤ f
    · rw [replaceAllFirstCapAux_succ f s hf, ih hf]
    · have : s.length = f + 1 := by omega
      unfold replaceAllFirstCap
      rw [this]

theorem replaceAllFirstCap_nil : replaceAllFirstCap [] = [] := rfl

theorem replaceAllFirstCap_match (c : Byte) (cs : GoString) (w k : Nat)
    (h : matchFirstCapAt (c :: cs) = some (w, k)) :
    replaceAllFirstCap (c :: cs)
      = (c :: cs).take w ++ [(95 : Byte)] ++ ((c :: cs).drop w).take (1 + k)
        ++ replaceAllFirstCap ((c :: cs).drop (w + (1 + k))) := by
  have e : replaceAllFirstCap (c :: cs) = replaceAllFirstCapAux (cs.length + 1) (c :: cs) := rfl
  rw [e, replaceAllFirstCapAux]
  simp only [h]
  rw [replaceAllFirstCapAux_of_le]
  simp only [List.length_drop, List.length_cons]
  omega

theorem replaceAllFirstCap_no_match (c : Byte) (cs : GoString)
    (h : matchFirstCapAt (c :: cs) = none) :
    replaceAllFirstCap (c :: cs)
      = (c :: cs).take (decodeRune (c :: cs)).2
        ++ replaceAllFirstCap ((c :: cs).drop (decodeRune (c :: cs)).2) := by
  have e : replaceAllFirstCap (c :: cs) = replaceAllFirstCapAux (cs.length + 1) (c :: cs) := rfl
  rw [e, replaceAllFirstCapAux]
  simp only [h]
  rw [replaceAllFirstCapAux_of_le]
  have := decodeRune_width_pos (c :: cs)
  simp only [List.length_drop, List.length_cons]
  omega

theorem replaceAllAllCapAux_succ (fuel : Nat) :
    ∀ s : GoString, s.length ≤ fuel →
      replaceAllAllCapAux (fuel + 1) s = replaceAllAllCapAux fuel s := by
  induction fuel with
  | zero =>
    intro s hs
    have : s = [] := List.length_eq_zero.mp (Nat.le_zero.mp hs)
    subst this
    rfl
  | succ f ih =>
    intro s hs
    cases s with
    | nil => rfl
    | cons c cs =>
      rw [replaceAllAllCapAux, replaceAllAllCapAux]
      split_ifs
      · rw [ih]
        simp only [List.length_drop, List.length_cons] at hs ⊢
        omega
      · rw [ih]
        have := decodeRune_width_pos (c :: cs)
        simp only [List.length_drop, List.length_cons] at hs ⊢
        omega

theorem replaceAllAllCapAux_of_le (s : GoString) :
    ∀ fuel, s.length ≤ fuel → replaceAllAllCapAux fuel s = replaceAllAllCap s := by
  intro fuel h
  induction fuel with
  | zero =>
    have : s = [] := List.length_eq_zero.mp (Nat.le_zero.mp h)
    subst this
    rfl
  | succ f ih =>
    by_cases hf : s.length ≤ f
    · rw [replaceAllAllCapAux_succ f s hf, ih hf]
    · have : s.length = f + 1 := by omega
      unfold replaceAllAllCap
      rw [this]

theorem replaceAllAllCap_match (c : Byte) (cs : GoString)
    (h : matchAllCapAt (c :: cs) = true) :
    replaceAllAllCap (c :: cs)
      = (c :: cs).take 1 ++ [(95 : Byte)] ++ ((c :: cs).drop 1).take 1
        ++ replaceAllAllCap ((c :: cs).drop 2) := by
  have e : replaceAllAllCap (c :: cs) = replaceAllAllCapAux (cs.length + 1) (c :: cs) := rfl
  rw [e, replaceAllAllCapAux]
  simp only [h, if_true]
  rw [replaceAllAllCapAux_of_le]
  simp only [List.length_drop, List.length_cons]
  omega

theorem replaceAllAllCap_no_match (c : Byte) (cs : GoString)
    (h : matchAllCapAt (c :: cs) = false) :
    replaceAllAllCap (c :: cs)
      = (c :: cs).take (decodeRune (c :: cs)).2
        ++ replaceAllAllCap ((c :: cs).drop (decodeRune (c :: cs)).2) := by
  have e : replaceAllAllCap (c :: cs) = replaceAllAllCapAux (cs.length + 1) (c :: cs) := rfl
  rw [e, replaceAllAllCapAux]
  simp only [h, Bool.false_eq_true, if_false]
  rw [replaceAllAllCapAux_of_le]
  have := decodeRune_width_pos (c :: cs)
  simp only [List.length_drop, List.length_cons]
  omega

end Regexp

section CamelToSnake

open regexp utf8

theorem lower_facts :
    ∀ c : Byte, isLowerAZ c = true →
      c.val < 0x80 ∧ c.val ≠ 10 ∧ isUpperAZ c = false ∧ isLowerOrDigit c = true ∧
        ¬ (65 ≤ c.val ∧ c.val ≤ 90) := by
  decide

theorem upper_facts :
    ∀ c : Byte, isUpperAZ c = true →
      c.val < 0x80 ∧ c.val ≠ 10 ∧ isLowerAZ c = false ∧ isLowerOrDigit c = false ∧
        (65 ≤ c.val ∧ c.val ≤ 90) := by
  decide

theorem camelText_head (rest : List CamelWord) (h : ∀ w ∈ rest, isCamelWord w) :
    camelText rest = [] ∨ ∃ u t, camelText rest = u :: t ∧ isUpperAZ u = true := by
  cases rest with
  | nil => left; rfl
  | cons w r =>
    right
    exact ⟨w.1, w.2 ++ camelText r, rfl, (h w (by simp)).1⟩

theorem takeWhile_lower_append (l T : GoString) (hl : ∀ c ∈ l, isLowerAZ c = true)
    (hT : T = [] ∨ ∃ u t, T = u :: t ∧ isUpperAZ u = true) :
    (l ++ T).takeWhile isLowerAZ = l := by
  induction l with
  | nil =>
    rcases hT with h | ⟨u, t, h, hu⟩
    · subst h; rfl
    · subst h
      have := (upper_facts u hu).2.2.1
      simp [List.takeWhile, this]
  | cons c cs ih =>
    have hc := hl c (by simp)
    rw [List.cons_append, List.takeWhile_cons]
    simp only [hc, if_true]
    rw [ih (fun x hx => hl x (by simp [hx]))]

/-- The first replacement on a name made of words: an underscore goes before every
second word. -/
theorem replaceAllFirstCap_camel (rest : List CamelWord) (h : ∀ w ∈ rest, isCamelWord w) :
    (∀ l : GoString, l ≠ [] → (∀ c ∈ l, isLowerAZ c = true) →
        replaceAllFirstCap (l ++ camelText rest) = l ++ sepText (alternate true rest)) ∧
      replaceAllFirstCap (camelText rest) = sepText (alternate false rest) := by
  induction rest with
  | nil =>
    refine ⟨?_, rfl⟩
    intro l
    induction l with
    | nil => intro h0; exact absurd rfl h0
    | cons c cs ih =>
      intro _ hl
      obtain ⟨c1, c2, _, _, _⟩ := lower_facts c (hl c (by simp))
      simp only [camelText, List.append_nil, alternate, sepText] at ih ⊢
      cases cs with
      | nil =>
        have hm : matchFirstCapAt [c] = none := by
          simp [matchFirstCapAt, decodeRune_ascii c [] c1, c2]
        rw [replaceAllFirstCap_no_match c [] hm, decodeRune_ascii c [] c1]
        rfl
      | cons c' cs' =>
        have hu := (lower_facts c' (hl c' (by simp))).2.2.1
        have hm : matchFirstCapAt (c :: c' :: cs') = none := by
          simp [matchFirstCapAt, decodeRune_ascii c _ c1, c2, hu]
        rw [replaceAllFirstCap_no_match c _ hm, decodeRune_ascii c _ c1]
        simp only [List.take, List.drop]
        rw [ih (by simp) (fun x hx => hl x (by simp [hx]))]
        rfl
  | cons w r ih =>
    obtain ⟨ihA, ihB⟩ := ih (fun x hx => h x (by simp [hx]))
    obtain ⟨wu, wl, wll⟩ := h w (by simp)
    have hT := camelText_head r (fun x hx => h x (by simp [hx]))
    have htw := takeWhile_lower_append w.2 (camelText r) wll hT
    have hpos : 0 < w.2.length := List.length_pos.mpr wl
    constructor
    · intro l
      induction l with
      | nil => intro h0; exact absurd rfl h0
      | cons c cs ihl =>
        intro _ hl
        obtain ⟨c1, c2, _, _, _⟩ := lower_facts c (hl c (by simp))
        cases cs with
        | nil =>
          have hm : matchFirstCapAt (c :: (w.1 :: w.2 ++ camelText r))
              = some (1, w.2.length) := by
            simp [matchFirstCapAt, decodeRune_ascii c _ c1, c2, wu, htw, hpos]
          show replaceAllFirstCap (c :: (w.1 :: w.2 ++ camelText r)) = _
          rw [replaceAllFirstCap_match c _ 1 w.2.length hm]
          have e1 : List.drop (1 + (1 + w.2.length)) (c :: (w.1 :: w.2 ++ camelText r))
              = camelText r := by
            have : 1 + (1 + w.2.length) = (c :: w.1 :: w.2).length := by simp; omega
            rw [this]
            exact List.drop_left' rfl
          have e2 : List.take (1 + w.2.length) (List.drop 1 (c :: (w.1 :: w.2 ++ camelText r)))
              = w.1 :: w.2 := by
            have : 1 + w.2.length = (w.1 :: w.2).length := by simp; omega
            rw [this]
            exact List.take_left' rfl
          rw [e1, e2, ihB]
          simp [alternate, sepText, wordText]
        | cons c' cs' =>
          have hu := (lower_facts c' (hl c' (by simp))).2.2.1
          have hm : matchFirstCapAt (c :: (c' :: cs' ++ camelText (w :: r))) = none := by
            simp [matchFirstCapAt, decodeRune_ascii c _ c1, c2, hu]
          show replaceAllFirstCap (c :: (c' :: cs' ++ camelText (w :: r))) = _
          rw [replaceAllFirstCap_no_match c _ hm, decodeRune_ascii c _ c1]
          simp only [List.take, List.drop]
          rw [ihl (by simp) (fun x hx => hl x (by simp [hx]))]
          rfl
    · obtain ⟨u1, u2, _, _, _⟩ := upper_facts w.1 wu
      obtain ⟨c', cs', hw2⟩ := List.exists_cons_of_ne_nil wl
      have hu := (lower_facts c' (wll c' (by simp [hw2]))).2.2.1
      have hm : matchFirstCapAt (w.1 :: (w.2 ++ camelText r)) = none := by
        rw [hw2]
        simp [matchFirstCapAt, decodeRune_ascii w.1 _ u1, u2, hu]
      show replaceAllFirstCap (w.1 :: (w.2 ++ camelText r)) = _
      rw [replaceAllFirstCap_no_match w.1 _ hm, decodeRune_ascii w.1 _ u1]
      simp only [List.take, List.drop]
      rw [ihA w.2 wl wll]
      simp [alternate, sepText, wordText]

end CamelToSnake

section CamelToSnake2

open regexp utf8

/-- The second replacement on words of which some have an underscore before them: an
underscore goes before every word that has none. -/
theorem replaceAllAllCap_sep (ts : List (Bool × CamelWord)) (h : ∀ t ∈ ts, isCamelWord t.2) :
    ∀ l : GoString, l ≠ [] → (∀ c ∈ l, isLowerAZ c = true) →
      replaceAllAllCap (l ++ sepText ts) = l ++ sepText (allFlagged ts) := by
  induction ts with
  | nil =>
    intro l
    induction l with
    | nil => intro h0; exact absurd rfl h0
    | cons c cs ih =>
      intro _ hl
      obtain ⟨c1, _, _, _, _⟩ := lower_facts c (hl c (by simp))
      simp only [sepText, allFlagged, List.append_nil] at ih ⊢
      cases cs with
      | nil =>
        have hm : matchAllCapAt [c] = false := rfl
        rw [replaceAllAllCap_no_match c [] hm, decodeRune_ascii c [] c1]
        rfl
      | cons c' cs' =>
        have hu := (lower_facts c' (hl c' (by simp))).2.2.1
        have hm : matchAllCapAt (c :: c' :: cs') = false := by
          simp [matchAllCapAt, hu]
        rw [replaceAllAllCap_no_match c _ hm, decodeRune_ascii c _ c1]
        simp only [List.take, List.drop]
        rw [ih (by simp) (fun x hx => hl x (by simp [hx]))]
        rfl
  | cons t r ih =>
    obtain ⟨b, w⟩ := t
    have ihr := ih (fun x hx => h x (by simp [hx]))
    obtain ⟨wu, wl, wll⟩ := h (b, w) (by simp)
    simp only at wu wl wll
    obtain ⟨u1, _, _, u4, _⟩ := upper_facts w.1 wu
    intro l
    induction l with
    | nil => intro h0; exact absurd rfl h0
    | cons c cs ihl =>
      intro _ hl
      obtain ⟨c1, _, _, c4, _⟩ := lower_facts c (hl c (by simp))
      cases cs with
      | cons c' cs' =>
        have hu := (lower_facts c' (hl c' (by simp))).2.2.1
        have hm : matchAllCapAt (c :: (c' :: cs' ++ sepText ((b, w) :: r))) = false := by
          simp [matchAllCapAt, hu]
        show replaceAllAllCap (c :: (c' :: cs' ++ sepText ((b, w) :: r))) = _
        rw [replaceAllAllCap_no_match c _ hm, decodeRune_ascii c _ c1]
        simp only [List.take, List.drop]
        rw [ihl (by simp) (fun x hx => hl x (by simp [hx]))]
        rfl
      | nil =>
        cases b with
        | false =>
          have hm : matchAllCapAt (c :: (w.1 :: (w.2 ++ sepText r))) = true := by
            simp [matchAllCapAt, c4, wu]
          show replaceAllAllCap (c :: (w.1 :: (w.2 ++ sepText r))) = _
          rw [replaceAllAllCap_match c _ hm]
          simp only [List.take, List.drop]
          rw [ihr w.2 wl wll]
          simp [allFlagged, sepText, wordText]
        | true =>
          have hm1 : matchAllCapAt (c :: ((95 : Byte) :: (w.1 :: (w.2 ++ sepText r)))) = false := by
            simp [matchAllCapAt]
            intro _
            decide
          have hm2 : matchAllCapAt ((95 : Byte) :: (w.1 :: (w.2 ++ sepText r))) = false := by
            simp [matchAllCapAt]
            intro hh
            exact absurd hh (by decide)
          have hm3 : matchAllCapAt (w.1 :: (w.2 ++ sepText r)) = false := by
            cases hw : w.2 ++ sepText r with
            | nil => rfl
            | cons x xs => simp [matchAllCapAt, u4]
          show replaceAllAllCap (c :: ((95 : Byte) :: (w.1 :: (w.2 ++ sepText r)))) = _
          rw [replaceAllAllCap_no_match c _ hm1, decodeRune_ascii c _ c1]
          simp only [List.take, List.drop]
          rw [replaceAllAllCap_no_match _ _ hm2, decodeRune_ascii _ _ (by decide)]
          simp only [List.take, List.drop]
          rw [replaceAllAllCap_no_match _ _ hm3, decodeRune_ascii _ _ u1]
          simp only [List.take, List.drop]
          rw [ihr w.2 wl wll]
          simp [allFlagged, sepText, wordText]

theorem replaceAllAllCap_word (w : CamelWord) (ts : List (Bool × CamelWord))
    (hw : isCamelWord w) (h : ∀ t ∈ ts, isCamelWord t.2) :
    replaceAllAllCap (wordText w ++ sepText ts) = wordText w ++ sepText (allFlagged ts) := by
  obtain ⟨wu, wl, wll⟩ := hw
  obtain ⟨u1, _, _, u4, _⟩ := upper_facts w.1 wu
  have hm3 : matchAllCapAt (w.1 :: (w.2 ++ sepText ts)) = false := by
    cases hw : w.2 ++ sepText ts with
    | nil => rfl
    | cons x xs => simp [matchAllCapAt, u4]
  show replaceAllAllCap (w.1 :: (w.2 ++ sepText ts)) = _
  rw [replaceAllAllCap_no_match _ _ hm3, decodeRune_ascii _ _ u1]
  simp only [List.take, List.drop]
  rw [replaceAllAllCap_sep ts h w.2 wl wll]
  rfl

theorem allFlagged_alternate (r : List CamelWord) :
    ∀ b, allFlagged (alternate b r) = r.map (fun w => (true, w)) := by
  induction r with
  | nil => intro b; rfl
  | cons w r ih => intro b; simp [alternate, allFlagged, ih]

theorem alternate_camel (r : List CamelWord) (h : ∀ w ∈ r, isCamelWord w) :
    ∀ b, ∀ t ∈ alternate b r, isCamelWord t.2 := by
  induction r with
  | nil => intro b t ht; simp [alternate] at ht
  | cons w r ih =>
    intro b t ht
    simp only [alternate, List.mem_cons] at ht
    rcases ht with e | e
    · rw [e]; exact h w (by simp)
    · exact ih (fun x hx => h x (by simp [hx])) _ t e

theorem word_ascii (w : CamelWord) (hw : isCamelWord w) :
    ∀ c ∈ wordText w, c.val < 0x80 := by
  intro c hc
  simp only [wordText, List.mem_cons] at hc
  rcases hc with e | e
  · rw [e]; exact (upper_facts _ hw.1).1
  · exact (lower_facts _ (hw.2.2 c e)).1

theorem sepText_ascii (r : List CamelWord) (h : ∀ w ∈ r, isCamelWord w) :
    ∀ c ∈ sepText (r.map (fun w => (true, w))), c.val < 0x80 := by
  induction r with
  | nil => intro c hc; simp [sepText] at hc
  | cons w r ih =>
    intro c hc
    have e0 : sepText ((w :: r).map (fun w => (true, w)))
        = (95 : Byte) :: (wordText w ++ sepText (r.map (fun w => (true, w)))) := rfl
    rw [e0] at hc
    simp only [List.mem_cons, List.mem_append] at hc
    rcases hc with e | e | e
    · rw [e]; decide
    · exact word_ascii w (h w (by simp)) c e
    · exact ih (fun x hx => h x (by simp [hx])) c e

theorem map_lower_word (w : CamelWord) (hw : isCamelWord w) :
    (wordText w).map
        (fun c : Byte => if 65 ≤ c.val ∧ c.val ≤ 90 then (Fin.ofNat (c.val + 32) : Byte) else c)
      = snakeWord w := by
  obtain ⟨wu, _, wll⟩ := hw
  have hu := (upper_facts _ wu).2.2.2.2
  simp only [wordText, snakeWord, List.map, hu, and_self, if_true]
  congr 1
  have : ∀ c ∈ w.2, (fun c : Byte =>
      if 65 ≤ c.val ∧ c.val ≤ 90 then (Fin.ofNat (c.val + 32) : Byte) else c) c = id c := by
    intro c hc
    have := (lower_facts c (wll c hc)).2.2.2.2
    simp [this]
  rw [List.map_congr_left this, List.map_id]

theorem map_lower_text (r : List CamelWord) (h : ∀ w ∈ r, isCamelWord w) :
    ∀ w1, isCamelWord w1 →
      (wordText w1 ++ sepText (r.map (fun w => (true, w)))).map
          (fun c : Byte => if 65 ≤ c.val ∧ c.val ≤ 90 then (Fin.ofNat (c.val + 32) : Byte) else c)
        = strings.Join ((w1 :: r).map snakeWord) [95] := by
  induction r with
  | nil =>
    intro w1 h1
    show List.map _ (wordText w1 ++ []) = snakeWord w1
    rw [List.append_nil]
    exact map_lower_word w1 h1
  | cons w2 r ih =>
    intro w1 h1
    have ih2 := ih (fun x hx => h x (by simp [hx])) w2 (h w2 (by simp))
    have e0 : sepText ((w2 :: r).map (fun w => (true, w)))
        = (95 : Byte) :: (wordText w2 ++ sepText (r.map (fun w => (true, w)))) := rfl
    have e1 : strings.Join ((w1 :: w2 :: r).map snakeWord) [95]
        = snakeWord w1 ++ [95] ++ strings.Join ((w2 :: r).map snakeWord) [95] := rfl
    have e : (if 65 ≤ (95 : Byte).val ∧ (95 : Byte).val ≤ 90
        then (Fin.ofNat ((95 : Byte).val + 32) : Byte) else 95) = 95 := by decide
    rw [e0, e1, List.map_append, List.map_cons, map_lower_word w1 h1, ih2]
    simp only [e]
    simp

/-- C13: for every name made of one or more words, each one upper-case ASCII letter
followed by one or more lower-case ASCII letters, `camelToSnake` gives the words in
lower case joined by single underscores. -/
theorem C13_camelToSnake_words (lowerTable : Nat → Nat) (ws : List CamelWord)
    (hne : ws ≠ []) (h : ∀ w ∈ ws, isCamelWord w) :
    admin.camelToSnake lowerTable (camelText ws)
      = strings.Join (ws.map snakeWord) (ascii "_") := by
  obtain ⟨w1, r, hws⟩ := List.exists_cons_of_ne_nil hne
  subst hws
  have h1 := h w1 (by simp)
  have hr : ∀ w ∈ r, isCamelWord w := fun x hx => h x (by simp [hx])
  unfold admin.camelToSnake
  rw [(replaceAllFirstCap_camel (w1 :: r) h).2]
  have e1 : sepText (alternate false (w1 :: r)) = wordText w1 ++ sepText (alternate true r) := rfl
  rw [e1, replaceAllAllCap_word w1 _ h1 (alternate_camel r hr true), allFlagged_alternate]
  have hascii : (wordText w1 ++ sepText (r.map (fun w => (true, w)))).all
      (fun c => decide (c.val < 0x80)) = true := by
    rw [List.all_eq_true]
    intro c hc
    rcases List.mem_append.mp hc with e | e
    · simpa using word_ascii w1 h1 c e
    · simpa using sepText_ascii r hr c e
  unfold strings.ToLower
  rw [if_pos hascii]
  exact map_lower_text r hr w1 h1

/-- C13 at `UserName` and at `AbCdEf`. -/
theorem C13_camelToSnake_words_witness :
    ([(85, ascii "ser"), (78, ascii "ame")] : List CamelWord) ≠ [] ∧
      (∀ w ∈ ([(85, ascii "ser"), (78, ascii "ame")] : List CamelWord), isCamelWord w) ∧
      camelText [(85, ascii "ser"), (78, ascii "ame")] = ascii "UserName" ∧
      admin.camelToSnake id (ascii "UserName") = ascii "user_name" ∧
      admin.camelToSnake id (ascii "AbCdEf") = ascii "ab_cd_ef" ∧
      admin.camelToSnake id (camelText [(85, ascii "ser"), (78, ascii "ame")])
        = strings.Join (([(85, ascii "ser"), (78, ascii "ame")] : List CamelWord).map snakeWord)
            (ascii "_") :=
  ⟨by decide, by decide, by decide, by decide, by decide,
    C13_camelToSnake_words id _ (by decide) (by decide)⟩

end CamelToSnake2

section Runes

open utf8

theorem decodeRune_encodeValid (r : Nat) (hv : validRune r) (t : GoString) :
    decodeRune (encodeValid r ++ t) = (r, (encodeValid r).length) := by
  obtain ⟨h1, h2⟩ := hv
  unfold encodeValid
  split_ifs with a b c
  · simp only [List.cons_append, List.nil_append, decodeRune, Fin.ofNat]
    have : r % 256 = r := by omega
    simp [this]
    omega
  · have e0 : (192 + r / 64) % 256 = 192 + r / 64 := by omega
    have e1 : (128 + r % 64) % 256 = 128 + r % 64 := by omega
    simp only [List.cons_append, List.nil_append, decodeRune, Fin.ofNat, isCont, e0, e1]
    rw [if_neg (by omega), if_pos (by omega), if_pos (by simp; omega)]
    simp
    omega
  · have e0 : (224 + r / 4096) % 256 = 224 + r / 4096 := by omega
    have e1 : (128 + r / 64 % 64) % 256 = 128 + r / 64 % 64 := by omega
    have e2 : (128 + r % 64) % 256 = 128 + r % 64 := by omega
    simp only [List.cons_append, List.nil_append, decodeRune, Fin.ofNat, isCont, e0, e1, e2]
    rw [if_neg (by omega), if_neg (by omega), if_pos (by omega), if_pos (by simp; omega)]
    simp
    omega
  · have e0 : (240 + r / 262144) % 256 = 240 + r / 262144 := by omega
    have e1 : (128 + r / 4096 % 64) % 256 = 128 + r / 4096 % 64 := by omega
    have e2 : (128 + r / 64 % 64) % 256 = 128 + r / 64 % 64 := by omega
    have e3 : (128 + r % 64) % 256 = 128 + r % 64 := by omega
    simp only [List.cons_append, List.nil_append, decodeRune, Fin.ofNat, isCont, e0, e1, e2, e3]
    rw [if_neg (by omega), if_neg (by omega), if_neg (by omega), if_pos (by omega),
      if_pos (by simp; omega)]
    simp
    omega

theorem encodeRune_of_valid (r : Nat) (hv : validRune r) : encodeRune r = encodeValid r := by
  unfold encodeRune
  rw [if_pos hv]

theorem encodeValid_ne_nil (r : Nat) : encodeValid r ≠ [] := by
  unfold encodeValid
  split_ifs <;> simp

theorem decodeRunesFrom_skip (a t : GoString) :
    decodeRunesFrom a.length (a ++ t) = decodeRunesFrom 0 t := by
  induction a with
  | nil => rfl
  | cons x a ih =>
    show decodeRunesFrom (a.length + 1) (x :: (a ++ t)) = _
    rw [decodeRunesFrom, ih]

theorem decodeRunes_encodeRune_append (r : Nat) (hv : validRune r) (t : GoString) :
    decodeRunes (encodeRune r ++ t) = r :: decodeRunes t := by
  rw [encodeRune_of_valid r hv]
  have hd := decodeRune_encodeValid r hv t
  cases he : encodeValid r with
  | nil => exact absurd he (encodeValid_ne_nil r)
  | cons b bs =>
    rw [he] at hd
    show decodeRunesFrom 0 (b :: (bs ++ t)) = _
    rw [decodeRunesFrom]
    rw [show b :: (bs ++ t) = b :: bs ++ t from rfl, hd]
    simp only [List.length_cons, Nat.add_sub_cancel]
    rw [decodeRunesFrom_skip]
    rfl

/-- The conversion to runes undoes the encoding of scalar values. -/
theorem decodeRunes_encodeRunes (rs : List Nat) (hv : ∀ r ∈ rs, validRune r) :
    decodeRunes (encodeRunes rs) = rs := by
  induction rs with
  | nil => rfl
  | cons r rs ih =>
    show decodeRunes (encodeRune r ++ encodeRunes rs) = _
    rw [decodeRunes_encodeRune_append r (hv r (by simp)), ih (fun x hx => hv x (by simp [hx]))]

theorem encodeValid_no_underscore (r : Nat) (hv : validRune r) (hr : r ≠ 95) :
    ∀ b ∈ encodeValid r, b ≠ (95 : Byte) := by
  obtain ⟨h1, h2⟩ := hv
  intro b hb hb95
  have hval : b.val = 95 := by rw [hb95]; rfl
  unfold encodeValid at hb
  split_ifs at hb with a1 a2 a3 <;>
    simp only [List.mem_cons, List.mem_singleton, List.not_mem_nil, or_false] at hb
  · rw [hb] at hval
    simp only [Fin.ofNat] at hval
    omega
  · rcases hb with e | e <;> (rw [e] at hval; simp only [Fin.ofNat] at hval; omega)
  · rcases hb with e | e | e <;> (rw [e] at hval; simp only [Fin.ofNat] at hval; omega)
  · rcases hb with e | e | e | e <;> (rw [e] at hval; simp only [Fin.ofNat] at hval; omega)

end Runes

section Parts

open utf8

theorem Split_ne_nil (s : GoString) (sep : Byte) : strings.Split s sep ≠ [] := by
  induction s with
  | nil => simp [strings.Split]
  | cons c cs ih =>
    unfold strings.Split
    split_ifs
    · simp
    · cases h : strings.Split cs sep <;> simp

theorem Split_append_of_no_sep (sep : Byte) (bs : GoString) (h : ∀ b ∈ bs, b ≠ sep)
    (t p : GoString) (ps : List GoString) (ht : strings.Split t sep = p :: ps) :
    strings.Split (bs ++ t) sep = (bs ++ p) :: ps := by
  induction bs with
  | nil => simpa using ht
  | cons b bs ih =>
    have ih2 := ih (fun x hx => h x (by simp [hx]))
    show strings.Split (b :: (bs ++ t)) sep = _
    unfold strings.Split
    rw [if_neg (h b (by simp)), ih2]
    rfl

/-- The parts of a well-formed name are well-formed. -/
theorem Split_wellFormed (rs : List Nat) (hv : ∀ r ∈ rs, validRune r) :
    ∀ p ∈ strings.Split (encodeRunes rs) 95, WellFormedUTF8 p := by
  induction rs with
  | nil =>
    intro p hp
    simp only [encodeRunes, strings.Split, List.mem_singleton] at hp
    exact ⟨[], by simp, by rw [hp]; rfl⟩
  | cons r rs ih =>
    have ih2 := ih (fun x hx => hv x (by simp [hx]))
    have hr := hv r (by simp)
    intro p hp
    by_cases h95 : r = 95
    · subst h95
      have e : strings.Split (encodeRunes (95 :: rs)) 95
          = [] :: strings.Split (encodeRunes rs) 95 := by
        show strings.Split ((95 : Byte) :: encodeRunes rs) 95 = _
        rw [strings.Split, if_pos rfl]
      rw [e] at hp
      rcases List.mem_cons.mp hp with e1 | e1
      · exact ⟨[], by simp, by rw [e1]; rfl⟩
      · exact ih2 p e1
    · obtain ⟨q, qs, hq⟩ := List.exists_cons_of_ne_nil (Split_ne_nil (encodeRunes rs) 95)
      have e : strings.Split (encodeRunes (r :: rs)) 95 = (encodeRune r ++ q) :: qs := by
        show strings.Split (encodeRune r ++ encodeRunes rs) 95 = _
        apply Split_append_of_no_sep 95 _ _ _ _ _ hq
        rw [encodeRune_of_valid r hr]
        exact encodeValid_no_underscore r hr h95
      rw [e] at hp
      rcases List.mem_cons.mp hp with e1 | e1
      · obtain ⟨rq, hrq, heq⟩ := ih2 q (by rw [hq]; simp)
        refine ⟨r :: rq, ?_, ?_⟩
        · intro x hx
          rcases List.mem_cons.mp hx with e2 | e2
          · rw [e2]; exact hr
          · exact hrq x e2
        · rw [e1, heq]; rfl
      · exact ih2 p (by rw [hq]; simp [e1])

/-- On a well-formed part `upperFirst` upper-cases the first character and leaves the
rest as it is. -/
theorem upperFirst_of_wellFormed (table : Nat → Nat) (p : GoString) (h : WellFormedUTF8 p) :
    admin.upperFirst table p = upperFirstCharacter table p := by
  obtain ⟨rs, hv, hp⟩ := h
  subst hp
  cases rs with
  | nil => rfl
  | cons r rs =>
    have hr := hv r (by simp)
    have hd := decodeRunes_encodeRunes (r :: rs) hv
    have h1 := decodeRune_encodeValid r hr (encodeRunes rs)
    rw [← encodeRune_of_valid r hr] at h1
    have hne : encodeRune r ≠ [] := by
      rw [encodeRune_of_valid r hr]; exact encodeValid_ne_nil r
    unfold admin.upperFirst
    rw [hd]
    show (if (encodeRune r ++ encodeRunes rs).length = 0 then _ else _)
      = upperFirstCharacter table (encodeRune r ++ encodeRunes rs)
    cases he : encodeRune r with
    | nil => exact absurd he hne
    | cons b bs =>
      rw [he] at h1
      rw [if_neg (by simp)]
      show _ = encodeRune (unicode.ToUpper table (decodeRune (b :: bs ++ encodeRunes rs)).1)
        ++ (b :: bs ++ encodeRunes rs).drop (decodeRune (b :: bs ++ encodeRunes rs)).2
      rw [h1]
      simp only [List.drop_left']
      rfl

theorem Join_nil_sep (l : List GoString) : strings.Join l [] = l.flatten := by
  induction l with
  | nil => rfl
  | cons a l ih =>
    cases l with
    | nil => simp [strings.Join]
    | cons b l =>
      rw [strings.Join, ih]
      simp

theorem Join_intercalate (sep : GoString) (l : List GoString) :
    strings.Join l sep = sep.intercalate l := by
  induction l with
  | nil => rfl
  | cons a l ih =>
    cases l with
    | nil => simp [strings.Join, List.intercalate]
    | cons b l =>
      rw [strings.Join, ih]
      simp [List.intercalate, List.intersperse]

end Parts

section FieldNames

open utf8

theorem labelParts_succ (table : Nat → Nat) (ps : List GoString) :
    ∀ i, admin.labelParts table (i + 1) ps
      = ps.map (fun p => if p = ascii "id" then ascii "ID" else p) := by
  induction ps with
  | nil => intro i; rfl
  | cons p ps ih =>
    intro i
    rw [admin.labelParts, if_neg (Nat.succ_ne_zero i), ih]
    rfl

theorem wellFormed_ID : WellFormedUTF8 (ascii "ID") :=
  ⟨[73, 68], by decide, by decide⟩

/-- C11, amended: for every name that is well-formed UTF-8, `fieldName` maps the empty
name to itself and any other name to its parts between underscores, a part `id` as `ID`
and every other part with its first character upper-cased and the rest unchanged,
concatenated with no separator. -/
theorem C11_fieldName_of_wellFormed (table : Nat → Nat) (name : GoString)
    (h : WellFormedUTF8 name) :
    admin.fieldName table name = fieldNameSpec table name := by
  obtain ⟨rs, hv, hn⟩ := h
  unfold admin.fieldName fieldNameSpec
  by_cases he : name = []
  · rw [if_pos he, if_pos (by rw [he]; rfl), he]
  · rw [if_neg he, if_neg (by simpa using he), Join_nil_sep]
    congr 1
    apply List.map_congr_left
    intro p hp
    rw [hn] at hp
    rw [upperFirst_of_wellFormed table p (Split_wellFormed rs hv p hp)]

/-- C11 at `user_id`, which gives `UserID`. -/
theorem C11_fieldName_of_wellFormed_witness :
    WellFormedUTF8 (ascii "user_id") ∧
      fieldNameSpec id (ascii "user_id") = ascii "UserID" ∧
      admin.fieldName id (ascii "user_id") = fieldNameSpec id (ascii "user_id") :=
  ⟨⟨[117, 115, 101, 114, 95, 105, 100], by decide, by decide⟩, by decide,
    C11_fieldName_of_wellFormed id (ascii "user_id")
      ⟨[117, 115, 101, 114, 95, 105, 100], by decide, by decide⟩⟩

/-- C11 as stated fails at the name of the two bytes `0x61 0xFF`, which is not
well-formed UTF-8: the rest of the part is not left unchanged, `fieldName` writes the
byte `0xFF` as the three bytes of `U+FFFD`. No rune of this name is above ASCII before
it is upper-cased, so the Unicode table is not consulted. -/
theorem C11_fieldName_rewrites_invalid_byte :
    admin.fieldName id [0x61, 0xFF] = [0x41, 0xEF, 0xBF, 0xBD] ∧
      fieldNameSpec id [0x61, 0xFF] = [0x41, 0xFF] ∧
      admin.fieldName id [0x61, 0xFF] ≠ fieldNameSpec id [0x61, 0xFF] := by
  decide

/-- C12, amended: for every name that is well-formed UTF-8, `FieldLabel` maps the empty
name to itself and any other name to its parts between underscores, a part `id` as `ID`,
the first part with its first character upper-cased and every other part as it is,
joined with one space. -/
theorem C12_FieldLabel_of_wellFormed (table : Nat → Nat) (name : GoString)
    (h : WellFormedUTF8 name) :
    admin.FieldLabel table name = FieldLabelSpec table name := by
  obtain ⟨rs, hv, hn⟩ := h
  unfold admin.FieldLabel FieldLabelSpec
  by_cases he : name = []
  · rw [if_pos he, if_pos (by rw [he]; rfl), he]
  · rw [if_neg he, if_neg (by simpa using he), Join_intercalate]
    obtain ⟨q, qs, hq⟩ := List.exists_cons_of_ne_nil (Split_ne_nil name 95)
    have hwf : WellFormedUTF8 (if q = ascii "id" then ascii "ID" else q) := by
      split_ifs
      · exact wellFormed_ID
      · exact Split_wellFormed rs hv q (by rw [← hn, hq]; simp)
    rw [hq]
    show (ascii " ").intercalate (admin.labelParts table 0 (q :: qs))
      = (ascii " ").intercalate
          (upperFirstCharacter table (if q = ascii "id" then ascii "ID" else q)
            :: qs.map (fun p => if p = ascii "id" then ascii "ID" else p))
    rw [admin.labelParts, if_pos rfl, labelParts_succ, upperFirst_of_wellFormed table _ hwf]

/-- C12 at `user_id`, which gives `User ID`. -/
theorem C12_FieldLabel_of_wellFormed_witness :
    WellFormedUTF8 (ascii "user_id") ∧
      FieldLabelSpec id (ascii "user_id") = ascii "User ID" ∧
      admin.FieldLabel id (ascii "user_id") = FieldLabelSpec id (ascii "user_id") :=
  ⟨⟨[117, 115, 101, 114, 95, 105, 100], by decide, by decide⟩, by decide,
    C12_FieldLabel_of_wellFormed id (ascii "user_id")
      ⟨[117, 115, 101, 114, 95, 105, 100], by decide, by decide⟩⟩

/-- C12 as stated fails at the name of the two bytes `0x61 0xFF`, which is not
well-formed UTF-8: the first part does not keep what follows its first character,
`FieldLabel` writes the byte `0xFF` as the three bytes of `U+FFFD`. -/
theorem C12_FieldLabel_rewrites_invalid_byte :
    admin.FieldLabel id [0x61, 0xFF] = [0x41, 0xEF, 0xBF, 0xBD] ∧
      FieldLabelSpec id [0x61, 0xFF] = [0x41, 0xFF] ∧
      admin.FieldLabel id [0x61, 0xFF] ≠ FieldLabelSpec id [0x61, 0xFF] := by
  decide

end FieldNames

section ParameterLimit

theorem count_amp_keys_a (vs : List GoString) :
    count 38 (Values.Encode (AList.insert (ascii "a") vs ∅)) = vs.length - 1 := by
  rw [count_amp_Encode]
  have hk : Values.sortedKeys (AList.insert (ascii "a") vs ∅) = [ascii "a"] := rfl
  have ha : Values.at (AList.insert (ascii "a") vs ∅) (ascii "a") = vs := rfl
  rw [hk, pairsOfKeys, pairsOfKeys, ha]
  simp

theorem count_amp_keys_a_page (vs : List GoString) (x : GoString) :
    count 38 (Values.Encode (AList.insert QueryKey [x] (AList.insert (ascii "a") vs ∅)))
      = vs.length := by
  rw [count_amp_Encode]
  have hk : Values.sortedKeys (AList.insert QueryKey [x] (AList.insert (ascii "a") vs ∅))
      = [ascii "a", QueryKey] := rfl
  have ha : Values.at (AList.insert QueryKey [x] (AList.insert (ascii "a") vs ∅)) (ascii "a")
      = vs := rfl
  have hp : Values.at (AList.insert QueryKey [x] (AList.insert (ascii "a") vs ∅)) QueryKey
      = [x] := rfl
  rw [hk, pairsOfKeys, pairsOfKeys, pairsOfKeys, ha, hp]
  simp

theorem at_keys_a (vs : List GoString) :
    Values.at (AList.insert (ascii "a") vs ∅) (ascii "a") = vs := rfl

theorem PageURL_keys_a (vs : List GoString) :
    ((NewPager (AList.insert (ascii "a") vs ∅) 10).PageURL 2).2
      = (63 : Byte) :: Values.Encode (AList.insert QueryKey [ascii "2"]
          (AList.insert (ascii "a") vs ∅)) := by
  rw [PageURL_snd, if_neg (by decide), NewPager_QueryParams]
  rfl

/-- A request of ten thousand values under the key `a` is within the limit of
`url.ParseQuery`; what `PageURL(2)` returns for its pager is above it. -/
theorem PageURL_above_limit (vs : List GoString) (hlen : vs.length = 10000) :
    count 38 (Values.Encode (AList.insert (ascii "a") vs ∅)) + 1 = 10000 ∧
      (ParseQuery (Values.Encode (AList.insert (ascii "a") vs ∅))).at (ascii "a") = vs ∧
      ((NewPager (AList.insert (ascii "a") vs ∅) 10).PageURL 2).2
        = (63 : Byte) :: Values.Encode (AList.insert QueryKey [ascii "2"]
            (AList.insert (ascii "a") vs ∅)) ∧
      count 38 (Values.Encode (AList.insert QueryKey [ascii "2"]
        (AList.insert (ascii "a") vs ∅))) + 1 = 10001 ∧
      ParseQuery (Values.Encode (AList.insert QueryKey [ascii "2"]
        (AList.insert (ascii "a") vs ∅))) = ∅ ∧
      (ParseQuery (Values.Encode (AList.insert QueryKey [ascii "2"]
        (AList.insert (ascii "a") vs ∅)))).at QueryKey ≠ [decimalRendering 2] := by
  have c1 : count 38 (Values.Encode (AList.insert (ascii "a") vs ∅)) + 1 = 10000 := by
    rw [count_amp_keys_a, hlen]
  have c2 : count 38 (Values.Encode (AList.insert QueryKey [ascii "2"]
      (AList.insert (ascii "a") vs ∅))) + 1 = 10001 := by
    rw [count_amp_keys_a_page, hlen]
  have l1 : (10000 : Nat) ≤ defaultMaxParams := Nat.le_refl _
  have l2 : defaultMaxParams < 10001 := Nat.lt_succ_self _
  have e : ParseQuery (Values.Encode (AList.insert QueryKey [ascii "2"]
      (AList.insert (ascii "a") vs ∅))) = ∅ := ParseQuery_of_exceeds _ (by rw [c2]; exact l2)
  refine ⟨c1, ?_, PageURL_keys_a vs, c2, e, ?_⟩
  · rw [ParseQuery_Encode_at _ _ (by rw [c1]; exact l1)]
    exact at_keys_a vs
  · rw [e]
    intro h
    exact absurd h (List.cons_ne_nil _ _).symm

/-- C7 as stated fails at the pager of a request of ten thousand parameters, the key `a`
with ten thousand empty values, which `url.ParseQuery` accepts: `PageURL(2)` returns `?`
followed by a query string of 10001 parameters, which `url.ParseQuery` rejects, so its
parse is empty and has no `page` value. -/
theorem C7_parse_rejects_result_above_limit :
    count 38 (Values.Encode tenThousandParams) + 1 = 10000 ∧
      (ParseQuery (Values.Encode tenThousandParams)).at (ascii "a") = List.replicate 10000 [] ∧
      ((NewPager tenThousandParams 10).PageURL 2).2
        = (63 : Byte) :: Values.Encode (AList.insert QueryKey [ascii "2"] tenThousandParams) ∧
      count 38 (Values.Encode (AList.insert QueryKey [ascii "2"] tenThousandParams)) + 1
        = 10001 ∧
      ParseQuery (Values.Encode (AList.insert QueryKey [ascii "2"] tenThousandParams)) = ∅ ∧
      (ParseQuery (Values.Encode (AList.insert QueryKey [ascii "2"] tenThousandParams))).at
        QueryKey ≠ [decimalRendering 2] := by
  rw [tenThousandParams]
  exact PageURL_above_limit (List.replicate 10000 []) (List.length_replicate _ _)

end ParameterLimit

section RiverStop

open services

/-- C15, amended: whenever the web server shutdown succeeded and `River.Stop` returns an
error, `Shutdown` logs the error and goes on to `ORM.Close`; it returns exactly the value
it would have returned had `River.Stop` succeeded and closes exactly the connections it
would have closed then; when `ORM.Close` and `Database.Close` return no error these are
the ORM, the database and the cache, and `Shutdown` returns no error. -/
theorem C15_riverStop_error_not_fatal (o : ShutdownOutcomes) (e : GoError)
    (hw : o.webShutdown = none) :
    (Container.Shutdown true { o with riverStop := some e }).2
        = (Container.Shutdown true { o with riverStop := none }).2 ∧
      (Container.Shutdown true { o with riverStop := some e }).1.filter Event.isClose
        = (Container.Shutdown true { o with riverStop := none }).1.filter Event.isClose ∧
      Event.logError (ascii "failed to stop River client")
        ∈ (Container.Shutdown true { o with riverStop := some e }).1 ∧
      Event.ormClose ∈ (Container.Shutdown true { o with riverStop := some e }).1 ∧
      (o.ormClose = none → o.databaseClose = none →
        (Container.Shutdown true { o with riverStop := some e })
          = ([.webShutdown, .riverStop, .logError (ascii "failed to stop River client"),
              .ormClose, .databaseClose, .cacheClose, .riverCancel, .webCancel], none)) := by
  obtain ⟨w, r, m, d⟩ := o
  simp only at hw
  subst hw
  cases m <;> cases d <;>
    simp [Container.Shutdown, shutdownRiver, shutdownDeferred, Event.isClose]

/-- C15 at a shutdown in which only `River.Stop` fails. -/
theorem C15_riverStop_error_not_fatal_witness :
    (⟨none, none, none, none⟩ : ShutdownOutcomes).webShutdown = none ∧
      Container.Shutdown true ⟨none, some ⟨ascii "timeout"⟩, none, none⟩
        = ([.webShutdown, .riverStop, .logError (ascii "failed to stop River client"),
            .ormClose, .databaseClose, .cacheClose, .riverCancel, .webCancel], none) :=
  ⟨rfl, (C15_riverStop_error_not_fatal ⟨none, none, none, none⟩ ⟨ascii "timeout"⟩ rfl).2.2.2.2
    rfl rfl⟩

end RiverStop
